import Mathlib

/-!
# A shallow embedding of the HTML lexer, parser core and printer

Sources embedded: `internal/html_lexer/html_lexer.go`,
`internal/html_parser/html_parser.go`, `internal/html_printer/html_printer.go`
and `internal/html_ast/html_ast.go`.

Modelling conventions.

* A Go `string` is its sequence of bytes, a `List Nat` with every element below 256.
* A Go `rune` is an `Int`; the lexer's end marker `eof` is `-1` as in the source.
* An `int32` of Go (`logger.Loc.Start`, `logger.Range.Len`) is an `Int`; every
  conversion `int32(n)` and every `int32` addition or subtraction of the code goes
  through `int32`, which wraps around at `2^31` as the machine does.
* Lengths and slice indices that the code only ever counts upwards from zero
  (`Lexer.current`, `parser.index`, `parser.end`) are `Nat`; Go's `int` is taken to
  be 64 bits wide, so that these never wrap.
* A function that can panic on an out-of-range slice or index access returns
  `Option`; `none` stands for "did not return normally". Unbounded `for` loops
  are run with a step budget and also answer `none` when the budget is used up;
  the theorems show that the budget chosen by the callers is never used up.
* The log is a list of messages, threaded explicitly through the code.
-/

set_option maxRecDepth 100000

/-! ## The `utf8` package of the Go standard library -/

namespace utf8

/-- The replacement rune `utf8.RuneError` (U+FFFD). -/
def RuneError : Int := 0xFFFD

/-- Go's `utf8.first` table joined with `utf8.acceptRanges`: for a first byte,
the length of the encoding it starts (`0` for a byte that starts none, `1` for
ASCII) and the lowest and highest value accepted for the second byte. -/
def first (b : Nat) : Nat × Nat × Nat :=
  if b < 0x80 then (1, 0, 0)
  else if b < 0xC2 then (0, 0, 0)
  else if b < 0xE0 then (2, 0x80, 0xBF)
  else if b = 0xE0 then (3, 0xA0, 0xBF)
  else if b < 0xED then (3, 0x80, 0xBF)
  else if b = 0xED then (3, 0x80, 0x9F)
  else if b < 0xF0 then (3, 0x80, 0xBF)
  else if b = 0xF0 then (4, 0x90, 0xBF)
  else if b < 0xF4 then (4, 0x80, 0xBF)
  else if b = 0xF4 then (4, 0x80, 0x8F)
  else (0, 0, 0)

/-- Go's `utf8.DecodeRuneInString`: the first rune of `s` and its width in bytes;
`(RuneError, 0)` for the empty string and `(RuneError, 1)` for an invalid or
truncated encoding. -/
def DecodeRuneInString (s : List Nat) : Int × Nat :=
  match s with
  | [] => (RuneError, 0)
  | s0 :: rest =>
    let x := first s0
    if x.1 = 1 then ((s0 : Int), 1)
    else if x.1 = 0 then (RuneError, 1)
    else if rest.length + 1 < x.1 then (RuneError, 1)
    else
      match rest with
      | [] => (RuneError, 1)
      | s1 :: rest1 =>
        if s1 < x.2.1 ∨ x.2.2 < s1 then (RuneError, 1)
        else if x.1 ≤ 2 then (((s0 % 0x20 * 0x40 + s1 % 0x40 : Nat) : Int), 2)
        else
          match rest1 with
          | [] => (RuneError, 1)
          | s2 :: rest2 =>
            if s2 < 0x80 ∨ 0xBF < s2 then (RuneError, 1)
            else if x.1 ≤ 3 then
              (((s0 % 0x10 * 0x1000 + s1 % 0x40 * 0x40 + s2 % 0x40 : Nat) : Int), 3)
            else
              match rest2 with
              | [] => (RuneError, 1)
              | s3 :: _ =>
                if s3 < 0x80 ∨ 0xBF < s3 then (RuneError, 1)
                else
                  (((s0 % 0x08 * 0x40000 + s1 % 0x40 * 0x1000 + s2 % 0x40 * 0x40
                      + s3 % 0x40 : Nat) : Int), 4)

/-- Go's `utf8.AppendRune` for a scalar value: the UTF-8 encoding of a code point. -/
def encode (c : Nat) : List Nat :=
  if c < 0x80 then [c]
  else if c < 0x800 then [0xC0 + c / 0x40, 0x80 + c % 0x40]
  else if c < 0x10000 then [0xE0 + c / 0x1000, 0x80 + c / 0x40 % 0x40, 0x80 + c % 0x40]
  else [0xF0 + c / 0x40000, 0x80 + c / 0x1000 % 0x40, 0x80 + c / 0x40 % 0x40, 0x80 + c % 0x40]

/-- A Unicode scalar value: a code point up to U+10FFFF that is not a surrogate. -/
def ValidRune (c : Nat) : Prop :=
  c < 0xD800 ∨ (0xE000 ≤ c ∧ c < 0x110000)

instance (c : Nat) : Decidable (ValidRune c) := by
  unfold ValidRune
  infer_instance

/-- The UTF-8 encoding of a sequence of code points. -/
def encodeAll (cs : List Nat) : List Nat :=
  cs.flatMap encode

end utf8

/-- The bytes of a string literal of the Go source (Go source text is UTF-8). -/
def bytes (s : String) : List Nat :=
  s.data.flatMap fun c => utf8.encode c.toNat

/-- A rune literal of the Go source, such as `'<'`. -/
def rune (c : Char) : Int := (c.toNat : Int)

/-- Go's conversion `int32(n)`, which is also what an `int32` sum or difference
is of the exact one: the value brought into the range from `-2^31` to
`2^31 - 1` by adding or subtracting a multiple of `2^32`. -/
def int32 (n : Int) : Int := (n + 2147483648) % 4294967296 - 2147483648

/-! ## The `logger` package -/

namespace logger

/-- Go's `logger.Loc`: a byte offset into the source. -/
structure Loc where
  Start : Int
deriving DecidableEq, Repr

/-- Go's `logger.Range`: a start offset and a length. -/
structure Range where
  Loc : Loc
  Len : Int
deriving DecidableEq, Repr

/-- Go's `Range.End`, an `int32` sum. -/
def Range.End (r : Range) : Int := int32 (r.Loc.Start + r.Len)

/-- Go's `logger.MsgKind`. -/
inductive MsgKind where
  | Error
  | Warning
deriving DecidableEq, Repr

/-- One operand of a `fmt.Sprintf` call: a `%s` operand that is a string of the
program, a `%s` operand that is a slice of the source text, or a `%q` operand
(a slice of the source text, printed quoted). -/
inductive Arg where
  | s (text : String)
  | raw (contents : List Nat)
  | q (contents : List Nat)
deriving DecidableEq, Repr

/-- The text of a message: the format string and the operands it is applied to
(a message given as a plain string has no operand). -/
structure Text where
  format : String
  args : List Arg
deriving DecidableEq, Repr

/-- Go's `logger.Msg`, reduced to what `AddRangeError` and `AddRangeWarning`
are given: the kind, the range and the text. -/
structure Msg where
  Kind : MsgKind
  Range : Range
  Text : Text
deriving DecidableEq, Repr

/-- The messages logged so far, oldest first. -/
abbrev Log := List Msg

/-- Go's `Log.AddRangeError`. -/
def Log.AddRangeError (log : Log) (r : Range) (text : Text) : Log :=
  log ++ [{ Kind := MsgKind.Error, Range := r, Text := text }]

/-- Go's `Log.AddRangeWarning`. -/
def Log.AddRangeWarning (log : Log) (r : Range) (text : Text) : Log :=
  log ++ [{ Kind := MsgKind.Warning, Range := r, Text := text }]

end logger

/-! ## `internal/html_lexer/html_lexer.go` -/

namespace html_lexer

open logger

/-- Go's `html_lexer.T`, the token kinds in the order of the `iota` block. -/
inductive T where
  | TEndOfFile
  | TSyntaxError
  | TDoctypeStart
  | TCommentStart
  | TCommentEnd
  | TTagOpenStart
  | TTagCloseStart
  | TTagEnd
  | TTagSelfClosingEnd
  | TEquals
  | TName
  | TString
  | TText
deriving DecidableEq, Repr

open T

/-- The end marker the lexer stores in `codePoint` at end of input. -/
def eof : Int := -1

/-- Go's `tokenToString` table. -/
def tokenToString : T → String
  | TEndOfFile => "end of file"
  | TSyntaxError => "syntax error"
  | TDoctypeStart => "<!doctype"
  | TCommentStart => "<!--"
  | TCommentEnd => "-->"
  | TTagOpenStart => "<"
  | TTagCloseStart => "</"
  | TTagEnd => ">"
  | TTagSelfClosingEnd => "/>"
  | TEquals => "="
  | TName => "name"
  | TString => "string"
  | TText => "text"

/-- Go's `T.String`. -/
def T.String (t : T) : String := tokenToString t

/-- Go's `html_lexer.Token`. -/
structure Token where
  Range : Range
  Kind : T
deriving DecidableEq, Repr

/-- Go's `html_lexer.Lexer`; `source` is `source.Contents`. -/
structure Lexer where
  log : Log
  source : List Nat
  current : Nat
  codePoint : Int
  Token : Token
deriving DecidableEq, Repr

/-- The assignment `lexer.Token.Kind = kind`. -/
def Lexer.setKind (lexer : Lexer) (kind : T) : Lexer :=
  { lexer with Token := { lexer.Token with Kind := kind } }

/-- Go's `Lexer.step`; the slice `Contents[current:]` panics when `current`
exceeds the length of the source. -/
def Lexer.step (lexer : Lexer) : Option Lexer :=
  if lexer.current ≤ lexer.source.length then
    let decoded := utf8.DecodeRuneInString (lexer.source.drop lexer.current)
    let width := decoded.2
    let codePoint := if width = 0 then eof else decoded.1
    some { lexer with
      codePoint := codePoint
      Token := { lexer.Token with
        Range := { lexer.Token.Range with
          Len := int32 (int32 (lexer.current : Int) - lexer.Token.Range.Loc.Start) } }
      current := lexer.current + width }
  else none

/-- Go's `Lexer.match`; the slice is only taken when its end is in range. -/
def Lexer.«match» (lexer : Lexer) (matcher : List Nat) : Bool :=
  let «end» := lexer.current + matcher.length
  decide («end» ≤ lexer.source.length) &&
    decide ((lexer.source.take «end»).drop lexer.current = matcher)

/-- The loop `for i := 0; i < n; i++ { lexer.step() }` of `Lexer.eat`. -/
def Lexer.stepTimes : Nat → Lexer → Option Lexer
  | 0, lexer => some lexer
  | n + 1, lexer => lexer.step.bind (Lexer.stepTimes n)

/-- Go's `Lexer.eat`: the answer and the lexer afterwards. -/
def Lexer.eat (lexer : Lexer) (matcher : List Nat) : Option (Bool × Lexer) :=
  if lexer.«match» matcher then
    (lexer.stepTimes matcher.length).map fun lexer => (true, lexer)
  else some (false, lexer)

/-- The `for` loop of `Lexer.consumeToEndOfString`, run for at most `fuel` rounds. -/
def Lexer.consumeToEndOfStringLoop (startChar : Int) : Nat → Lexer → Option Lexer
  | 0, _ => none
  | fuel + 1, lexer =>
    if lexer.codePoint = eof then
      some { lexer with
        log := lexer.log.AddRangeError lexer.Token.Range
          { format := "String must be closed", args := [] } }
    else if lexer.codePoint = startChar then lexer.step
    else lexer.step.bind (Lexer.consumeToEndOfStringLoop startChar fuel)

/-- Go's `Lexer.consumeToEndOfString`. -/
def Lexer.consumeToEndOfString (lexer : Lexer) (_startRange : Range) (startChar : Int) :
    Option Lexer :=
  Lexer.consumeToEndOfStringLoop startChar (lexer.source.length + 1) lexer

/-- The `for` loop of `Lexer.consumeToEndOfText`, run for at most `fuel` rounds. -/
def Lexer.consumeToEndOfTextLoop : Nat → Lexer → Option Lexer
  | 0, _ => none
  | fuel + 1, lexer =>
    if lexer.codePoint = rune '<' ∨ lexer.codePoint = rune '-' ∨ lexer.codePoint = rune '>'
        ∨ lexer.codePoint = 0x22 ∨ lexer.codePoint = 0x27 ∨ lexer.codePoint = eof then
      some lexer
    else lexer.step.bind (Lexer.consumeToEndOfTextLoop fuel)

/-- Go's `Lexer.consumeToEndOfText`. -/
def Lexer.consumeToEndOfText (lexer : Lexer) (_startRange : Range) : Option Lexer :=
  Lexer.consumeToEndOfTextLoop (lexer.source.length + 1) lexer

/-- Go's `IsNameStart`. -/
def IsNameStart (c : Int) : Bool :=
  (decide (c ≥ rune 'a') && decide (c ≤ rune 'z'))
    || (decide (c ≥ rune 'A') && decide (c ≤ rune 'Z'))
    || decide (c = rune '_') || decide (c ≥ 0x80)

/-- Go's `IsNameContinue`. -/
def IsNameContinue (c : Int) : Bool :=
  IsNameStart c || decide (c = rune ':')

/-- Go's `Lexer.wouldStartName`. -/
def Lexer.wouldStartName (lexer : Lexer) : Bool :=
  IsNameStart lexer.codePoint

/-- The `for` loop of `Lexer.consumeToEndOfName`, run for at most `fuel` rounds. -/
def Lexer.consumeToEndOfNameLoop : Nat → Lexer → Option Lexer
  | 0, _ => none
  | fuel + 1, lexer =>
    if IsNameContinue lexer.codePoint then
      lexer.step.bind (Lexer.consumeToEndOfNameLoop fuel)
    else some lexer

/-- Go's `Lexer.consumeToEndOfName`. -/
def Lexer.consumeToEndOfName (lexer : Lexer) (_startRange : Range) : Option Lexer :=
  Lexer.consumeToEndOfNameLoop (lexer.source.length + 1) lexer

/-- The first statement of `Lexer.next`: a fresh token that starts where the
previous one ends (its length is zero and its kind the zero value). -/
def Lexer.resetToken (lexer : Lexer) : Lexer :=
  { lexer with
    Token := { Range := { Loc := { Start := lexer.Token.Range.End }, Len := 0 },
               Kind := TEndOfFile } }

/-- The `case '<'` of `Lexer.next`. -/
def Lexer.nextLess (lexer : Lexer) : Option Lexer := do
  let (doctype, lexer) ← lexer.eat (bytes "!doctype")
  let (doctype, lexer) ← if doctype then pure (true, lexer) else lexer.eat (bytes "!DOCTYPE")
  if doctype then
    let lexer ← lexer.step
    pure (lexer.setKind TDoctypeStart)
  else
    let (comment, lexer) ← lexer.eat (bytes "!--")
    if comment then
      let lexer ← lexer.step
      pure (lexer.setKind TCommentStart)
    else
      let (close, lexer) ← lexer.eat (bytes "/")
      if close then
        let lexer ← lexer.step
        pure (lexer.setKind TTagCloseStart)
      else
        let lexer ← lexer.step
        if lexer.wouldStartName then
          pure (lexer.setKind TTagOpenStart)
        else
          let lexer ← lexer.consumeToEndOfText lexer.Token.Range
          pure (lexer.setKind TText)

/-- Go's `Lexer.next`. -/
def Lexer.next (lexer : Lexer) : Option Lexer := do
  let lexer := lexer.resetToken
  if lexer.codePoint = eof then
    pure (lexer.setKind TEndOfFile)
  else if lexer.codePoint = rune '=' then
    let lexer ← lexer.step
    pure (lexer.setKind TEquals)
  else if lexer.codePoint = 0x22 ∨ lexer.codePoint = 0x27 then
    let lexer ← lexer.consumeToEndOfString lexer.Token.Range lexer.codePoint
    pure (lexer.setKind TString)
  else if lexer.codePoint = rune '<' then
    lexer.nextLess
  else if lexer.codePoint = rune '-' then
    let (commentEnd, lexer) ← lexer.eat (bytes "->")
    if commentEnd then
      let lexer ← lexer.step
      pure (lexer.setKind TCommentEnd)
    else
      let lexer ← lexer.step
      let lexer ← lexer.consumeToEndOfText lexer.Token.Range
      pure (lexer.setKind TText)
  else if lexer.codePoint = rune '/' then
    let (selfClosing, lexer) ← lexer.eat (bytes ">")
    if selfClosing then
      let lexer ← lexer.step
      pure (lexer.setKind TTagSelfClosingEnd)
    else
      let lexer ← lexer.step
      let lexer ← lexer.consumeToEndOfText lexer.Token.Range
      pure (lexer.setKind TText)
  else if lexer.codePoint = rune '>' then
    let lexer ← lexer.step
    pure (lexer.setKind TTagEnd)
  else if lexer.wouldStartName then
    let lexer ← lexer.consumeToEndOfName lexer.Token.Range
    pure (lexer.setKind TName)
  else
    let lexer ← lexer.consumeToEndOfText lexer.Token.Range
    pure (lexer.setKind TText)

/-- The `for` loop of `Tokenize`, run for at most `fuel` rounds: the tokens
collected and the lexer at the end. -/
def tokenizeLoop : Nat → Lexer → List Token → Option (List Token × Lexer)
  | 0, _, _ => none
  | fuel + 1, lexer, tokens =>
    if lexer.Token.Kind ≠ TEndOfFile then
      lexer.next.bind fun next => tokenizeLoop fuel next (tokens ++ [lexer.Token])
    else some (tokens, lexer)

/-- Go's `Tokenize`: the tokens returned and the log afterwards. -/
def Tokenize (log : Log) (source : List Nat) : Option (List Token × Log) := do
  let lexer : Lexer :=
    { log := log, source := source, current := 0, codePoint := 0,
      Token := { Range := { Loc := { Start := 0 }, Len := 0 }, Kind := TEndOfFile } }
  let lexer ← lexer.step
  let lexer ← lexer.next
  let (tokens, lexer) ← tokenizeLoop (source.length + 1) lexer []
  pure (tokens, lexer.log)

end html_lexer

/-! ## `internal/html_ast/html_ast.go` -/

namespace ast

/-- Go's `ast.ImportRecord`, declared in `internal/ast`; the code embedded here
never reads or builds one, so only the type is needed. -/
abbrev ImportRecord := Unit

end ast

namespace html_ast

/-- Go's `html_ast.Doctype`. -/
structure Doctype where
  Name : String
  Value : String
deriving DecidableEq, Repr

/-- Go's `html_ast.AST`. -/
structure AST where
  ImportRecords : List ast.ImportRecord
  Doctype : Doctype
deriving DecidableEq, Repr

end html_ast

/-! ## `internal/html_parser/html_parser.go` (Go package `html_parser`, namespace `htmlparser`) -/

namespace htmlparser

open logger html_lexer html_lexer.T

/-- Go's `html_parser.parser`; `source` is `source.Contents`. -/
structure parser where
  log : Log
  source : List Nat
  tokens : List Token
  stack : List T
  index : Nat
  «end» : Nat
  prevError : Loc
  importRecords : List ast.ImportRecord
deriving DecidableEq, Repr

/-- Go's slice expression `s[lo:hi]` on a string, which panics unless
`0 ≤ lo ≤ hi ≤ len(s)`. -/
def slice (s : List Nat) (lo hi : Int) : Option (List Nat) :=
  if 0 ≤ lo ∧ lo ≤ hi ∧ hi ≤ (s.length : Int) then
    some ((s.take hi.toNat).drop lo.toNat)
  else none

/-- Go's `parser.advance`. -/
def parser.advance (p : parser) : parser :=
  if p.index < p.«end» then { p with index := p.index + 1 } else p

/-- Go's `parser.at`; the index expressions `p.tokens[index]` and
`p.tokens[p.end]` panic when out of range. -/
def parser.«at» (p : parser) (index : Nat) : Option Token :=
  if index < p.«end» then p.tokens[index]?
  else if p.«end» < p.tokens.length then
    (p.tokens[p.«end»]?).map fun t =>
      { Kind := TEndOfFile, Range := { Loc := t.Range.Loc, Len := 0 } }
  else
    some { Kind := TEndOfFile,
           Range := { Loc := { Start := int32 (p.source.length : Int) }, Len := 0 } }

/-- Go's `parser.current`. -/
def parser.current (p : parser) : Option Token :=
  p.«at» p.index

/-- Go's `parser.next`. -/
def parser.next (p : parser) : Option Token :=
  p.«at» (p.index + 1)

/-- Go's `parser.raw`. -/
def parser.raw (p : parser) : Option (List Nat) := do
  let t ← p.current
  slice p.source t.Range.Loc.Start t.Range.End

/-- Go's `parser.peek`. -/
def parser.peek (p : parser) (kind : T) : Option Bool := do
  let t ← p.current
  pure (decide (kind = t.Kind))

/-- Go's `parser.eat`: the answer and the parser afterwards. -/
def parser.eat (p : parser) (kind : T) : Option (Bool × parser) := do
  if (← p.peek kind) then
    pure (true, p.advance)
  else
    pure (false, p)

/-- Go's `parser.expect`: the answer and the parser afterwards. -/
def parser.expect (p : parser) (kind : T) : Option (Bool × parser) := do
  let (eaten, p) ← p.eat kind
  if eaten then
    pure (true, p)
  else
    let t ← p.current
    let (text, t) ←
      if t.Kind = TEndOfFile then
        pure (({ format := "Expected %s but found %s",
                 args := [Arg.s kind.String, Arg.s t.Kind.String] } : Text),
              { t with Range := { t.Range with Len := 0 } })
      else do
        let raw ← p.raw
        pure (({ format := "Expected %s but found %q",
                 args := [Arg.s kind.String, Arg.q raw] } : Text), t)
    if t.Range.Loc.Start > p.prevError.Start then
      pure (false, { p with
        log := p.log.AddRangeWarning t.Range text
        prevError := t.Range.Loc })
    else
      pure (false, p)

/-- Go's `parser.unexpected`. -/
def parser.unexpected (p : parser) : Option parser := do
  let t ← p.current
  if t.Range.Loc.Start > p.prevError.Start then
    let (text, t) ←
      if t.Kind = TEndOfFile then
        pure (({ format := "Unexpected %s", args := [Arg.s t.Kind.String] } : Text),
              { t with Range := { t.Range with Len := 0 } })
      else do
        let raw ← p.raw
        pure (({ format := "Unexpected %s", args := [Arg.raw raw] } : Text), t)
    pure { p with
      log := p.log.AddRangeWarning t.Range text
      prevError := t.Range.Loc }
  else
    pure p

/-- Modelled from the spec: `parser.decoded`, which `parseDoctype` calls and no
source file defines. The spec has the doctype rule treat the current `Text`
token "as a candidate name" whose captured text "is not consumed into the
result"; it is taken to read the text of the current token, as `raw` does, and
to change nothing. -/
def parser.decoded (p : parser) : Option (List Nat) :=
  p.raw

/-- Go's `parser.parseDoctype`: the node returned and the parser afterwards. -/
def parser.parseDoctype (p : parser) : Option (html_ast.Doctype × parser) := do
  let (_, p) ← p.expect TDoctypeStart
  let t ← p.current
  let p ←
    if t.Kind = TText then do
      let _name ← p.decoded
      pure p.advance
    else pure p
  let (_, p) ← p.expect TText
  let (_, p) ← p.expect TTagEnd
  pure ({ Name := "name", Value := "value" }, p)

/-- Go's `Parse`: the tree returned and the log afterwards. -/
def Parse (log : Log) (source : List Nat) : Option (html_ast.AST × Log) := do
  let (tokens, log) ← Tokenize log source
  let p : parser :=
    { log := log, source := source, tokens := tokens, stack := [], index := 0,
      «end» := tokens.length, prevError := { Start := -1 }, importRecords := [] }
  let (doctype, p) ← p.parseDoctype
  pure ({ ImportRecords := [], Doctype := doctype }, p.log)

end htmlparser

/-! ## `internal/html_printer/html_printer.go` -/

namespace html_printer

/-- Go's `html_printer.printer`; `sb` is the text written to the builder so far. -/
structure printer where
  importRecords : List ast.ImportRecord
  sb : String
deriving DecidableEq, Repr

/-- Go's `printer.print`. -/
def printer.print (p : printer) (text : String) : printer :=
  { p with sb := p.sb ++ text }

/-- Go's `printer.printDoctype`. -/
def printer.printDoctype (p : printer) (doctype : html_ast.Doctype) : printer :=
  let p := p.print "<!doctype "
  let p := p.print doctype.Name
  let p := p.print " "
  let p := p.print doctype.Value
  p.print ">"

/-- Go's `Print`. -/
def Print (tree : html_ast.AST) : String :=
  let p : printer := { importRecords := tree.ImportRecords, sb := "" }
  (p.printDoctype tree.Doctype).sb

end html_printer

/-! ## Vocabulary of the statements -/

namespace html_lexer

open logger T

/-- The width in bytes of the code point that `utf8.DecodeRuneInString` reads at
byte offset `p` of `source` (zero at and after the end). -/
def widthAt (source : List Nat) (p : Nat) : Nat :=
  (utf8.DecodeRuneInString (source.drop p)).2

/-- The code point at byte offset `p` of `source` as `Lexer.step` stores it:
the decoded rune, or `eof` at the end of the source. -/
def codePointAt (source : List Nat) (p : Nat) : Int :=
  if widthAt source p = 0 then eof else (utf8.DecodeRuneInString (source.drop p)).1

/-- The lexer that looks at byte offset `p`: its code point is the one decoded
at `p`, `current` is just past that code point, and its token, of kind `kind`,
runs from `start` to `p`, both recorded as `int32`. -/
def lexerAt (log : Log) (source : List Nat) (start : Int) (p : Nat) (kind : T) : Lexer :=
  { log := log, source := source, current := p + widthAt source p,
    codePoint := codePointAt source p,
    Token := { Range := { Loc := { Start := int32 start },
                          Len := int32 (int32 (p : Int) - int32 start) },
               Kind := kind } }

/-- The tokens `tokens` tile the byte offsets from `a` to `b`: the first starts
at `a`, each later one starts where the one before it ends, and the last ends
at `b` (no token at all when `a = b`). -/
def Tiles : Int → List Token → Int → Prop
  | a, [], b => a = b
  | a, t :: tokens, b => t.Range.Loc.Start = a ∧ Tiles t.Range.End tokens b

/-- The token that `Lexer.next` leaves in a lexer that looked at offset `p` before
the call and looks at offset `q` after it: start and length as `int32`. -/
def tokenAt (p q : Nat) (kind : T) : Token :=
  { Range := { Loc := { Start := int32 (p : Int) },
               Len := int32 (int32 (q : Int) - int32 (p : Int)) }, Kind := kind }

/-- The run of `Lexer.next` calls from byte offset `p` to the end of the source:
`Lexed log source p tokens` says that calling `next` again and again, starting
with a lexer that looks at offset `p`, yields exactly `tokens` before the call
that meets the end of the source. Each call starts at an offset `p` before the
end, stops at a later offset `q`, and yields `tokenAt p q kind`. -/
inductive Lexed (log : Log) (source : List Nat) : Nat → List Token → Prop where
  | done (p : Nat) (h : source.length ≤ p) : Lexed log source p []
  | token (p q : Nat) (kind : T) (tokens : List Token)
      (hp : p < source.length) (hq : p < q) (hle : q ≤ source.length)
      (hkind : kind ≠ TEndOfFile)
      (hnext : (lexerAt log source p p TEndOfFile).next = some (lexerAt log source p q kind))
      (rest : Lexed log source q tokens) :
      Lexed log source p (tokenAt p q kind :: tokens)

/-- The code points that `utf8.DecodeRuneInString` reads one after the other
from byte offset `p` on, at most `fuel` of them. -/
def codePointsFrom (source : List Nat) : Nat → Nat → List Int
  | 0, _ => []
  | fuel + 1, p =>
    if p < source.length then
      codePointAt source p :: codePointsFrom source fuel (p + widthAt source p)
    else []

/-- The code points of a source text, as the lexer reads them (every code point
takes at least one byte, so `source.length` bounds their number). -/
def codePoints (source : List Nat) : List Int :=
  codePointsFrom source source.length 0

/-- `Tokenize` returns normally on `source` and the first token it returns is `token`. -/
def FirstToken (log : Log) (source : List Nat) (token : Token) : Prop :=
  ∃ tokens log2, Tokenize log source = some (token :: tokens, log2)

/-- The code points at which `consumeToEndOfText` stops: the `case` list of its
`switch`. -/
def isTextStop (c : Int) : Prop :=
  c = rune '<' ∨ c = rune '-' ∨ c = rune '>' ∨ c = 0x22 ∨ c = 0x27 ∨ c = eof

/-- `Run source P p q`: stepping from byte offset `p`, one decoded code point at
a time, reaches offset `q`, and every code point stepped over satisfies `P`. -/
inductive Run (source : List Nat) (P : Int → Prop) : Nat → Nat → Prop where
  | stop (p : Nat) : Run source P p p
  | step (p q : Nat) (hp : p < source.length) (hP : P (codePointAt source p))
      (rest : Run source P (p + widthAt source p) q) : Run source P p q

/-- What one call of `Lexer.next` produces when the lexer looks at byte offset
`p`: the offset `q` it looks at afterwards and the kind of the token, branch by
branch of the `switch` in `next`. -/
inductive Produced (source : List Nat) : Nat → Nat → T → Prop where
  | equals (p : Nat) (h : codePointAt source p = rune '=') : Produced source p (p + 1) TEquals
  | string (p : Nat) (h : codePointAt source p = 0x22 ∨ codePointAt source p = 0x27) :
      Produced source p (p + 1) TString
  | doctype (p : Nat) (h : codePointAt source p = rune '<')
      (hm : bytes "!doctype" <+: source.drop (p + 1) ∨
        bytes "!DOCTYPE" <+: source.drop (p + 1)) :
      Produced source p (p + 9) TDoctypeStart
  | commentStart (p : Nat) (h : codePointAt source p = rune '<')
      (hm : bytes "!--" <+: source.drop (p + 1)) : Produced source p (p + 4) TCommentStart
  | tagClose (p : Nat) (h : codePointAt source p = rune '<')
      (hm : bytes "/" <+: source.drop (p + 1)) : Produced source p (p + 2) TTagCloseStart
  | tagOpen (p : Nat) (h : codePointAt source p = rune '<')
      (hn : IsNameStart (codePointAt source (p + 1)) = true) :
      Produced source p (p + 1) TTagOpenStart
  | commentEnd (p : Nat) (h : codePointAt source p = rune '-')
      (hm : bytes "->" <+: source.drop (p + 1)) : Produced source p (p + 3) TCommentEnd
  | selfClosing (p : Nat) (h : codePointAt source p = rune '/')
      (hm : bytes ">" <+: source.drop (p + 1)) : Produced source p (p + 2) TTagSelfClosingEnd
  | tagEnd (p : Nat) (h : codePointAt source p = rune '>') : Produced source p (p + 1) TTagEnd
  | name (p q : Nat) (h : IsNameStart (codePointAt source p) = true)
      (hrun : Run source (fun c => IsNameContinue c = true) p q)
      (hstop : IsNameContinue (codePointAt source q) = false) : Produced source p q TName
  | text (p q : Nat) (h : IsNameStart (codePointAt source p) = false)
      (hrun : Run source (fun c => ¬ isTextStop c) (p + 1) q)
      (hstop : isTextStop (codePointAt source q)) : Produced source p q TText

/-- The tokens of a source from byte offset `p` on, as `next` produces them one
after the other until the end of the source. -/
inductive Chain (source : List Nat) : Nat → List Token → Prop where
  | done (p : Nat) (h : source.length ≤ p) : Chain source p []
  | token (p q : Nat) (kind : T) (tokens : List Token) (hp : p < source.length)
      (h : Produced source p q kind) (rest : Chain source q tokens) :
      Chain source p (tokenAt p q kind :: tokens)

/-- The code point boundaries of the UTF-8 encoding of the code points `cs`:
offset `p` is where the encoding of the first `k` code points ends, for some
`k` (offset 0, the offset of the first byte of an encoded code point, or the
length of the whole encoding). -/
def Boundary (cs : List Nat) (p : Nat) : Prop :=
  ∃ k, k ≤ cs.length ∧ p = (utf8.encodeAll (cs.take k)).length

/-- A source of `2^31` bytes, each of them the letter `a`. -/
def wideName : List Nat := List.replicate 2147483648 0x61

/-- A source of `2^31` bytes, each of them a blank. -/
def wideText : List Nat := List.replicate 2147483648 0x20

/-- The source of `2^31` letters `a` followed by `=`. -/
def wideNameEquals : List Nat := List.replicate 2147483648 0x61 ++ [0x3D]

end html_lexer

namespace htmlparser

open logger html_lexer html_lexer.T

/-- The data-model invariant of a parser-core state: the logical end is at most
the number of tokens, and the range of every token lies within the source
(`0 ≤ Start ≤ End() ≤ len(source)`, with a length that is not negative). -/
def parser.WellFormed (p : parser) : Prop :=
  p.«end» ≤ p.tokens.length ∧
    ∀ t ∈ p.tokens, 0 ≤ t.Range.Loc.Start ∧ 0 ≤ t.Range.Len ∧
      t.Range.Loc.Start ≤ t.Range.End ∧ t.Range.End ≤ (p.source.length : Int)

instance (p : parser) : Decidable p.WellFormed := by
  unfold parser.WellFormed
  infer_instance

/-- The parser state that `Parse` sets up before it calls `parseDoctype`. -/
def parser.fresh (log : Log) (source : List Nat) (tokens : List Token) : parser :=
  { log := log, source := source, tokens := tokens, stack := [], index := 0,
    «end» := tokens.length, prevError := { Start := -1 }, importRecords := [] }

/-- One parser-core operation, as a grammar rule calls it. -/
inductive Op where
  | advance
  | eat (kind : T)
  | expect (kind : T)
  | unexpected
deriving DecidableEq, Repr

/-- The parser after one operation (the boolean answer of `eat` and `expect` is
dropped). -/
def parser.apply (p : parser) : Op → Option parser
  | Op.advance => some p.advance
  | Op.eat kind => (p.eat kind).map fun r => r.2
  | Op.expect kind => (p.expect kind).map fun r => r.2
  | Op.unexpected => p.unexpected

/-- The parser after a sequence of operations. -/
def parser.run (p : parser) : List Op → Option parser
  | [] => some p
  | op :: ops => (p.apply op).bind fun next => next.run ops

/-- The parser `Parse` sets up for the source `>`, whose one token is a `TagEnd`. -/
def tagEndParser : parser :=
  parser.fresh [] (bytes ">") [{ Range := { Loc := { Start := 0 }, Len := 1 }, Kind := TTagEnd }]

/-- The parser `Parse` sets up for the empty source, which has no token. -/
def emptyParser : parser :=
  parser.fresh [] [] []

/-- The parser for the empty source after its first failing `expect`: one
warning is logged and the watermark is at offset 0. -/
def emptyParserWarned : parser :=
  { emptyParser with
    log := [Msg.mk MsgKind.Warning (Range.mk (Loc.mk 0) 0)
      (Text.mk "Expected %s but found %s" [Arg.s "<!doctype", Arg.s "end of file"])]
    prevError := { Start := 0 } }

/-- A state whose logical end lies beyond its (empty) token list. -/
def overrunParser : parser :=
  { emptyParser with «end» := 1 }

/-- A state whose one token has a range that reaches beyond its (empty) source. -/
def strayParser : parser :=
  parser.fresh [] [] [{ Range := { Loc := { Start := 0 }, Len := 5 }, Kind := TText }]

/-- The tokens that `at` returns are in order: the token at an index starts at
a non-negative offset, no later than the token at the next index. -/
def parser.Ordered (p : parser) : Prop :=
  ∀ i t t2, p.«at» i = some t → p.«at» (i + 1) = some t2 →
    0 ≤ t.Range.Loc.Start ∧ t.Range.Loc.Start ≤ t2.Range.Loc.Start

/-- The bookkeeping of the diagnostics of a parser that started with the log
`log0`: there is a current token, the watermark is at most its start offset,
the log is `log0` followed by the diagnostics emitted since, and the watermark
is -1 or the start offset of one of those diagnostics. -/
def parser.Tracked (log0 : Log) (p : parser) : Prop :=
  ∃ t emitted, p.current = some t ∧ p.prevError.Start ≤ t.Range.Loc.Start ∧
    p.log = log0 ++ emitted ∧
    (p.prevError.Start = -1 ∨ ∃ m ∈ emitted, m.Range.Loc.Start = p.prevError.Start)

end htmlparser

/-! # Theorems -/

/-! ## Wraparound of `int32` -/

theorem int32_eq_self (n : Int) (h0 : -2147483648 ≤ n) (h1 : n < 2147483648) : int32 n = n := by
  unfold int32
  omega

theorem int32_natCast (n : Nat) (h : n < 2147483648) : int32 (n : Int) = (n : Int) :=
  int32_eq_self _ (by omega) (by omega)

theorem int32_zero : int32 0 = 0 := by
  decide

theorem int32_bounds (n : Int) : -2147483648 ≤ int32 n ∧ int32 n < 2147483648 := by
  unfold int32
  omega

/-- The end of a range that was recorded by `Lexer.step`. -/
theorem int32_end (start p : Int) :
    int32 (int32 start + int32 (int32 p - int32 start)) = int32 p := by
  unfold int32
  omega

/-- The recorded length of a token is the wrapped difference of its offsets. -/
theorem int32_len (p q : Int) : int32 (int32 q - int32 p) = int32 (q - p) := by
  unfold int32
  omega

/-! ## Decoding: widths and code points -/

namespace utf8

theorem DecodeRuneInString_nil : DecodeRuneInString [] = (RuneError, 0) := rfl

theorem DecodeRuneInString_ascii (c : Nat) (rest : List Nat) (h : c < 0x80) :
    DecodeRuneInString (c :: rest) = ((c : Int), 1) := by
  simp [DecodeRuneInString, first, h]

/-- The width is at most the length of the string, at least one on a non-empty
string, and the rune is never negative. -/
theorem DecodeRuneInString_bounds (s : List Nat) :
    (DecodeRuneInString s).2 ≤ s.length ∧ (s ≠ [] → 1 ≤ (DecodeRuneInString s).2) ∧
      0 ≤ (DecodeRuneInString s).1 := by
  unfold DecodeRuneInString
  split
  · simp [RuneError]
  · rename_i s0 rest
    generalize first s0 = x
    simp only []
    split_ifs <;> try (simp [RuneError]; done)
    all_goals (split <;> try (simp [RuneError]; done))
    all_goals (split_ifs <;> try (first | (simp [RuneError]; done) | (simp; omega)))
    all_goals (split <;> try (simp [RuneError]; done))
    all_goals (split_ifs <;> try (first | (simp [RuneError]; done) | (simp; omega)))
    all_goals (split <;> try (simp [RuneError]; done))
    all_goals (split_ifs <;> try (first | (simp [RuneError]; done) | (simp; omega)))

/-- No code point takes more than four bytes. -/
theorem DecodeRuneInString_width_le (s : List Nat) : (DecodeRuneInString s).2 ≤ 4 := by
  unfold DecodeRuneInString
  split
  · simp
  · rename_i s0 rest
    generalize first s0 = x
    simp only []
    split_ifs <;> try (simp; done)
    all_goals (split <;> try (simp; done))
    all_goals (split_ifs <;> try (simp; done))
    all_goals (split <;> try (simp; done))
    all_goals (split_ifs <;> try (simp; done))
    all_goals (split <;> try (simp; done))
    all_goals (split_ifs <;> simp)

end utf8

namespace html_lexer

open logger T

theorem widthAt_le_four (source : List Nat) (p : Nat) : widthAt source p ≤ 4 :=
  utf8.DecodeRuneInString_width_le _

theorem widthAt_le (source : List Nat) (p : Nat) (h : p ≤ source.length) :
    p + widthAt source p ≤ source.length := by
  have := (utf8.DecodeRuneInString_bounds (source.drop p)).1
  simp only [List.length_drop] at this
  unfold widthAt
  omega

theorem widthAt_pos (source : List Nat) (p : Nat) (h : p < source.length) :
    1 ≤ widthAt source p := by
  apply (utf8.DecodeRuneInString_bounds (source.drop p)).2.1
  intro h0
  have := congrArg List.length h0
  simp at this
  omega

theorem widthAt_end (source : List Nat) (p : Nat) (h : source.length ≤ p) :
    widthAt source p = 0 := by
  unfold widthAt
  rw [List.drop_eq_nil_of_le h]
  rfl

theorem codePointAt_end (source : List Nat) (p : Nat) (h : source.length ≤ p) :
    codePointAt source p = eof := by
  simp [codePointAt, widthAt_end source p h]

theorem codePointAt_nonneg (source : List Nat) (p : Nat) (h : p < source.length) :
    0 ≤ codePointAt source p := by
  have hw := widthAt_pos source p h
  have := (utf8.DecodeRuneInString_bounds (source.drop p)).2.2
  unfold codePointAt
  rw [if_neg (by omega)]
  exact this

theorem codePointAt_ne_eof (source : List Nat) (p : Nat) (h : p < source.length) :
    codePointAt source p ≠ eof := by
  have := codePointAt_nonneg source p h
  unfold eof
  omega

theorem codePointAt_eq_eof_iff (source : List Nat) (p : Nat) :
    codePointAt source p = eof ↔ source.length ≤ p := by
  constructor
  · intro h
    by_contra hlt
    exact codePointAt_ne_eof source p (by omega) h
  · exact codePointAt_end source p

/-- One `step` moves the lexer to the next code point. -/
theorem step_lexerAt (log : Log) (source : List Nat) (start : Int) (p : Nat) (kind : T)
    (h : p ≤ source.length) :
    (lexerAt log source start p kind).step =
      some (lexerAt log source start (p + widthAt source p) kind) := by
  have hle := widthAt_le source p h
  simp only [Lexer.step, lexerAt, hle, if_true]
  simp only [codePointAt, widthAt]

end html_lexer

namespace utf8

theorem first_spec (b : Nat) :
    (b < 0x80 ∧ (first b).1 = 1) ∨
    (0x80 ≤ b ∧ ((first b).1 = 0 ∨
      (0x80 ≤ (first b).2.1 ∧ (first b).2.2 ≤ 0xBF ∧
        (((first b).1 = 2 ∧ 2 ≤ b % 0x20) ∨
         ((first b).1 = 3 ∧ (1 ≤ b % 0x10 ∨ 0xA0 ≤ (first b).2.1)) ∨
         ((first b).1 = 4 ∧ (1 ≤ b % 0x08 ∨ 0x90 ≤ (first b).2.1)))))) := by
  unfold first
  split_ifs <;> simp <;> omega

/-- A first byte outside ASCII never decodes to an ASCII rune. -/
theorem DecodeRuneInString_ge (s0 : Nat) (rest : List Nat) (h : 0x80 ≤ s0) :
    0x80 ≤ (DecodeRuneInString (s0 :: rest)).1 := by
  rcases first_spec s0 with hx | ⟨_, hx⟩
  · omega
  · simp only [DecodeRuneInString]
    generalize first s0 = x at hx ⊢
    split_ifs <;> try (first | omega | (simp [RuneError]; done) | (simp; omega))
    all_goals (split <;> try (first | omega | (simp [RuneError]; done) | (simp; omega)))
    all_goals (split_ifs <;> try (first | omega | (simp [RuneError]; done) | (simp; omega)))
    all_goals (split <;> try (first | omega | (simp [RuneError]; done) | (simp; omega)))
    all_goals (split_ifs <;> try (first | omega | (simp [RuneError]; done) | (simp; omega)))
    all_goals (split <;> try (first | omega | (simp [RuneError]; done) | (simp; omega)))
    all_goals (split_ifs <;> first | omega | simp [RuneError])

end utf8

/-! ## The lexer on a state that looks at a byte offset -/

namespace html_lexer

open logger T

theorem at_ascii (source : List Nat) (p c : Nat) (h : source[p]? = some c) (hc : c < 0x80) :
    widthAt source p = 1 ∧ codePointAt source p = (c : Int) := by
  obtain ⟨hp, hget⟩ := List.getElem?_eq_some.mp h
  have hd : source.drop p = c :: source.drop (p + 1) := by
    rw [List.drop_eq_getElem_cons hp, hget]
  have hdec := utf8.DecodeRuneInString_ascii c (source.drop (p + 1)) hc
  simp [widthAt, codePointAt, hd, hdec]

theorem ascii_of_codePointAt (source : List Nat) (p : Nat) (hp : p < source.length)
    (h : codePointAt source p < 0x80) :
    ∃ c, source[p]? = some c ∧ c < 0x80 ∧ codePointAt source p = (c : Int) ∧
      widthAt source p = 1 := by
  have hd := List.drop_eq_getElem_cons hp
  by_cases hc : source[p] < 0x80
  · have hget : source[p]? = some source[p] := List.getElem?_eq_getElem hp
    exact ⟨source[p], hget, hc, (at_ascii source p _ hget hc).2, (at_ascii source p _ hget hc).1⟩
  · exfalso
    have hw := widthAt_pos source p hp
    have hge := utf8.DecodeRuneInString_ge source[p] (source.drop (p + 1)) (by omega)
    unfold codePointAt at h
    rw [if_neg (by omega), hd] at h
    omega

theorem resetToken_lexerAt (log : Log) (source : List Nat) (start : Int) (p : Nat) (kind : T) :
    (lexerAt log source start p kind).resetToken = lexerAt log source p p TEndOfFile := by
  simp [Lexer.resetToken, lexerAt, Range.End, int32_end, int32_zero]

theorem setKind_lexerAt (log : Log) (source : List Nat) (start : Int) (p : Nat) (k k2 : T) :
    (lexerAt log source start p k).setKind k2 = lexerAt log source start p k2 := rfl

theorem stepTimes_lexerAt (log : Log) (source : List Nat) (start : Int) (kind : T) :
    ∀ (n p : Nat), (∀ i, i < n → widthAt source (p + i) = 1) →
      (lexerAt log source start p kind).stepTimes n =
        some (lexerAt log source start (p + n) kind)
  | 0, p, _ => rfl
  | n + 1, p, h => by
    have hw : widthAt source p = 1 := h 0 (by omega)
    have hp : p ≤ source.length := by
      by_contra hlt
      have := widthAt_end source p (by omega)
      omega
    rw [Lexer.stepTimes, step_lexerAt _ _ _ _ _ hp, hw, Option.some_bind,
      stepTimes_lexerAt log source start kind n (p + 1)
        (fun i hi => by
          have := h (i + 1) (by omega)
          rwa [show p + (i + 1) = p + 1 + i by omega] at this)]
    rw [show p + 1 + n = p + (n + 1) by omega]

theorem match_lexerAt (log : Log) (source : List Nat) (start : Int) (p : Nat) (kind : T)
    (m : List Nat) (hw : widthAt source p = 1) :
    (lexerAt log source start p kind).«match» m = decide (m <+: source.drop (p + 1)) := by
  have hp : p < source.length := by
    by_contra hlt
    have := widthAt_end source p (by omega)
    omega
  have htd : (source.take (p + 1 + m.length)).drop (p + 1) = (source.drop (p + 1)).take m.length :=
    (List.take_drop (p + 1) m.length source).symm
  rw [Bool.eq_iff_iff]
  simp only [Lexer.«match», lexerAt, hw, htd, Bool.and_eq_true, decide_eq_true_eq]
  constructor
  · rintro ⟨_, h⟩
    exact List.prefix_iff_eq_take.mpr h.symm
  · intro h
    have hlen := h.length_le
    simp only [List.length_drop] at hlen
    exact ⟨by omega, (List.prefix_iff_eq_take.mp h).symm⟩

theorem isPrefix_getElem? (m l : List Nat) (h : m <+: l) (j : Nat) (hj : j < m.length) :
    l[j]? = m[j]? := by
  obtain ⟨t, rfl⟩ := h
  rw [List.getElem?_append_left hj]

theorem eat_lexerAt_true (log : Log) (source : List Nat) (start : Int) (p : Nat) (kind : T)
    (m : List Nat) (hw : widthAt source p = 1) (hm : m <+: source.drop (p + 1))
    (hascii : ∀ c ∈ m, c < 0x80) :
    (lexerAt log source start p kind).eat m =
      some (true, lexerAt log source start (p + m.length) kind) := by
  have hsteps : ∀ i, i < m.length → widthAt source (p + i) = 1 := by
    intro i hi
    rcases Nat.eq_zero_or_pos i with h0 | hpos
    · subst h0; exact hw
    · have hj : i - 1 < m.length := by omega
      have hget := isPrefix_getElem? m _ hm (i - 1) hj
      rw [List.getElem?_drop, List.getElem?_eq_getElem hj] at hget
      rw [show p + 1 + (i - 1) = p + i by omega] at hget
      exact (at_ascii source (p + i) _ hget (hascii _ (List.getElem_mem _))).1
  simp [Lexer.eat, match_lexerAt _ _ _ _ _ _ hw, hm,
    stepTimes_lexerAt log source start kind m.length p hsteps]

theorem eat_lexerAt_false (log : Log) (source : List Nat) (start : Int) (p : Nat) (kind : T)
    (m : List Nat) (hw : widthAt source p = 1) (hm : ¬ m <+: source.drop (p + 1)) :
    (lexerAt log source start p kind).eat m =
      some (false, lexerAt log source start p kind) := by
  simp [Lexer.eat, match_lexerAt _ _ _ _ _ _ hw, hm]

theorem consumeToEndOfTextLoop_lexerAt (log : Log) (source : List Nat) (start : Int) (kind : T) :
    ∀ (fuel p : Nat), p ≤ source.length → source.length - p < fuel →
      ∃ q, p ≤ q ∧ q ≤ source.length ∧
        (codePointAt source q = rune '<' ∨ codePointAt source q = rune '-' ∨
          codePointAt source q = rune '>' ∨ codePointAt source q = 0x22 ∨
          codePointAt source q = 0x27 ∨ codePointAt source q = eof) ∧
        Lexer.consumeToEndOfTextLoop fuel (lexerAt log source start p kind) =
          some (lexerAt log source start q kind)
  | 0, p, _, hf => by omega
  | fuel + 1, p, hp, hf => by
    rw [Lexer.consumeToEndOfTextLoop]
    split_ifs with hstop
    · exact ⟨p, le_refl p, hp, hstop, rfl⟩
    · have hne : codePointAt source p ≠ eof := by
        intro he
        apply hstop
        simp [lexerAt, he]
      have hlt : p < source.length := by
        by_contra hge
        exact hne (codePointAt_end source p (by omega))
      have hw := widthAt_pos source p hlt
      have hle := widthAt_le source p hp
      obtain ⟨q, hq1, hq2, hq3, hq4⟩ := consumeToEndOfTextLoop_lexerAt log source start kind fuel
        (p + widthAt source p) hle (by omega)
      refine ⟨q, by omega, hq2, hq3, ?_⟩
      rw [step_lexerAt _ _ _ _ _ hp, Option.some_bind, hq4]

theorem consumeToEndOfNameLoop_lexerAt (log : Log) (source : List Nat) (start : Int) (kind : T) :
    ∀ (fuel p : Nat), p ≤ source.length → source.length - p < fuel →
      ∃ q, p ≤ q ∧ q ≤ source.length ∧ IsNameContinue (codePointAt source q) = false ∧
        Lexer.consumeToEndOfNameLoop fuel (lexerAt log source start p kind) =
          some (lexerAt log source start q kind)
  | 0, p, _, hf => by omega
  | fuel + 1, p, hp, hf => by
    rw [Lexer.consumeToEndOfNameLoop]
    split_ifs with hcont
    · have hne : codePointAt source p ≠ eof := by
        intro he
        simp [lexerAt, he, IsNameContinue, IsNameStart, eof, rune] at hcont
      have hlt : p < source.length := by
        by_contra hge
        exact hne (codePointAt_end source p (by omega))
      have hw := widthAt_pos source p hlt
      have hle := widthAt_le source p hp
      obtain ⟨q, hq1, hq2, hq3, hq4⟩ := consumeToEndOfNameLoop_lexerAt log source start kind fuel
        (p + widthAt source p) hle (by omega)
      refine ⟨q, by omega, hq2, hq3, ?_⟩
      rw [step_lexerAt _ _ _ _ _ hp, Option.some_bind, hq4]
    · refine ⟨p, le_refl p, hp, ?_, rfl⟩
      simpa [lexerAt] using hcont

@[simp] theorem codePoint_lexerAt (log : Log) (source : List Nat) (start : Int) (p : Nat)
    (kind : T) : (lexerAt log source start p kind).codePoint = codePointAt source p := rfl

@[simp] theorem source_lexerAt (log : Log) (source : List Nat) (start : Int) (p : Nat)
    (kind : T) : (lexerAt log source start p kind).source = source := rfl

theorem width_one_of_codePointAt (source : List Nat) (p : Nat) (c : Int)
    (h : codePointAt source p = c) (h0 : 0 ≤ c) (hc : c < 0x80) : widthAt source p = 1 := by
  have hp : p < source.length := by
    by_contra hge
    have := codePointAt_end source p (by omega)
    unfold eof at this
    omega
  obtain ⟨_, _, _, _, hw⟩ := ascii_of_codePointAt source p hp (by omega)
  exact hw

/-- A step followed by a text run, from a code point that is not the end. -/
theorem step_text_lexerAt (log : Log) (source : List Nat) (start : Int) (p : Nat) (kind : T)
    (hp : p < source.length) :
    ∃ q, p < q ∧ q ≤ source.length ∧
      ((lexerAt log source start p kind).step.bind fun l =>
        Lexer.consumeToEndOfTextLoop (source.length + 1) l) =
        some (lexerAt log source start q kind) := by
  have hw := widthAt_pos source p hp
  have hle := widthAt_le source p (le_of_lt hp)
  obtain ⟨q, hq1, hq2, _, hq4⟩ := consumeToEndOfTextLoop_lexerAt log source start kind
    (source.length + 1) (p + widthAt source p) hle (by omega)
  exact ⟨q, by omega, hq2, by rw [step_lexerAt _ _ _ _ _ (le_of_lt hp), Option.some_bind, hq4]⟩

theorem nextLess_lexerAt (log : Log) (source : List Nat) (start : Int) (p : Nat) (kind : T)
    (hcp : codePointAt source p = rune '<') :
    ∃ q k, p < q ∧ q ≤ source.length ∧ k ≠ TEndOfFile ∧
      (lexerAt log source start p kind).nextLess = some (lexerAt log source start q k) := by
  have hw : widthAt source p = 1 :=
    width_one_of_codePointAt source p _ hcp (by decide) (by decide)
  have hp : p < source.length := by
    by_contra hge
    have := widthAt_end source p (by omega)
    omega
  unfold Lexer.nextLess
  have eatStep : ∀ (m : List Nat) (k : T), m <+: source.drop (p + 1) → (∀ c ∈ m, c < 0x80) →
      k ≠ TEndOfFile →
      ∃ q k2, p < q ∧ q ≤ source.length ∧ k2 ≠ TEndOfFile ∧
        ((lexerAt log source start (p + m.length) kind).step.bind fun l =>
          some (l.setKind k)) = some (lexerAt log source start q k2) := by
    intro m k hm _ hk
    have hlen := hm.length_le
    simp only [List.length_drop] at hlen
    have hle := widthAt_le source (p + m.length) (by omega)
    refine ⟨p + m.length + widthAt source (p + m.length), k, ?_, hle, hk, ?_⟩
    · have := widthAt_pos source p hp
      by_cases h0 : m.length = 0
      · rw [h0]; simp; omega
      · omega
    · rw [step_lexerAt _ _ _ _ _ (by omega)]
      rfl
  by_cases h1 : bytes "!doctype" <+: source.drop (p + 1)
  · obtain ⟨q, k2, a, b, c, d⟩ := eatStep _ TDoctypeStart h1 (by decide) (by decide)
    refine ⟨q, k2, a, b, c, ?_⟩
    rw [eat_lexerAt_true _ _ _ _ _ _ hw h1 (by decide)]
    simpa using d
  · rw [eat_lexerAt_false _ _ _ _ _ _ hw h1]
    by_cases h2 : bytes "!DOCTYPE" <+: source.drop (p + 1)
    · obtain ⟨q, k2, a, b, c, d⟩ := eatStep _ TDoctypeStart h2 (by decide) (by decide)
      refine ⟨q, k2, a, b, c, ?_⟩
      simp only [Option.bind_eq_bind, Option.some_bind, Bool.false_eq_true, if_false]
      rw [eat_lexerAt_true _ _ _ _ _ _ hw h2 (by decide)]
      simpa using d
    · simp only [Option.bind_eq_bind, Option.some_bind, Bool.false_eq_true, if_false]
      rw [eat_lexerAt_false _ _ _ _ _ _ hw h2]
      by_cases h3 : bytes "!--" <+: source.drop (p + 1)
      · obtain ⟨q, k2, a, b, c, d⟩ := eatStep _ TCommentStart h3 (by decide) (by decide)
        refine ⟨q, k2, a, b, c, ?_⟩
        simp only [Option.bind_eq_bind, Option.some_bind, Bool.false_eq_true, if_false]
        rw [eat_lexerAt_true _ _ _ _ _ _ hw h3 (by decide)]
        simpa using d
      · simp only [Option.bind_eq_bind, Option.some_bind, Bool.false_eq_true, if_false]
        rw [eat_lexerAt_false _ _ _ _ _ _ hw h3]
        by_cases h4 : bytes "/" <+: source.drop (p + 1)
        · obtain ⟨q, k2, a, b, c, d⟩ := eatStep _ TTagCloseStart h4 (by decide) (by decide)
          refine ⟨q, k2, a, b, c, ?_⟩
          simp only [Option.bind_eq_bind, Option.some_bind, Bool.false_eq_true, if_false]
          rw [eat_lexerAt_true _ _ _ _ _ _ hw h4 (by decide)]
          simpa using d
        · simp only [Option.bind_eq_bind, Option.some_bind, Bool.false_eq_true, if_false]
          rw [eat_lexerAt_false _ _ _ _ _ _ hw h4]
          simp only [Option.bind_eq_bind, Option.some_bind, Bool.false_eq_true, if_false]
          rw [step_lexerAt _ _ _ _ _ (le_of_lt hp), hw]
          simp only [Option.some_bind]
          by_cases h5 : (lexerAt log source start (p + 1) kind).wouldStartName = true
          · refine ⟨p + 1, TTagOpenStart, by omega, by omega, by decide, ?_⟩
            simp only [h5, if_true]
            rfl
          · obtain ⟨q, hq1, hq2, _, hq4⟩ := consumeToEndOfTextLoop_lexerAt log source start kind
              (source.length + 1) (p + 1) (by omega) (by omega)
            refine ⟨q, TText, by omega, hq2, by decide, ?_⟩
            simp only [h5, if_false, Lexer.consumeToEndOfText, source_lexerAt, hq4,
              Option.some_bind, Bool.false_eq_true]
            rfl

/-! ## One call of `next`, and the run of calls `Tokenize` makes -/

theorem next_lexerAt_start (log : Log) (source : List Nat) (start : Int) (p : Nat) (kind : T) :
    (lexerAt log source start p kind).next = (lexerAt log source p p TEndOfFile).next := by
  unfold Lexer.next
  simp only [resetToken_lexerAt]

theorem next_lexerAt_end (log : Log) (source : List Nat) (start : Int) (p : Nat) (kind : T)
    (hp : source.length ≤ p) :
    (lexerAt log source start p kind).next = some (lexerAt log source p p TEndOfFile) := by
  unfold Lexer.next
  simp only [resetToken_lexerAt, codePoint_lexerAt, codePointAt_end source p hp, if_true]
  rfl

theorem next_lexerAt (log : Log) (source : List Nat) (start : Int) (p : Nat) (kind : T)
    (hp : p < source.length) :
    ∃ q k, p < q ∧ q ≤ source.length ∧ k ≠ TEndOfFile ∧
      (lexerAt log source start p kind).next = some (lexerAt log source p q k) := by
  have hne := codePointAt_ne_eof source p hp
  have hw := widthAt_pos source p hp
  have hle := widthAt_le source p (le_of_lt hp)
  have hstep := step_lexerAt log source p p TEndOfFile (le_of_lt hp)
  unfold Lexer.next
  simp only [resetToken_lexerAt, codePoint_lexerAt, if_neg hne]
  split_ifs with h1 h2 h3 h4 h5 h6 h7
  · refine ⟨p + widthAt source p, TEquals, by omega, hle, by decide, ?_⟩
    simp only [hstep, Option.bind_eq_bind, Option.some_bind]
    rfl
  · refine ⟨p + widthAt source p, TString, by omega, hle, by decide, ?_⟩
    have hloop : (lexerAt log source p p TEndOfFile).consumeToEndOfString
        (lexerAt log source p p TEndOfFile).Token.Range (codePointAt source p) =
        some (lexerAt log source p (p + widthAt source p) TEndOfFile) := by
      simp only [Lexer.consumeToEndOfString, source_lexerAt, Lexer.consumeToEndOfStringLoop,
        codePoint_lexerAt, if_neg hne, if_true, hstep]
    simp only [hloop, Option.bind_eq_bind, Option.some_bind]
    rfl
  · obtain ⟨q, k, a, b, c, d⟩ := nextLess_lexerAt log source p p TEndOfFile h3
    exact ⟨q, k, a, b, c, d⟩
  · have hw1 := width_one_of_codePointAt source p _ h4 (by decide) (by decide)
    by_cases hm : bytes "->" <+: source.drop (p + 1)
    · have hlen := hm.length_le
      simp only [List.length_drop] at hlen
      have hb : (bytes "->").length = 2 := by decide
      refine ⟨p + 2 + widthAt source (p + 2), TCommentEnd, by omega,
        widthAt_le source (p + 2) (by omega), by decide, ?_⟩
      rw [eat_lexerAt_true _ _ _ _ _ _ hw1 hm (by decide), hb]
      simp only [Option.bind_eq_bind, Option.some_bind, if_true,
        step_lexerAt log source p (p + 2) TEndOfFile (by omega)]
      rfl
    · obtain ⟨q, hq1, hq2, hq3⟩ := step_text_lexerAt log source p p TEndOfFile hp
      refine ⟨q, TText, hq1, hq2, by decide, ?_⟩
      rw [eat_lexerAt_false _ _ _ _ _ _ hw1 hm]
      simp only [Option.bind_eq_bind, Option.some_bind, Bool.false_eq_true, if_false]
      rw [hstep] at hq3 ⊢
      simp only [Option.some_bind, Lexer.consumeToEndOfText, source_lexerAt] at hq3 ⊢
      rw [hq3]
      rfl
  · have hw1 := width_one_of_codePointAt source p _ h5 (by decide) (by decide)
    by_cases hm : bytes ">" <+: source.drop (p + 1)
    · have hlen := hm.length_le
      simp only [List.length_drop] at hlen
      have hb : (bytes ">").length = 1 := by decide
      refine ⟨p + 1 + widthAt source (p + 1), TTagSelfClosingEnd, by omega,
        widthAt_le source (p + 1) (by omega), by decide, ?_⟩
      rw [eat_lexerAt_true _ _ _ _ _ _ hw1 hm (by decide), hb]
      simp only [Option.bind_eq_bind, Option.some_bind, if_true,
        step_lexerAt log source p (p + 1) TEndOfFile (by omega)]
      rfl
    · obtain ⟨q, hq1, hq2, hq3⟩ := step_text_lexerAt log source p p TEndOfFile hp
      refine ⟨q, TText, hq1, hq2, by decide, ?_⟩
      rw [eat_lexerAt_false _ _ _ _ _ _ hw1 hm]
      simp only [Option.bind_eq_bind, Option.some_bind, Bool.false_eq_true, if_false]
      rw [hstep] at hq3 ⊢
      simp only [Option.some_bind, Lexer.consumeToEndOfText, source_lexerAt] at hq3 ⊢
      rw [hq3]
      rfl
  · refine ⟨p + widthAt source p, TTagEnd, by omega, hle, by decide, ?_⟩
    simp only [hstep, Option.bind_eq_bind, Option.some_bind]
    rfl
  · obtain ⟨q, hq1, hq2, hq3, hq4⟩ := consumeToEndOfNameLoop_lexerAt log source p TEndOfFile
      (source.length + 1) p (le_of_lt hp) (by omega)
    have hqp : q ≠ p := by
      rintro rfl
      simp only [Lexer.wouldStartName, codePoint_lexerAt] at h7
      simp [IsNameContinue, h7] at hq3
    refine ⟨q, TName, by omega, hq2, by decide, ?_⟩
    simp only [Lexer.consumeToEndOfName, source_lexerAt, hq4, Option.bind_eq_bind,
      Option.some_bind]
    rfl
  · obtain ⟨q, hq1, hq2, hq3, hq4⟩ := consumeToEndOfTextLoop_lexerAt log source p TEndOfFile
      (source.length + 1) p (le_of_lt hp) (by omega)
    have hqp : q ≠ p := by
      rintro rfl
      rcases hq3 with h | h | h | h | h | h
      · exact h3 h
      · exact h4 h
      · exact h6 h
      · exact h2 (Or.inl h)
      · exact h2 (Or.inr h)
      · exact hne h
    refine ⟨q, TText, by omega, hq2, by decide, ?_⟩
    simp only [Lexer.consumeToEndOfText, source_lexerAt, hq4, Option.bind_eq_bind,
      Option.some_bind]
    rfl

theorem tokenizeLoop_lexerAt (log : Log) (source : List Nat) :
    ∀ (fuel p : Nat), p ≤ source.length → source.length - p < fuel →
      ∀ (a : Nat) (k : T) (acc : List Token), k ≠ TEndOfFile →
        ∃ tokens, Lexed log source p tokens ∧
          tokenizeLoop (fuel + 1) (lexerAt log source a p k) acc =
            some (acc ++ tokenAt a p k :: tokens,
              lexerAt log source source.length source.length TEndOfFile)
  | 0, p, _, hf => by omega
  | fuel + 1, p, hp, hf => by
    intro a k acc hk
    have hkind : (lexerAt log source a p k).Token.Kind ≠ TEndOfFile := hk
    have htok : (lexerAt log source a p k).Token = tokenAt a p k := rfl
    rw [tokenizeLoop, if_pos hkind, htok]
    by_cases hlt : p < source.length
    · obtain ⟨q, k2, hq, hle, hk2, hnext⟩ := next_lexerAt log source a p k hlt
      obtain ⟨tokens, hlexed, hloop⟩ := tokenizeLoop_lexerAt log source fuel q hle (by omega)
        p k2 (acc ++ [tokenAt a p k]) hk2
      refine ⟨tokenAt p q k2 :: tokens, ?_, ?_⟩
      · rw [next_lexerAt_start] at hnext
        exact Lexed.token p q k2 tokens hlt hq hle hk2 hnext hlexed
      · rw [hnext, Option.some_bind, hloop]
        simp
    · have hpe : p = source.length := by omega
      refine ⟨[], Lexed.done p (by omega), ?_⟩
      rw [next_lexerAt_end log source a p k (by omega), Option.some_bind, tokenizeLoop]
      have hkind2 : ¬ (lexerAt log source p p TEndOfFile).Token.Kind ≠ TEndOfFile :=
        fun h => h rfl
      rw [if_neg hkind2, hpe]

theorem step_initial (log : Log) (source : List Nat) :
    Lexer.step
      { log := log, source := source, current := 0, codePoint := 0,
        Token := { Range := { Loc := { Start := 0 }, Len := 0 }, Kind := TEndOfFile } } =
      some (lexerAt log source 0 0 TEndOfFile) := by
  simp [Lexer.step, lexerAt, widthAt, codePointAt, int32_zero]

/-- `Tokenize` always returns; it leaves the log as it found it and returns the
tokens of the run of `next` calls from offset zero. -/
theorem Tokenize_lexed (log : Log) (source : List Nat) :
    ∃ tokens, Tokenize log source = some (tokens, log) ∧ Lexed log source 0 tokens := by
  unfold Tokenize
  simp only [step_initial, Option.bind_eq_bind, Option.some_bind]
  by_cases hlt : 0 < source.length
  · obtain ⟨q, k, hq, hle, hk, hnext⟩ := next_lexerAt log source 0 0 TEndOfFile hlt
    obtain ⟨tokens, hlexed, hloop⟩ := tokenizeLoop_lexerAt log source source.length q hle
      (by omega) 0 k [] hk
    refine ⟨tokenAt 0 q k :: tokens, ?_, ?_⟩
    · rw [hnext, Option.some_bind]
      simp only [Nat.cast_zero] at hloop ⊢
      rw [hloop]
      rfl
    · exact Lexed.token 0 q k tokens hlt hq hle hk hnext hlexed
  · refine ⟨[], ?_, Lexed.done 0 (by omega)⟩
    rw [next_lexerAt_end log source 0 0 TEndOfFile (by omega), Option.some_bind, tokenizeLoop]
    simp only [Nat.cast_zero]
    rfl

/-- On offsets below `2^31` the recorded start, length and end of a token are
the exact ones. -/
theorem tokenAt_small (a b : Nat) (kind : T) (hab : a ≤ b) (hb : b < 2147483648) :
    (tokenAt a b kind).Range.Loc.Start = (a : Int) ∧
      (tokenAt a b kind).Range.Len = (b : Int) - (a : Int) ∧
      (tokenAt a b kind).Range.End = (b : Int) := by
  have ha : int32 (a : Int) = (a : Int) := int32_natCast a (by omega)
  have hb2 : int32 (b : Int) = (b : Int) := int32_natCast b hb
  have hl : int32 ((b : Int) - (a : Int)) = (b : Int) - (a : Int) :=
    int32_eq_self _ (by omega) (by omega)
  simp only [tokenAt, Range.End, ha, hb2, hl]
  refine ⟨trivial, trivial, ?_⟩
  rw [show (a : Int) + ((b : Int) - (a : Int)) = (b : Int) by omega, hb2]

/-- Every token of a run is the token between two offsets of the source. -/
theorem lexed_offsets (log : Log) (source : List Nat) (p : Nat) (tokens : List Token)
    (h : Lexed log source p tokens) :
    ∀ t ∈ tokens, ∃ a b kind, t = tokenAt a b kind ∧ p ≤ a ∧ a < b ∧ b ≤ source.length ∧
      kind ≠ TEndOfFile := by
  induction h with
  | done p h => intro t ht; simp at ht
  | token p q kind tokens hp hq hle hkind hnext rest ih =>
    intro t ht
    rcases List.mem_cons.mp ht with rfl | hmem
    · exact ⟨p, q, kind, rfl, le_refl _, hq, hle, hkind⟩
    · obtain ⟨a, b, k, h1, h2, h3, h4, h5⟩ := ih t hmem
      exact ⟨a, b, k, h1, by omega, h3, h4, h5⟩

theorem lexed_bounds (log : Log) (source : List Nat) (hsize : source.length < 2147483648)
    (p : Nat) (tokens : List Token) (h : Lexed log source p tokens) :
    ∀ t ∈ tokens, (p : Int) ≤ t.Range.Loc.Start ∧ 1 ≤ t.Range.Len ∧
      t.Range.End ≤ (source.length : Int) ∧ t.Kind ≠ TEndOfFile := by
  intro t ht
  obtain ⟨a, b, kind, rfl, h1, h2, h3, h4⟩ := lexed_offsets log source p tokens h t ht
  obtain ⟨s1, s2, s3⟩ := tokenAt_small a b kind (by omega) (by omega)
  rw [s1, s2, s3]
  exact ⟨by omega, by omega, by omega, h4⟩

theorem lexed_tiles (log : Log) (source : List Nat) (hsize : source.length < 2147483648)
    (p : Nat) (tokens : List Token) (h : Lexed log source p tokens) (hp : p ≤ source.length) :
    Tiles p tokens source.length := by
  induction h with
  | done p h =>
    simp only [Tiles]
    omega
  | token p q kind tokens hp2 hq hle hkind hnext rest ih =>
    obtain ⟨s1, _, s3⟩ := tokenAt_small p q kind (by omega) (by omega)
    simp only [Tiles, s1, s3, true_and]
    exact ih hle

theorem lexed_pairwise (log : Log) (source : List Nat) (hsize : source.length < 2147483648)
    (p : Nat) (tokens : List Token) (h : Lexed log source p tokens) :
    tokens.Pairwise (fun s t =>
      s.Range.Loc.Start < t.Range.Loc.Start ∧ s.Range.End ≤ t.Range.Loc.Start) := by
  induction h with
  | done p h => exact List.Pairwise.nil
  | token p q kind tokens hp hq hle hkind hnext rest ih =>
    refine List.Pairwise.cons ?_ ih
    intro t ht
    obtain ⟨h1, _, _, _⟩ := lexed_bounds log source hsize q tokens rest t ht
    obtain ⟨s1, _, s3⟩ := tokenAt_small p q kind (by omega) (by omega)
    rw [s1, s3]
    constructor <;> omega

/-- C1, amended: for every source text of fewer than `2^31` bytes the tokens
returned by `Tokenize` tile the source (the first starts at offset 0, each later
one starts where the one before it ends, the last ends at the length of the
source); start offsets increase strictly, no two ranges overlap, and every
range lies within the source. -/
theorem Tokenize_tiles (log : Log) (source : List Nat) (hsize : source.length < 2147483648) :
    ∃ tokens log2, Tokenize log source = some (tokens, log2) ∧
      Tiles 0 tokens source.length ∧
      tokens.Pairwise (fun s t =>
        s.Range.Loc.Start < t.Range.Loc.Start ∧ s.Range.End ≤ t.Range.Loc.Start) ∧
      ∀ t ∈ tokens, 0 ≤ t.Range.Loc.Start ∧
        t.Range.Loc.Start ≤ t.Range.Loc.Start + t.Range.Len ∧
        t.Range.Loc.Start + t.Range.Len ≤ (source.length : Int) := by
  obtain ⟨tokens, htok, hlexed⟩ := Tokenize_lexed log source
  refine ⟨tokens, log, htok, ?_, lexed_pairwise log source hsize 0 tokens hlexed, ?_⟩
  · have := lexed_tiles log source hsize 0 tokens hlexed (Nat.zero_le _)
    simpa using this
  · intro t ht
    obtain ⟨a, b, kind, rfl, h1, h2, h3, h4⟩ := lexed_offsets log source 0 tokens hlexed t ht
    obtain ⟨s1, s2, s3⟩ := tokenAt_small a b kind (by omega) (by omega)
    rw [s1, s2]
    exact ⟨by omega, by omega, by omega⟩

/-- C1, amended, on the source `<a b=c>`. -/
theorem Tokenize_tiles_witness :
    ∃ tokens log2, Tokenize [] (bytes "<a b=c>") = some (tokens, log2) ∧
      Tiles 0 tokens (bytes "<a b=c>").length ∧
      tokens.Pairwise (fun s t =>
        s.Range.Loc.Start < t.Range.Loc.Start ∧ s.Range.End ≤ t.Range.Loc.Start) ∧
      ∀ t ∈ tokens, 0 ≤ t.Range.Loc.Start ∧
        t.Range.Loc.Start ≤ t.Range.Loc.Start + t.Range.Len ∧
        t.Range.Loc.Start + t.Range.Len ≤ ((bytes "<a b=c>").length : Int) :=
  Tokenize_tiles [] (bytes "<a b=c>") (by decide)

/-! ## The branches of `next` -/

theorem rune_values :
    rune '<' = 60 ∧ rune '=' = 61 ∧ rune '>' = 62 ∧ rune '-' = 45 ∧ rune '/' = 47 ∧
      rune 'a' = 97 ∧ rune 'z' = 122 ∧ rune 'A' = 65 ∧ rune 'Z' = 90 ∧ rune '_' = 95 ∧
      rune ':' = 58 ∧ eof = -1 := by
  decide

theorem bytes_values :
    bytes "!doctype" = [0x21, 0x64, 0x6F, 0x63, 0x74, 0x79, 0x70, 0x65] ∧
      bytes "!DOCTYPE" = [0x21, 0x44, 0x4F, 0x43, 0x54, 0x59, 0x50, 0x45] ∧
      bytes "!--" = [0x21, 0x2D, 0x2D] ∧ bytes "/" = [0x2F] ∧ bytes "->" = [0x2D, 0x3E] ∧
      bytes ">" = [0x3E] := by
  decide

/-- The branches of `next` that take one code point and nothing else. -/
theorem next_single (log : Log) (source : List Nat) (start : Int) (p : Nat) (kind : T)
    (hp : p < source.length) :
    (codePointAt source p = rune '=' →
      (lexerAt log source start p kind).next =
        some (lexerAt log source p (p + widthAt source p) TEquals)) ∧
    (codePointAt source p = 0x22 ∨ codePointAt source p = 0x27 →
      (lexerAt log source start p kind).next =
        some (lexerAt log source p (p + widthAt source p) TString)) ∧
    (codePointAt source p = rune '>' →
      (lexerAt log source start p kind).next =
        some (lexerAt log source p (p + widthAt source p) TTagEnd)) := by
  have hne := codePointAt_ne_eof source p hp
  have hstep := step_lexerAt log source p p TEndOfFile (le_of_lt hp)
  obtain ⟨r1, r2, r3, r4, r5, r6, r7, r8, r9, r10, r11, r12⟩ := rune_values
  refine ⟨?_, ?_, ?_⟩
  · intro h
    unfold Lexer.next
    simp only [resetToken_lexerAt, codePoint_lexerAt, if_neg hne, if_pos h, hstep,
      Option.bind_eq_bind, Option.some_bind]
    rfl
  · intro h
    have h1 : codePointAt source p ≠ rune '=' := by
      rw [r2]; rcases h with h | h <;> rw [h] <;> decide
    unfold Lexer.next
    simp only [resetToken_lexerAt, codePoint_lexerAt, if_neg hne, if_neg h1, if_pos h,
      Lexer.consumeToEndOfString, source_lexerAt, Lexer.consumeToEndOfStringLoop, if_true, hstep,
      Option.bind_eq_bind, Option.some_bind]
    rfl
  · intro h
    unfold Lexer.next
    simp only [resetToken_lexerAt, codePoint_lexerAt, h, r1, r2, r3, r4, r5, r12]
    simp [hstep, setKind_lexerAt]

theorem not_prefix_of_prefix (m1 m2 l : List Nat) (h1 : m1 <+: l) (hn1 : ¬ m1 <+: m2)
    (hn2 : ¬ m2 <+: m1) : ¬ m2 <+: l :=
  fun h2 => (List.prefix_or_prefix_of_prefix h1 h2).elim hn1 hn2

theorem codePointAt_of_prefix (source : List Nat) (q c : Nat) (m : List Nat)
    (h : (c :: m) <+: source.drop q) (hc : c < 0x80) : codePointAt source q = (c : Int) := by
  have hget := isPrefix_getElem? (c :: m) _ h 0 (by simp)
  rw [List.getElem?_drop] at hget
  exact (at_ascii source q c (by simpa using hget) hc).2

/-- A successful `eat` followed by one `step` leaves the lexer just past the
bytes matched. -/
theorem eat_step_lexerAt (log : Log) (source : List Nat) (start : Int) (p : Nat) (kind : T)
    (m : List Nat) (hw : widthAt source p = 1) (hm : m <+: source.drop (p + 1))
    (hascii : ∀ c ∈ m, c < 0x80) :
    (lexerAt log source start p kind).eat m =
        some (true, lexerAt log source start (p + m.length) kind) ∧
      (lexerAt log source start (p + m.length) kind).step =
        some (lexerAt log source start (p + m.length + 1) kind) := by
  refine ⟨eat_lexerAt_true log source start p kind m hw hm hascii, ?_⟩
  have hlen := hm.length_le
  simp only [List.length_drop] at hlen
  have hp : p < source.length := by
    by_contra hlt
    have := widthAt_end source p (by omega)
    omega
  have hw2 : widthAt source (p + m.length) = 1 := by
    rcases Nat.eq_zero_or_pos m.length with h0 | hpos
    · rw [h0]; exact hw
    · have hj : m.length - 1 < m.length := by omega
      have hget := isPrefix_getElem? m _ hm (m.length - 1) hj
      rw [List.getElem?_drop, List.getElem?_eq_getElem hj] at hget
      rw [show p + 1 + (m.length - 1) = p + m.length by omega] at hget
      exact (at_ascii source (p + m.length) _ hget (hascii _ (List.getElem_mem _))).1
  rw [step_lexerAt _ _ _ _ _ (by omega), hw2]

theorem width_one_of_less (source : List Nat) (p : Nat) (hcp : codePointAt source p = rune '<') :
    widthAt source p = 1 :=
  width_one_of_codePointAt source p _ hcp (by decide) (by decide)

/-- The branches of `next` on `'<'` that match a fixed spelling. -/
theorem next_less_literal (log : Log) (source : List Nat) (start : Int) (p : Nat) (kind : T)
    (hcp : codePointAt source p = rune '<') :
    ((bytes "!doctype" <+: source.drop (p + 1) ∨ bytes "!DOCTYPE" <+: source.drop (p + 1)) →
      (lexerAt log source start p kind).next = some (lexerAt log source p (p + 9) TDoctypeStart)) ∧
    (bytes "!--" <+: source.drop (p + 1) →
      (lexerAt log source start p kind).next = some (lexerAt log source p (p + 4) TCommentStart)) ∧
    (bytes "/" <+: source.drop (p + 1) →
      (lexerAt log source start p kind).next =
        some (lexerAt log source p (p + 2) TTagCloseStart)) := by
  have hw := width_one_of_less source p hcp
  obtain ⟨r1, r2, r3, r4, r5, r6, r7, r8, r9, r10, r11, r12⟩ := rune_values
  have hnext : (lexerAt log source start p kind).next =
      (lexerAt log source p p TEndOfFile).nextLess := by
    unfold Lexer.next
    simp only [resetToken_lexerAt, codePoint_lexerAt, hcp, r1, r2, r12]
    simp
  rw [hnext]
  unfold Lexer.nextLess
  refine ⟨?_, ?_, ?_⟩
  · intro h
    by_cases h1 : bytes "!doctype" <+: source.drop (p + 1)
    · obtain ⟨e1, e2⟩ := eat_step_lexerAt log source p p TEndOfFile _ hw h1 (by decide)
      rw [e1]
      simp only [Option.bind_eq_bind, Option.some_bind, if_true, Option.pure_def]
      rw [show p + 9 = p + (bytes "!doctype").length + 1 from rfl, e2]
      rfl
    · have h2 : bytes "!DOCTYPE" <+: source.drop (p + 1) := h.resolve_left h1
      obtain ⟨e1, e2⟩ := eat_step_lexerAt log source p p TEndOfFile _ hw h2 (by decide)
      rw [eat_lexerAt_false _ _ _ _ _ _ hw h1]
      simp only [Option.bind_eq_bind, Option.some_bind, Bool.false_eq_true, if_false]
      rw [e1]
      simp only [Option.bind_eq_bind, Option.some_bind, if_true, Option.pure_def]
      rw [show p + 9 = p + (bytes "!DOCTYPE").length + 1 from rfl, e2]
      rfl
  · intro h
    have h1 : ¬ bytes "!doctype" <+: source.drop (p + 1) :=
      not_prefix_of_prefix _ _ _ h (by decide) (by decide)
    have h2 : ¬ bytes "!DOCTYPE" <+: source.drop (p + 1) :=
      not_prefix_of_prefix _ _ _ h (by decide) (by decide)
    obtain ⟨e1, e2⟩ := eat_step_lexerAt log source p p TEndOfFile _ hw h (by decide)
    rw [eat_lexerAt_false _ _ _ _ _ _ hw h1]
    simp only [Option.bind_eq_bind, Option.some_bind, Bool.false_eq_true, if_false]
    rw [eat_lexerAt_false _ _ _ _ _ _ hw h2]
    simp only [Option.bind_eq_bind, Option.some_bind, Bool.false_eq_true, if_false]
    rw [e1]
    simp only [Option.bind_eq_bind, Option.some_bind, if_true, Option.pure_def]
    rw [show p + 4 = p + (bytes "!--").length + 1 from rfl, e2]
    rfl
  · intro h
    have h1 : ¬ bytes "!doctype" <+: source.drop (p + 1) :=
      not_prefix_of_prefix _ _ _ h (by decide) (by decide)
    have h2 : ¬ bytes "!DOCTYPE" <+: source.drop (p + 1) :=
      not_prefix_of_prefix _ _ _ h (by decide) (by decide)
    have h3 : ¬ bytes "!--" <+: source.drop (p + 1) :=
      not_prefix_of_prefix _ _ _ h (by decide) (by decide)
    obtain ⟨e1, e2⟩ := eat_step_lexerAt log source p p TEndOfFile _ hw h (by decide)
    rw [eat_lexerAt_false _ _ _ _ _ _ hw h1]
    simp only [Option.bind_eq_bind, Option.some_bind, Bool.false_eq_true, if_false]
    rw [eat_lexerAt_false _ _ _ _ _ _ hw h2]
    simp only [Option.bind_eq_bind, Option.some_bind, Bool.false_eq_true, if_false]
    rw [eat_lexerAt_false _ _ _ _ _ _ hw h3]
    simp only [Option.bind_eq_bind, Option.some_bind, Bool.false_eq_true, if_false]
    rw [e1]
    simp only [Option.bind_eq_bind, Option.some_bind, if_true, Option.pure_def]
    rw [show p + 2 = p + (bytes "/").length + 1 from rfl, e2]
    rfl

/-- The fall-through of the `'<'` branch: no fixed spelling follows. -/
theorem next_less_other (log : Log) (source : List Nat) (start : Int) (p : Nat) (kind : T)
    (hcp : codePointAt source p = rune '<')
    (h1 : ¬ bytes "!doctype" <+: source.drop (p + 1))
    (h2 : ¬ bytes "!DOCTYPE" <+: source.drop (p + 1))
    (h3 : ¬ bytes "!--" <+: source.drop (p + 1))
    (h4 : ¬ bytes "/" <+: source.drop (p + 1)) :
    (IsNameStart (codePointAt source (p + 1)) = true →
      (lexerAt log source start p kind).next =
        some (lexerAt log source p (p + 1) TTagOpenStart)) ∧
    (IsNameStart (codePointAt source (p + 1)) = false →
      (lexerAt log source start p kind).next =
        (Lexer.consumeToEndOfTextLoop (source.length + 1)
          (lexerAt log source p (p + 1) TEndOfFile)).bind fun l => some (l.setKind TText)) := by
  have hw := width_one_of_less source p hcp
  have hp : p < source.length := by
    by_contra hlt
    have := widthAt_end source p (by omega)
    omega
  obtain ⟨r1, r2, r3, r4, r5, r6, r7, r8, r9, r10, r11, r12⟩ := rune_values
  have hnext : (lexerAt log source start p kind).next =
      (lexerAt log source p p TEndOfFile).nextLess := by
    unfold Lexer.next
    simp only [resetToken_lexerAt, codePoint_lexerAt, hcp, r1, r2, r12]
    simp
  rw [hnext]
  unfold Lexer.nextLess
  rw [eat_lexerAt_false _ _ _ _ _ _ hw h1]
  simp only [Option.bind_eq_bind, Option.some_bind, Bool.false_eq_true, if_false]
  rw [eat_lexerAt_false _ _ _ _ _ _ hw h2]
  simp only [Option.bind_eq_bind, Option.some_bind, Bool.false_eq_true, if_false]
  rw [eat_lexerAt_false _ _ _ _ _ _ hw h3]
  simp only [Option.bind_eq_bind, Option.some_bind, Bool.false_eq_true, if_false]
  rw [eat_lexerAt_false _ _ _ _ _ _ hw h4]
  simp only [Option.bind_eq_bind, Option.some_bind, Bool.false_eq_true, if_false]
  rw [step_lexerAt _ _ _ _ _ (le_of_lt hp), hw]
  simp only [Option.some_bind, Lexer.wouldStartName, codePoint_lexerAt]
  constructor
  · intro h
    simp only [h, if_true]
    rfl
  · intro h
    simp only [h, Bool.false_eq_true, if_false, Lexer.consumeToEndOfText, source_lexerAt]
    rfl

/-- The branches of `next` on `'-'` and on `'/'`. -/
theorem next_minus_slash (log : Log) (source : List Nat) (start : Int) (p : Nat) (kind : T) :
    (codePointAt source p = rune '-' → bytes "->" <+: source.drop (p + 1) →
      (lexerAt log source start p kind).next =
        some (lexerAt log source p (p + 3) TCommentEnd)) ∧
    (codePointAt source p = rune '/' → bytes ">" <+: source.drop (p + 1) →
      (lexerAt log source start p kind).next =
        some (lexerAt log source p (p + 2) TTagSelfClosingEnd)) ∧
    ((codePointAt source p = rune '-' ∧ ¬ bytes "->" <+: source.drop (p + 1)) ∨
      (codePointAt source p = rune '/' ∧ ¬ bytes ">" <+: source.drop (p + 1)) →
      (lexerAt log source start p kind).next =
        (Lexer.consumeToEndOfTextLoop (source.length + 1)
          (lexerAt log source p (p + 1) TEndOfFile)).bind fun l => some (l.setKind TText)) := by
  obtain ⟨r1, r2, r3, r4, r5, r6, r7, r8, r9, r10, r11, r12⟩ := rune_values
  refine ⟨?_, ?_, ?_⟩
  · intro hcp hm
    have hw := width_one_of_codePointAt source p _ hcp (by decide) (by decide)
    obtain ⟨e1, e2⟩ := eat_step_lexerAt log source p p TEndOfFile _ hw hm (by decide)
    unfold Lexer.next
    simp only [resetToken_lexerAt, codePoint_lexerAt, hcp, r1, r2, r3, r4, r5, r12]
    simp only [e1, show p + (bytes "->").length = p + 2 from rfl] at e2 ⊢
    simp [e2, setKind_lexerAt]
  · intro hcp hm
    have hw := width_one_of_codePointAt source p _ hcp (by decide) (by decide)
    obtain ⟨e1, e2⟩ := eat_step_lexerAt log source p p TEndOfFile _ hw hm (by decide)
    unfold Lexer.next
    simp only [resetToken_lexerAt, codePoint_lexerAt, hcp, r1, r2, r3, r4, r5, r12]
    simp only [e1, show p + (bytes ">").length = p + 1 from rfl] at e2 ⊢
    simp [e2, setKind_lexerAt]
  · rintro (⟨hcp, hm⟩ | ⟨hcp, hm⟩)
    · have hw := width_one_of_codePointAt source p _ hcp (by decide) (by decide)
      have hp : p < source.length := by
        by_contra hlt
        have := widthAt_end source p (by omega)
        omega
      have hstep := step_lexerAt log source p p TEndOfFile (le_of_lt hp)
      rw [hw] at hstep
      unfold Lexer.next
      simp only [resetToken_lexerAt, codePoint_lexerAt, hcp, r1, r2, r3, r4, r5, r12]
      simp [eat_lexerAt_false _ _ _ _ _ _ hw hm, hstep, Lexer.consumeToEndOfText]
    · have hw := width_one_of_codePointAt source p _ hcp (by decide) (by decide)
      have hp : p < source.length := by
        by_contra hlt
        have := widthAt_end source p (by omega)
        omega
      have hstep := step_lexerAt log source p p TEndOfFile (le_of_lt hp)
      rw [hw] at hstep
      unfold Lexer.next
      simp only [resetToken_lexerAt, codePoint_lexerAt, hcp, r1, r2, r3, r4, r5, r12]
      simp [eat_lexerAt_false _ _ _ _ _ _ hw hm, hstep, Lexer.consumeToEndOfText]

/-- The `default` branch of `next`. -/
theorem next_default (log : Log) (source : List Nat) (start : Int) (p : Nat) (kind : T)
    (h0 : codePointAt source p ≠ eof) (h1 : codePointAt source p ≠ rune '=')
    (h2 : codePointAt source p ≠ 0x22) (h3 : codePointAt source p ≠ 0x27)
    (h4 : codePointAt source p ≠ rune '<') (h5 : codePointAt source p ≠ rune '-')
    (h6 : codePointAt source p ≠ rune '/') (h7 : codePointAt source p ≠ rune '>') :
    (IsNameStart (codePointAt source p) = true →
      (lexerAt log source start p kind).next =
        (Lexer.consumeToEndOfNameLoop (source.length + 1)
          (lexerAt log source p p TEndOfFile)).bind fun l => some (l.setKind TName)) ∧
    (IsNameStart (codePointAt source p) = false →
      (lexerAt log source start p kind).next =
        (Lexer.consumeToEndOfTextLoop (source.length + 1)
          (lexerAt log source p p TEndOfFile)).bind fun l => some (l.setKind TText)) := by
  have h23 : ¬ (codePointAt source p = 0x22 ∨ codePointAt source p = 0x27) := by
    rintro (h | h)
    · exact h2 h
    · exact h3 h
  constructor
  · intro h
    unfold Lexer.next
    simp only [resetToken_lexerAt, codePoint_lexerAt, if_neg h0, if_neg h1, if_neg h23,
      if_neg h4, if_neg h5, if_neg h6, if_neg h7, Lexer.wouldStartName, h, if_true,
      Lexer.consumeToEndOfName, source_lexerAt]
    rfl
  · intro h
    unfold Lexer.next
    simp only [resetToken_lexerAt, codePoint_lexerAt, if_neg h0, if_neg h1, if_neg h23,
      if_neg h4, if_neg h5, if_neg h6, if_neg h7, Lexer.wouldStartName, h, Bool.false_eq_true,
      if_false, Lexer.consumeToEndOfText, source_lexerAt]
    rfl

/-- A name-start code point is none of the code points `next` has a case for. -/
theorem not_special_of_IsNameStart (c : Int) (h : IsNameStart c = true) :
    c ≠ eof ∧ c ≠ rune '=' ∧ c ≠ 0x22 ∧ c ≠ 0x27 ∧ c ≠ rune '<' ∧ c ≠ rune '-' ∧
      c ≠ rune '/' ∧ c ≠ rune '>' := by
  obtain ⟨r1, r2, r3, r4, r5, r6, r7, r8, r9, r10, r11, r12⟩ := rune_values
  simp only [IsNameStart, r6, r7, r8, r9, r10, Bool.or_eq_true, Bool.and_eq_true,
    decide_eq_true_eq] at h
  rw [r1, r2, r3, r4, r5, r12]
  omega

/-- The name loop runs to the end of the source when every code point from `p`
on continues a name. -/
theorem consumeToEndOfNameLoop_all (log : Log) (source : List Nat) (start : Int) (kind : T) :
    ∀ (fuel p : Nat), p ≤ source.length → source.length - p ≤ fuel →
      (∀ c ∈ codePointsFrom source fuel p, IsNameContinue c = true) →
      Lexer.consumeToEndOfNameLoop (fuel + 1) (lexerAt log source start p kind) =
        some (lexerAt log source start source.length kind)
  | 0, p, hp, hf, _ => by
    have hpe : p = source.length := by omega
    have hcp := codePointAt_end source p (by omega)
    rw [Lexer.consumeToEndOfNameLoop, codePoint_lexerAt, hcp,
      if_neg (by decide : ¬ IsNameContinue eof = true), hpe]
  | fuel + 1, p, hp, hf, hall => by
    rw [Lexer.consumeToEndOfNameLoop, codePoint_lexerAt]
    by_cases hlt : p < source.length
    · have hw := widthAt_pos source p hlt
      have hle := widthAt_le source p hp
      simp only [codePointsFrom, if_pos hlt, List.mem_cons, forall_eq_or_imp] at hall
      rw [if_pos hall.1, step_lexerAt _ _ _ _ _ hp, Option.some_bind]
      exact consumeToEndOfNameLoop_all log source start kind fuel (p + widthAt source p) hle
        (by omega) hall.2
    · have hpe : p = source.length := by omega
      have hcp := codePointAt_end source p (by omega)
      rw [hcp, if_neg (by decide : ¬ IsNameContinue eof = true), hpe]

/-! ## Claims about the lexer -/

/-- The first `next` call decides the first token `Tokenize` returns. -/
theorem Tokenize_of_next (log : Log) (source : List Nat) (q : Nat) (k : T)
    (hnext : (lexerAt log source 0 0 TEndOfFile).next = some (lexerAt log source 0 q k))
    (hq : 0 < q) (hle : q ≤ source.length) (hk : k ≠ TEndOfFile) :
    ∃ tokens, Tokenize log source = some (tokenAt 0 q k :: tokens, log) ∧
      Lexed log source q tokens := by
  obtain ⟨tokens, hlexed, hloop⟩ := tokenizeLoop_lexerAt log source source.length q hle
    (by omega) 0 k [] hk
  refine ⟨tokens, ?_, hlexed⟩
  unfold Tokenize
  simp only [step_initial, Option.bind_eq_bind, Option.some_bind, hnext]
  simp only [Nat.cast_zero] at hloop
  rw [hloop]
  rfl

theorem FirstToken_tokenAt (log : Log) (source : List Nat) (q : Nat) (k : T)
    (hnext : (lexerAt log source 0 0 TEndOfFile).next = some (lexerAt log source 0 q k))
    (hq : 0 < q) (hle : q ≤ source.length) (hk : k ≠ TEndOfFile) :
    FirstToken log source (tokenAt 0 q k) := by
  obtain ⟨tokens, h, _⟩ := Tokenize_of_next log source q k hnext hq hle hk
  exact ⟨tokens, log, h⟩

theorem FirstToken_of_next (log : Log) (source : List Nat) (q : Nat) (k : T)
    (hnext : (lexerAt log source 0 0 TEndOfFile).next = some (lexerAt log source 0 q k))
    (hsmall : q < 2147483648)
    (hq : 0 < q) (hle : q ≤ source.length) (hk : k ≠ TEndOfFile) :
    FirstToken log source { Range := { Loc := { Start := 0 }, Len := (q : Int) }, Kind := k } := by
  have h := FirstToken_tokenAt log source q k hnext hq hle hk
  obtain ⟨s1, s2, _⟩ := tokenAt_small 0 q k (Nat.zero_le _) hsmall
  have heq : tokenAt 0 q k =
      { Range := { Loc := { Start := 0 }, Len := (q : Int) }, Kind := k } := by
    have e1 : (tokenAt 0 q k).Kind = k := rfl
    cases ht : tokenAt 0 q k with
    | mk range kind =>
      cases range with
      | mk loc len =>
        cases loc with
        | mk start =>
          rw [ht] at s1 s2 e1
          simp only [Nat.cast_zero, sub_zero] at s1 s2
          simp only at e1
          rw [s1, s2, e1]
  rwa [heq] at h

theorem lexed_at_end (log : Log) (source : List Nat) (p : Nat) (tokens : List Token)
    (h : Lexed log source p tokens) (hp : source.length ≤ p) : tokens = [] := by
  cases h with
  | done => rfl
  | token q kind tokens hp2 => omega

/-- C2 (the code at the failing inputs): on the sources `'string'` and
`"string"` the token `Tokenize` returns first is the opening quote alone, of
kind `String` and length one; the text between the quotes follows as a `Name`
token and the closing quote as a second `String` token of length one. -/
theorem Tokenize_quoted_string :
    Tokenize [] (bytes "'string'") =
        some ([{ Range := { Loc := { Start := 0 }, Len := 1 }, Kind := TString },
               { Range := { Loc := { Start := 1 }, Len := 6 }, Kind := TName },
               { Range := { Loc := { Start := 7 }, Len := 1 }, Kind := TString }], []) ∧
      Tokenize [] (0x22 :: bytes "string" ++ [0x22]) =
        some ([{ Range := { Loc := { Start := 0 }, Len := 1 }, Kind := TString },
               { Range := { Loc := { Start := 1 }, Len := 6 }, Kind := TName },
               { Range := { Loc := { Start := 7 }, Len := 1 }, Kind := TString }], []) := by
  decide

/-- C3 (the code at the failing input, and in general): on the source `'abc`,
whose opening quote is never closed, `Tokenize` returns a `String` token of
length one and a `Name` token and logs nothing; and on no source and no log
does `Tokenize` append anything to the log. -/
theorem Tokenize_unclosed_string :
    Tokenize [] (bytes "'abc") =
        some ([{ Range := { Loc := { Start := 0 }, Len := 1 }, Kind := TString },
               { Range := { Loc := { Start := 1 }, Len := 3 }, Kind := TName }], []) ∧
      ∀ (log : Log) (source : List Nat), ∃ tokens, Tokenize log source = some (tokens, log) :=
  ⟨by decide, fun log source => (Tokenize_lexed log source).imp fun _ h => h.1⟩

theorem source_facts (c : Nat) (rest : List Nat) (hc : c < 0x80) :
    codePointAt (c :: rest) 0 = (c : Int) ∧ widthAt (c :: rest) 0 = 1 ∧
      (c :: rest).drop (0 + 1) = rest ∧ 0 < (c :: rest).length := by
  have h := at_ascii (c :: rest) 0 c (by simp) hc
  exact ⟨h.2, h.1, by simp, by simp⟩

/-- C4: a source that begins with one of the fixed spellings `<!doctype`,
`<!DOCTYPE`, `<!--`, `</`, `-->`, `/>`, `>`, `=` (whatever follows it) yields as
its first token the kind of that spelling with the range that starts at offset 0
and has the length of the spelling. -/
theorem Tokenize_fixed_spelling (log : Log) (rest : List Nat) :
    FirstToken log (bytes "<!doctype" ++ rest)
        { Range := { Loc := { Start := 0 }, Len := 9 }, Kind := TDoctypeStart } ∧
      FirstToken log (bytes "<!DOCTYPE" ++ rest)
        { Range := { Loc := { Start := 0 }, Len := 9 }, Kind := TDoctypeStart } ∧
      FirstToken log (bytes "<!--" ++ rest)
        { Range := { Loc := { Start := 0 }, Len := 4 }, Kind := TCommentStart } ∧
      FirstToken log (bytes "</" ++ rest)
        { Range := { Loc := { Start := 0 }, Len := 2 }, Kind := TTagCloseStart } ∧
      FirstToken log (bytes "-->" ++ rest)
        { Range := { Loc := { Start := 0 }, Len := 3 }, Kind := TCommentEnd } ∧
      FirstToken log (bytes "/>" ++ rest)
        { Range := { Loc := { Start := 0 }, Len := 2 }, Kind := TTagSelfClosingEnd } ∧
      FirstToken log (bytes ">" ++ rest)
        { Range := { Loc := { Start := 0 }, Len := 1 }, Kind := TTagEnd } ∧
      FirstToken log (bytes "=" ++ rest)
        { Range := { Loc := { Start := 0 }, Len := 1 }, Kind := TEquals } := by
  obtain ⟨b1, b2, b3, b4, b5, b6⟩ := bytes_values
  refine ⟨?_, ?_, ?_, ?_, ?_, ?_, ?_, ?_⟩
  · rw [show bytes "<!doctype" = 0x3C :: bytes "!doctype" from by decide, List.cons_append]
    obtain ⟨hcp, _, hdrop, _⟩ := source_facts 0x3C (bytes "!doctype" ++ rest) (by norm_num)
    have hnext := (next_less_literal log _ 0 0 TEndOfFile hcp).1
      (Or.inl (by rw [hdrop]; exact List.prefix_append _ _))
    exact FirstToken_of_next log _ 9 _ hnext (by norm_num) (by norm_num)
      (by simp [b1]) (by decide)
  · rw [show bytes "<!DOCTYPE" = 0x3C :: bytes "!DOCTYPE" from by decide, List.cons_append]
    obtain ⟨hcp, _, hdrop, _⟩ := source_facts 0x3C (bytes "!DOCTYPE" ++ rest) (by norm_num)
    have hnext := (next_less_literal log _ 0 0 TEndOfFile hcp).1
      (Or.inr (by rw [hdrop]; exact List.prefix_append _ _))
    exact FirstToken_of_next log _ 9 _ hnext (by norm_num) (by norm_num)
      (by simp [b2]) (by decide)
  · rw [show bytes "<!--" = 0x3C :: bytes "!--" from by decide, List.cons_append]
    obtain ⟨hcp, _, hdrop, _⟩ := source_facts 0x3C (bytes "!--" ++ rest) (by norm_num)
    have hnext := (next_less_literal log _ 0 0 TEndOfFile hcp).2.1
      (by rw [hdrop]; exact List.prefix_append _ _)
    exact FirstToken_of_next log _ 4 _ hnext (by norm_num) (by norm_num)
      (by simp [b3]) (by decide)
  · rw [show bytes "</" = 0x3C :: bytes "/" from by decide, List.cons_append]
    obtain ⟨hcp, _, hdrop, _⟩ := source_facts 0x3C (bytes "/" ++ rest) (by norm_num)
    have hnext := (next_less_literal log _ 0 0 TEndOfFile hcp).2.2
      (by rw [hdrop]; exact List.prefix_append _ _)
    exact FirstToken_of_next log _ 2 _ hnext (by norm_num) (by norm_num)
      (by simp [b4]) (by decide)
  · rw [show bytes "-->" = 0x2D :: bytes "->" from by decide, List.cons_append]
    obtain ⟨hcp, _, hdrop, _⟩ := source_facts 0x2D (bytes "->" ++ rest) (by norm_num)
    have hnext := (next_minus_slash log _ 0 0 TEndOfFile).1 hcp
      (by rw [hdrop]; exact List.prefix_append _ _)
    exact FirstToken_of_next log _ 3 _ hnext (by norm_num) (by norm_num)
      (by simp [b5]) (by decide)
  · rw [show bytes "/>" = 0x2F :: bytes ">" from by decide, List.cons_append]
    obtain ⟨hcp, _, hdrop, _⟩ := source_facts 0x2F (bytes ">" ++ rest) (by norm_num)
    have hnext := (next_minus_slash log _ 0 0 TEndOfFile).2.1 hcp
      (by rw [hdrop]; exact List.prefix_append _ _)
    exact FirstToken_of_next log _ 2 _ hnext (by norm_num) (by norm_num)
      (by simp [b6]) (by decide)
  · rw [show bytes ">" = [0x3E] from by decide, List.singleton_append]
    obtain ⟨hcp, hw, _, hlen⟩ := source_facts 0x3E rest (by norm_num)
    have hnext := (next_single log _ 0 0 TEndOfFile hlen).2.2 hcp
    rw [hw] at hnext
    exact FirstToken_of_next log _ 1 _ hnext (by norm_num) (by norm_num) (by simp) (by decide)
  · rw [show bytes "=" = [0x3D] from by decide, List.singleton_append]
    obtain ⟨hcp, hw, _, hlen⟩ := source_facts 0x3D rest (by norm_num)
    have hnext := (next_single log _ 0 0 TEndOfFile hlen).1 hcp
    rw [hw] at hnext
    exact FirstToken_of_next log _ 1 _ hnext (by norm_num) (by norm_num) (by simp) (by decide)

/-- The text run that the `Text` branches of `next` end with. -/
theorem text_run (log : Log) (source : List Nat) (p s : Nat) (hs : s ≤ source.length) :
    ∃ q, s ≤ q ∧ q ≤ source.length ∧
      (codePointAt source q = rune '<' ∨ codePointAt source q = rune '-' ∨
        codePointAt source q = rune '>' ∨ codePointAt source q = 0x22 ∨
        codePointAt source q = 0x27 ∨ codePointAt source q = eof) ∧
      ((Lexer.consumeToEndOfTextLoop (source.length + 1)
          (lexerAt log source p s TEndOfFile)).bind fun l => some (l.setKind TText)) =
        some (lexerAt log source p q TText) := by
  obtain ⟨q, hq1, hq2, hq3, hq4⟩ := consumeToEndOfTextLoop_lexerAt log source p TEndOfFile
    (source.length + 1) s hs (by omega)
  exact ⟨q, hq1, hq2, hq3, by rw [hq4]; rfl⟩

theorem lt_length_of_codePointAt (source : List Nat) (p : Nat) (h : codePointAt source p ≠ eof) :
    p < source.length := by
  by_contra hge
  exact h (codePointAt_end source p (by omega))

/-- C5: a source whose first character is `-` not followed by `->`, or `/` not
followed by `>`, or `<` followed by none of `!doctype`, `!DOCTYPE`, `!--`, `/`
and by no name-start code point, or a code point that neither starts a name
nor is one of `=`, the two quotes, `<`, `-`, `/`, `>`, yields a first token of
kind `Text`. -/
theorem Tokenize_text_fallback (log : Log) (source : List Nat)
    (h : (codePointAt source 0 = rune '-' ∧ ¬ bytes "->" <+: source.drop 1) ∨
      (codePointAt source 0 = rune '/' ∧ ¬ bytes ">" <+: source.drop 1) ∨
      (codePointAt source 0 = rune '<' ∧ ¬ bytes "!doctype" <+: source.drop 1 ∧
        ¬ bytes "!DOCTYPE" <+: source.drop 1 ∧ ¬ bytes "!--" <+: source.drop 1 ∧
        ¬ bytes "/" <+: source.drop 1 ∧ IsNameStart (codePointAt source 1) = false) ∨
      (source ≠ [] ∧ IsNameStart (codePointAt source 0) = false ∧
        codePointAt source 0 ≠ rune '=' ∧ codePointAt source 0 ≠ 0x22 ∧
        codePointAt source 0 ≠ 0x27 ∧ codePointAt source 0 ≠ rune '<' ∧
        codePointAt source 0 ≠ rune '-' ∧ codePointAt source 0 ≠ rune '/' ∧
        codePointAt source 0 ≠ rune '>')) :
    ∃ token, FirstToken log source token ∧ token.Kind = TText := by
  have key : ∀ q, 0 < q → q ≤ source.length →
      (lexerAt log source 0 0 TEndOfFile).next = some (lexerAt log source 0 q TText) →
      ∃ token, FirstToken log source token ∧ token.Kind = TText := by
    intro q hq hle hnext
    exact ⟨_, FirstToken_tokenAt log source q TText hnext hq hle (by decide), rfl⟩
  rcases h with ⟨hcp, hm⟩ | ⟨hcp, hm⟩ | ⟨hcp, h1, h2, h3, h4, hns⟩ | ⟨hne, hns, c1, c2, c3, c4, c5, c6, c7⟩
  · have hlt := lt_length_of_codePointAt source 0 (by rw [hcp]; decide)
    obtain ⟨q, hq1, hq2, _, hq4⟩ := text_run log source 0 (0 + 1) (by omega)
    have hnext := (next_minus_slash log source 0 0 TEndOfFile).2.2 (Or.inl ⟨hcp, hm⟩)
    rw [hq4] at hnext
    exact key q (by omega) hq2 hnext
  · have hlt := lt_length_of_codePointAt source 0 (by rw [hcp]; decide)
    obtain ⟨q, hq1, hq2, _, hq4⟩ := text_run log source 0 (0 + 1) (by omega)
    have hnext := (next_minus_slash log source 0 0 TEndOfFile).2.2 (Or.inr ⟨hcp, hm⟩)
    rw [hq4] at hnext
    exact key q (by omega) hq2 hnext
  · have hlt := lt_length_of_codePointAt source 0 (by rw [hcp]; decide)
    obtain ⟨q, hq1, hq2, _, hq4⟩ := text_run log source 0 (0 + 1) (by omega)
    have hnext := (next_less_other log source 0 0 TEndOfFile hcp h1 h2 h3 h4).2 hns
    rw [hq4] at hnext
    exact key q (by omega) hq2 hnext
  · have hlen : 0 < source.length := List.length_pos.mpr hne
    have c0 := codePointAt_ne_eof source 0 hlen
    obtain ⟨q, hq1, hq2, hq3, hq4⟩ := text_run log source 0 0 (by omega)
    have hnext := (next_default log source 0 0 TEndOfFile c0 c1 c2 c3 c4 c5 c6 c7).2 hns
    rw [hq4] at hnext
    have hq0 : q ≠ 0 := by
      rintro rfl
      rcases hq3 with h | h | h | h | h | h
      · exact c4 h
      · exact c5 h
      · exact c7 h
      · exact c2 h
      · exact c3 h
      · exact c0 h
    exact key q (by omega) hq2 hnext

/-- C5 at the sources `-`, `--`, `<!`, `!` and `/`. -/
theorem Tokenize_text_fallback_witness :
    (∃ token, FirstToken [] (bytes "-") token ∧ token.Kind = TText) ∧
      (∃ token, FirstToken [] (bytes "--") token ∧ token.Kind = TText) ∧
      (∃ token, FirstToken [] (bytes "<!") token ∧ token.Kind = TText) ∧
      (∃ token, FirstToken [] (bytes "!") token ∧ token.Kind = TText) ∧
      (∃ token, FirstToken [] (bytes "/") token ∧ token.Kind = TText) :=
  ⟨Tokenize_text_fallback [] (bytes "-") (by decide),
    Tokenize_text_fallback [] (bytes "--") (by decide),
    Tokenize_text_fallback [] (bytes "<!") (by decide),
    Tokenize_text_fallback [] (bytes "!") (by decide),
    Tokenize_text_fallback [] (bytes "/") (by decide)⟩

/-- A non-empty source whose first code point starts a name and all of whose
code points continue a name yields exactly one token, the `Name` token between
offset 0 and the length of the source, whatever that length is. -/
theorem Tokenize_name_tokenAt (log : Log) (source : List Nat)
    (hstart : IsNameStart (codePointAt source 0) = true)
    (hall : ∀ c ∈ codePoints source, IsNameContinue c = true) :
    Tokenize log source = some ([tokenAt 0 source.length TName], log) := by
  obtain ⟨c0, c1, c2, c3, c4, c5, c6, c7⟩ := not_special_of_IsNameStart _ hstart
  have hlt := lt_length_of_codePointAt source 0 c0
  have hnext := (next_default log source 0 0 TEndOfFile c0 c1 c2 c3 c4 c5 c6 c7).1 hstart
  have hloop := consumeToEndOfNameLoop_all log source 0 TEndOfFile source.length 0
    (Nat.zero_le _) (by omega) hall
  simp only [Nat.cast_zero] at hnext
  rw [hloop, Option.some_bind, setKind_lexerAt] at hnext
  obtain ⟨tokens, htok, hlexed⟩ := Tokenize_of_next log source source.length TName hnext hlt
    (le_refl _) (by decide)
  have hnil := lexed_at_end log source source.length tokens hlexed (le_refl _)
  rw [htok, hnil]

/-- C6, amended: a non-empty source of fewer than `2^31` bytes whose first code
point starts a name and all of whose code points continue a name yields exactly
one token, of kind `Name`, whose range is the whole source. -/
theorem Tokenize_name (log : Log) (source : List Nat) (_hne : source ≠ [])
    (hsize : source.length < 2147483648)
    (hstart : IsNameStart (codePointAt source 0) = true)
    (hall : ∀ c ∈ codePoints source, IsNameContinue c = true) :
    ∃ log2, Tokenize log source =
      some ([{ Range := { Loc := { Start := 0 }, Len := (source.length : Int) },
               Kind := TName }], log2) := by
  refine ⟨log, ?_⟩
  rw [Tokenize_name_tokenAt log source hstart hall]
  have h1 : int32 ((source.length : Nat) : Int) = (source.length : Int) :=
    int32_natCast _ hsize
  simp [tokenAt, int32_zero, h1]

/-- C6, amended, at the sources `name` and `namepace:name` of the test table. -/
theorem Tokenize_name_witness :
    (∃ log2, Tokenize [] (bytes "name") =
      some ([{ Range := { Loc := { Start := 0 }, Len := 4 }, Kind := TName }], log2)) ∧
    (∃ log2, Tokenize [] (bytes "namepace:name") =
      some ([{ Range := { Loc := { Start := 0 }, Len := 13 }, Kind := TName }], log2)) :=
  ⟨Tokenize_name [] (bytes "name") (by decide) (by decide) (by decide) (by decide),
    Tokenize_name [] (bytes "namepace:name") (by decide) (by decide) (by decide) (by decide)⟩

/-! ## What `next` produces, branch by branch -/

theorem run_le (source : List Nat) (P : Int → Prop) (p q : Nat) (h : Run source P p q) :
    p ≤ q := by
  induction h with
  | stop p => exact le_refl p
  | step p q hp hP rest ih => omega

theorem run_le_length (source : List Nat) (P : Int → Prop) (p q : Nat) (h : Run source P p q)
    (hp : p ≤ source.length) : q ≤ source.length := by
  induction h with
  | stop p => exact hp
  | step p q hp2 hP rest ih => exact ih (widthAt_le source p hp)

theorem run_mono (source : List Nat) (P Q : Int → Prop) (p q : Nat) (h : Run source P p q)
    (hPQ : ∀ c, P c → Q c) : Run source Q p q := by
  induction h with
  | stop p => exact Run.stop p
  | step p q hp hP rest ih => exact Run.step p q hp (hPQ _ hP) ih

theorem run_trans (source : List Nat) (P : Int → Prop) (p q r : Nat) (h : Run source P p q)
    (h2 : Run source P q r) : Run source P p r := by
  induction h with
  | stop p => exact h2
  | step p q hp hP rest ih => exact Run.step p r hp hP (ih h2)

/-- Stepping over bytes of width one. -/
theorem run_of_width_one (source : List Nat) :
    ∀ (n p : Nat), (∀ i, i < n → widthAt source (p + i) = 1) →
      Run source (fun _ => True) p (p + n)
  | 0, p, _ => Run.stop p
  | n + 1, p, h => by
    have hw : widthAt source p = 1 := h 0 (by omega)
    have hp : p < source.length := by
      by_contra hlt
      have := widthAt_end source p (by omega)
      omega
    refine Run.step p _ hp trivial ?_
    rw [hw, show p + (n + 1) = p + 1 + n by omega]
    exact run_of_width_one source n (p + 1) (fun i hi => by
      have := h (i + 1) (by omega)
      rwa [show p + (i + 1) = p + 1 + i by omega] at this)

/-- Stepping over the `'<'`, `'-'` or `'/'` at `p` and then over bytes that are a
fixed ASCII spelling. -/
theorem run_of_prefix (source : List Nat) (p : Nat) (m : List Nat)
    (hw : widthAt source p = 1) (hm : m <+: source.drop (p + 1))
    (hascii : ∀ c ∈ m, c < 0x80) : Run source (fun _ => True) p (p + m.length + 1) := by
  rw [show p + m.length + 1 = p + (m.length + 1) by omega]
  apply run_of_width_one
  intro i hi
  rcases Nat.eq_zero_or_pos i with h0 | hpos
  · subst h0; exact hw
  · have hj : i - 1 < m.length := by omega
    have hget := isPrefix_getElem? m _ hm (i - 1) hj
    rw [List.getElem?_drop, List.getElem?_eq_getElem hj] at hget
    rw [show p + 1 + (i - 1) = p + i by omega] at hget
    exact (at_ascii source (p + i) _ hget (hascii _ (List.getElem_mem _))).1

theorem consumeToEndOfTextLoop_run (log : Log) (source : List Nat) (start : Int) (kind : T) :
    ∀ (fuel p : Nat), p ≤ source.length → source.length - p < fuel →
      ∃ q, Run source (fun c => ¬ isTextStop c) p q ∧ isTextStop (codePointAt source q) ∧
        Lexer.consumeToEndOfTextLoop fuel (lexerAt log source start p kind) =
          some (lexerAt log source start q kind)
  | 0, p, _, hf => by omega
  | fuel + 1, p, hp, hf => by
    rw [Lexer.consumeToEndOfTextLoop]
    split_ifs with hstop
    · exact ⟨p, Run.stop p, hstop, rfl⟩
    · have hstop2 : ¬ isTextStop (codePointAt source p) := hstop
      have hne : codePointAt source p ≠ eof := by
        intro he
        apply hstop
        simp [lexerAt, he]
      have hlt : p < source.length := lt_length_of_codePointAt source p hne
      have hw := widthAt_pos source p hlt
      have hle := widthAt_le source p hp
      obtain ⟨q, hq1, hq2, hq3⟩ := consumeToEndOfTextLoop_run log source start kind fuel
        (p + widthAt source p) hle (by omega)
      refine ⟨q, Run.step p q hlt hstop2 hq1, hq2, ?_⟩
      rw [step_lexerAt _ _ _ _ _ hp, Option.some_bind, hq3]

theorem consumeToEndOfNameLoop_run (log : Log) (source : List Nat) (start : Int) (kind : T) :
    ∀ (fuel p : Nat), p ≤ source.length → source.length - p < fuel →
      ∃ q, Run source (fun c => IsNameContinue c = true) p q ∧
        IsNameContinue (codePointAt source q) = false ∧
        Lexer.consumeToEndOfNameLoop fuel (lexerAt log source start p kind) =
          some (lexerAt log source start q kind)
  | 0, p, _, hf => by omega
  | fuel + 1, p, hp, hf => by
    rw [Lexer.consumeToEndOfNameLoop]
    split_ifs with hcont
    · have hcont2 : IsNameContinue (codePointAt source p) = true := hcont
      have hne : codePointAt source p ≠ eof := by
        intro he
        rw [he] at hcont2
        exact absurd hcont2 (by decide)
      have hlt : p < source.length := lt_length_of_codePointAt source p hne
      have hw := widthAt_pos source p hlt
      have hle := widthAt_le source p hp
      obtain ⟨q, hq1, hq2, hq3⟩ := consumeToEndOfNameLoop_run log source start kind fuel
        (p + widthAt source p) hle (by omega)
      refine ⟨q, Run.step p q hlt hcont2 hq1, hq2, ?_⟩
      rw [step_lexerAt _ _ _ _ _ hp, Option.some_bind, hq3]
    · refine ⟨p, Run.stop p, ?_, rfl⟩
      simpa [lexerAt] using hcont

/-- The text run after the first character of a `Text` token. -/
theorem text_run_produced (log : Log) (source : List Nat) (p : Nat)
    (hp : p < source.length) (hc : IsNameStart (codePointAt source p) = false) :
    ∃ q, Produced source p q TText ∧
      ((Lexer.consumeToEndOfTextLoop (source.length + 1)
          (lexerAt log source p (p + 1) TEndOfFile)).bind fun l => some (l.setKind TText)) =
        some (lexerAt log source p q TText) := by
  obtain ⟨q, hq1, hq2, hq3⟩ := consumeToEndOfTextLoop_run log source p TEndOfFile
    (source.length + 1) (p + 1) (by omega) (by omega)
  exact ⟨q, Produced.text p q hc hq1 hq2, by rw [hq3]; rfl⟩

theorem lt_of_not_IsNameStart (c : Int) (h : IsNameStart c = false) : c < 0x80 := by
  by_contra hge
  have : IsNameStart c = true := by
    simp only [IsNameStart, Bool.or_eq_true, decide_eq_true_eq]
    right
    omega
  rw [h] at this
  exact absurd this (by decide)

/-- Every call of `next` before the end of the source produces a token in one of
the ways listed by `Produced`. -/
theorem next_produced (log : Log) (source : List Nat) (start : Int) (p : Nat) (kind : T)
    (hp : p < source.length) :
    ∃ q k, Produced source p q k ∧
      (lexerAt log source start p kind).next = some (lexerAt log source p q k) := by
  have hne := codePointAt_ne_eof source p hp
  have hnn := codePointAt_nonneg source p hp
  obtain ⟨r1, r2, r3, r4, r5, r6, r7, r8, r9, r10, r11, r12⟩ := rune_values
  by_cases h1 : codePointAt source p = rune '='
  · have hw := width_one_of_codePointAt source p _ h1 (by decide) (by decide)
    have hnext := (next_single log source start p kind hp).1 h1
    rw [hw] at hnext
    exact ⟨p + 1, TEquals, Produced.equals p h1, hnext⟩
  by_cases h2 : codePointAt source p = 0x22 ∨ codePointAt source p = 0x27
  · have hw : widthAt source p = 1 := by
      rcases h2 with h | h
      · exact width_one_of_codePointAt source p _ h (by decide) (by decide)
      · exact width_one_of_codePointAt source p _ h (by decide) (by decide)
    have hnext := (next_single log source start p kind hp).2.1 h2
    rw [hw] at hnext
    exact ⟨p + 1, TString, Produced.string p h2, hnext⟩
  by_cases h3 : codePointAt source p = rune '<'
  · by_cases hd : bytes "!doctype" <+: source.drop (p + 1) ∨
        bytes "!DOCTYPE" <+: source.drop (p + 1)
    · exact ⟨p + 9, TDoctypeStart, Produced.doctype p h3 hd,
        (next_less_literal log source start p kind h3).1 hd⟩
    by_cases hc : bytes "!--" <+: source.drop (p + 1)
    · exact ⟨p + 4, TCommentStart, Produced.commentStart p h3 hc,
        (next_less_literal log source start p kind h3).2.1 hc⟩
    by_cases hs : bytes "/" <+: source.drop (p + 1)
    · exact ⟨p + 2, TTagCloseStart, Produced.tagClose p h3 hs,
        (next_less_literal log source start p kind h3).2.2 hs⟩
    have hd1 : ¬ bytes "!doctype" <+: source.drop (p + 1) := fun h => hd (Or.inl h)
    have hd2 : ¬ bytes "!DOCTYPE" <+: source.drop (p + 1) := fun h => hd (Or.inr h)
    obtain ⟨o1, o2⟩ := next_less_other log source start p kind h3 hd1 hd2 hc hs
    by_cases hn : IsNameStart (codePointAt source (p + 1)) = true
    · exact ⟨p + 1, TTagOpenStart, Produced.tagOpen p h3 hn, o1 hn⟩
    · have hn2 : IsNameStart (codePointAt source (p + 1)) = false := by simpa using hn
      obtain ⟨q, hq1, hq2⟩ := text_run_produced log source p hp (by rw [h3]; decide)
      exact ⟨q, TText, hq1, by rw [o2 hn2, hq2]⟩
  by_cases h4 : codePointAt source p = rune '-'
  · by_cases hm : bytes "->" <+: source.drop (p + 1)
    · exact ⟨p + 3, TCommentEnd, Produced.commentEnd p h4 hm,
        (next_minus_slash log source start p kind).1 h4 hm⟩
    · obtain ⟨q, hq1, hq2⟩ := text_run_produced log source p hp (by rw [h4]; decide)
      exact ⟨q, TText, hq1, by
        rw [(next_minus_slash log source start p kind).2.2 (Or.inl ⟨h4, hm⟩), hq2]⟩
  by_cases h5 : codePointAt source p = rune '/'
  · by_cases hm : bytes ">" <+: source.drop (p + 1)
    · exact ⟨p + 2, TTagSelfClosingEnd, Produced.selfClosing p h5 hm,
        (next_minus_slash log source start p kind).2.1 h5 hm⟩
    · obtain ⟨q, hq1, hq2⟩ := text_run_produced log source p hp (by rw [h5]; decide)
      exact ⟨q, TText, hq1, by
        rw [(next_minus_slash log source start p kind).2.2 (Or.inr ⟨h5, hm⟩), hq2]⟩
  by_cases h6 : codePointAt source p = rune '>'
  · have hw := width_one_of_codePointAt source p _ h6 (by decide) (by decide)
    have hnext := (next_single log source start p kind hp).2.2 h6
    rw [hw] at hnext
    exact ⟨p + 1, TTagEnd, Produced.tagEnd p h6, hnext⟩
  have h22 : codePointAt source p ≠ 0x22 := fun h => h2 (Or.inl h)
  have h27 : codePointAt source p ≠ 0x27 := fun h => h2 (Or.inr h)
  obtain ⟨d1, d2⟩ := next_default log source start p kind hne h1 h22 h27 h3 h4 h5 h6
  by_cases hn : IsNameStart (codePointAt source p) = true
  · obtain ⟨q, hq1, hq2, hq3⟩ := consumeToEndOfNameLoop_run log source p TEndOfFile
      (source.length + 1) p (le_of_lt hp) (by omega)
    exact ⟨q, TName, Produced.name p q hn hq1 hq2, by rw [d1 hn, hq3]; rfl⟩
  · have hn2 : IsNameStart (codePointAt source p) = false := by simpa using hn
    have hlt := lt_of_not_IsNameStart _ hn2
    have hw := width_one_of_codePointAt source p _ rfl hnn hlt
    obtain ⟨q, hq1, hq2, hq3⟩ := consumeToEndOfTextLoop_run log source p TEndOfFile
      (source.length + 1) p (le_of_lt hp) (by omega)
    refine ⟨q, TText, ?_, by rw [d2 hn2, hq3]; rfl⟩
    cases hq1 with
    | stop =>
      exfalso
      rcases hq2 with h | h | h | h | h | h
      · exact h3 h
      · exact h4 h
      · exact h6 h
      · exact h22 h
      · exact h27 h
      · exact hne h
    | step _ _ _ _ rest =>
      rw [hw] at rest
      exact Produced.text p q hn2 rest hq2

theorem lexerAt_inj (log : Log) (source : List Nat) (start : Int) (q q2 : Nat) (k k2 : T)
    (h : lexerAt log source start q k = lexerAt log source start q2 k2) : q = q2 ∧ k = k2 := by
  have h0 := congrArg (fun l => l.current) h
  have h1 := congrArg (fun l => l.Token.Range.Len) h
  have h2 := congrArg (fun l => l.Token.Kind) h
  simp only [lexerAt] at h0 h1 h2
  have w1 := widthAt_le_four source q
  have w2 := widthAt_le_four source q2
  rw [int32_len, int32_len] at h1
  unfold int32 at h1
  exact ⟨by omega, h2⟩

theorem chain_of_lexed (log : Log) (source : List Nat) (p : Nat) (tokens : List Token)
    (h : Lexed log source p tokens) : Chain source p tokens := by
  induction h with
  | done p h => exact Chain.done p h
  | token p q kind tokens hp hq hle hkind hnext rest ih =>
    obtain ⟨q2, k2, hprod, hnext2⟩ := next_produced log source p p TEndOfFile hp
    rw [hnext] at hnext2
    obtain ⟨hq2, hk2⟩ := lexerAt_inj log source p q q2 kind k2 (Option.some.inj hnext2)
    subst hq2 hk2
    exact Chain.token p q kind tokens hp hprod ih

/-- `Tokenize` always returns, leaves the log as it found it, and returns the
chain of tokens from offset zero. -/
theorem Tokenize_chain (log : Log) (source : List Nat) :
    ∃ tokens, Tokenize log source = some (tokens, log) ∧ Chain source 0 tokens := by
  obtain ⟨tokens, h1, h2⟩ := Tokenize_lexed log source
  exact ⟨tokens, h1, chain_of_lexed log source 0 tokens h2⟩

end html_lexer

/-! ## The bytes a token covers -/

namespace utf8

/-- The bytes of a decoded code point after its first byte are continuation
bytes, none of them ASCII. -/
theorem DecodeRuneInString_continuation (s : List Nat) (i c : Nat) (h0 : 0 < i)
    (hi : i < (DecodeRuneInString s).2) (hc : s[i]? = some c) : 0x80 ≤ c := by
  rcases s with _ | ⟨s0, _ | ⟨s1, _ | ⟨s2, _ | ⟨s3, rest⟩⟩⟩⟩
  · simp at hc
  all_goals
    have hx := first_spec s0
    simp only [DecodeRuneInString] at hi
    generalize first s0 = x at hi hx
    split_ifs at hi <;> dsimp only at hi <;> interval_cases i <;> simp at hc <;> omega

end utf8

namespace html_lexer

open logger T

theorem widthAt_continuation (source : List Nat) (p i c : Nat) (h0 : 0 < i)
    (hi : i < widthAt source p) (hc : source[p + i]? = some c) : 0x80 ≤ c := by
  apply utf8.DecodeRuneInString_continuation (source.drop p) i c h0 hi
  rw [List.getElem?_drop]
  exact hc

/-- Every ASCII byte that a run steps over is a code point of its own, so it
satisfies the condition of the run. -/
theorem run_bytes (source : List Nat) (P : Int → Prop) (p q : Nat) (h : Run source P p q) :
    ∀ (r c : Nat), p ≤ r → r < q → source[r]? = some c → c < 0x80 → P (c : Int) := by
  induction h with
  | stop p => intro r c h1 h2; omega
  | step p q hp hP rest ih =>
    intro r c h1 h2 hc hlt
    by_cases hr : r < p + widthAt source p
    · by_cases hrp : r = p
      · subst hrp
        rw [← (at_ascii source r c hc hlt).2]
        exact hP
      · exfalso
        have hge := widthAt_continuation source p (r - p) c (by omega) (by omega)
          (by rw [show p + (r - p) = r by omega]; exact hc)
        omega
    · exact ih r c (by omega) h2 hc hlt

theorem width_one_of_produced_start (source : List Nat) (p : Nat) (hp : p < source.length)
    (h : codePointAt source p < 0x80) : widthAt source p = 1 :=
  width_one_of_codePointAt source p _ rfl (codePointAt_nonneg source p hp) h

theorem prefix_length_le (source : List Nat) (p : Nat) (m : List Nat)
    (hm : m <+: source.drop (p + 1)) (hp : p < source.length) :
    p + m.length + 1 ≤ source.length := by
  have hlen := hm.length_le
  simp only [List.length_drop] at hlen
  omega

/-- What every branch of `next` has in common: the token is not empty, stays
within the source, is neither `EndOfFile` nor `SyntaxError`, and its end is
reached from its start by stepping over whole code points. -/
theorem produced_facts (source : List Nat) (p q : Nat) (k : T) (hp : p < source.length)
    (h : Produced source p q k) :
    p < q ∧ q ≤ source.length ∧ k ≠ TEndOfFile ∧ k ≠ TSyntaxError ∧
      Run source (fun _ => True) p q := by
  have one : ∀ c : Int, codePointAt source p = c → c < 0x80 →
      Run source (fun _ => True) p (p + 1) := by
    intro c hc hlt
    have hw := width_one_of_produced_start source p hp (by rw [hc]; exact hlt)
    have := Run.step p (p + widthAt source p) hp (P := fun _ => True) trivial (Run.stop _)
    rwa [hw] at this
  have lit : ∀ (c : Int) (m : List Nat), codePointAt source p = c → c < 0x80 →
      m <+: source.drop (p + 1) → (∀ b ∈ m, b < 0x80) →
      p + m.length + 1 ≤ source.length ∧ Run source (fun _ => True) p (p + m.length + 1) := by
    intro c m hc hlt hm hascii
    have hw := width_one_of_produced_start source p hp (by rw [hc]; exact hlt)
    exact ⟨prefix_length_le source p m hm hp, run_of_prefix source p m hw hm hascii⟩
  cases h with
  | equals h => exact ⟨by omega, by omega, by decide, by decide, one _ h (by decide)⟩
  | string h =>
    refine ⟨by omega, by omega, by decide, by decide, ?_⟩
    rcases h with h | h
    · exact one _ h (by decide)
    · exact one _ h (by decide)
  | doctype h hm =>
    rcases hm with hm | hm
    · obtain ⟨a, b⟩ := lit _ _ h (by decide) hm (by decide)
      exact ⟨by omega, a, by decide, by decide, b⟩
    · obtain ⟨a, b⟩ := lit _ _ h (by decide) hm (by decide)
      exact ⟨by omega, a, by decide, by decide, b⟩
  | commentStart h hm =>
    obtain ⟨a, b⟩ := lit _ _ h (by decide) hm (by decide)
    exact ⟨by omega, a, by decide, by decide, b⟩
  | tagClose h hm =>
    obtain ⟨a, b⟩ := lit _ _ h (by decide) hm (by decide)
    exact ⟨by omega, a, by decide, by decide, b⟩
  | tagOpen h hn => exact ⟨by omega, by omega, by decide, by decide, one _ h (by decide)⟩
  | commentEnd h hm =>
    obtain ⟨a, b⟩ := lit _ _ h (by decide) hm (by decide)
    exact ⟨by omega, a, by decide, by decide, b⟩
  | selfClosing h hm =>
    obtain ⟨a, b⟩ := lit _ _ h (by decide) hm (by decide)
    exact ⟨by omega, a, by decide, by decide, b⟩
  | tagEnd h => exact ⟨by omega, by omega, by decide, by decide, one _ h (by decide)⟩
  | name _ h hrun hstop =>
    have hle := run_le source _ p q hrun
    have hne : q ≠ p := by
      rintro rfl
      simp [IsNameContinue, h] at hstop
    exact ⟨by omega, run_le_length source _ p q hrun (le_of_lt hp), by decide, by decide,
      run_mono source _ _ p q hrun (fun _ _ => trivial)⟩
  | text _ h hrun hstop =>
    have hle := run_le source _ (p + 1) q hrun
    refine ⟨by omega, run_le_length source _ (p + 1) q hrun (by omega), by decide, by decide, ?_⟩
    exact run_trans source _ p (p + 1) q (one _ rfl (lt_of_not_IsNameStart _ h))
      (run_mono source _ _ (p + 1) q hrun (fun _ _ => trivial))

/-- Every token of a chain is produced by a call of `next` at an offset that is
reached from the start of the chain by stepping over whole code points. -/
theorem chain_tokens (source : List Nat) (p : Nat) (tokens : List Token)
    (h : Chain source p tokens) :
    ∀ t ∈ tokens, ∃ a b k, t = tokenAt a b k ∧ a < source.length ∧ Produced source a b k ∧
      Run source (fun _ => True) p a := by
  induction h with
  | done p h => intro t ht; simp at ht
  | token p q kind tokens hp hprod rest ih =>
    intro t ht
    rcases List.mem_cons.mp ht with rfl | hmem
    · exact ⟨p, q, kind, rfl, hp, hprod, Run.stop p⟩
    · obtain ⟨a, b, k, h1, h2, h3, h4⟩ := ih t hmem
      exact ⟨a, b, k, h1, h2, h3,
        run_trans source _ p q a (produced_facts source p q kind hp hprod).2.2.2.2 h4⟩

theorem chain_length (source : List Nat) (p : Nat) (tokens : List Token)
    (h : Chain source p tokens) (hp : p ≤ source.length) :
    tokens.length + p ≤ source.length := by
  induction h with
  | done p h => simpa using hp
  | token p q kind tokens hp2 hprod rest ih =>
    obtain ⟨h1, h2, _⟩ := produced_facts source p q kind hp2 hprod
    have := ih h2
    simp only [List.length_cons]
    omega

/-! ## Claims about the tokens of a source -/

/-- C13: on every byte sequence `Tokenize` returns (no slice out of range, no
step budget used up), the tokens being those of the run of `next` calls from
offset zero and no more than the source has bytes; and every call of `next`
made before the end of the source returns with the lexer at a strictly later
offset, still within the source. -/
theorem Tokenize_terminates (log : Log) (source : List Nat) :
    (∃ tokens log2, Tokenize log source = some (tokens, log2) ∧
      Lexed log source 0 tokens ∧ tokens.length ≤ source.length) ∧
    ∀ (start : Int) (p : Nat) (kind : T), p < source.length →
      ∃ q k, p < q ∧ q ≤ source.length ∧
        (lexerAt log source start p kind).next = some (lexerAt log source p q k) := by
  constructor
  · obtain ⟨tokens, h1, h2⟩ := Tokenize_lexed log source
    have h3 := chain_length source 0 tokens (chain_of_lexed log source 0 tokens h2)
      (Nat.zero_le _)
    exact ⟨tokens, log, h1, h2, by omega⟩
  · intro start p kind hp
    obtain ⟨q, k, h1, h2, _, h4⟩ := next_lexerAt log source start p kind hp
    exact ⟨q, k, h1, h2, h4⟩

/-- C15: `Tokenize` applied to the empty source returns the empty token list. -/
theorem Tokenize_empty (log : Log) : Tokenize log [] = some ([], log) := by
  obtain ⟨tokens, h1, h2⟩ := Tokenize_lexed log []
  rw [h1, lexed_at_end log [] 0 tokens h2 (by simp)]

theorem byte_of_codePointAt (source : List Nat) (a c : Nat) (ha : a < source.length)
    (h : codePointAt source a = (c : Int)) (hc : c < 0x80) : source[a]? = some c := by
  obtain ⟨c2, h1, _, h3, _⟩ := ascii_of_codePointAt source a ha (by rw [h]; exact_mod_cast hc)
  rw [h] at h3
  have : c = c2 := by exact_mod_cast h3
  rw [this]
  exact h1

/-- C17, amended: on a source of fewer than `2^31` bytes, in every token of kind
`Text` that `Tokenize` returns, none of the characters `<`, `-`, `>`, `"`, `'`
occurs after the first byte, and the token ends at the end of the source or
just before one of those five characters. -/
theorem Tokenize_text_run (log : Log) (source : List Nat)
    (hsize : source.length < 2147483648) :
    ∃ tokens log2, Tokenize log source = some (tokens, log2) ∧
      ∀ t ∈ tokens, t.Kind = TText →
        ∃ a b : Nat, t.Range.Loc.Start = (a : Int) ∧ t.Range.End = (b : Int) ∧
          (∀ r c, a < r → r < b → source[r]? = some c →
            c ≠ 0x3C ∧ c ≠ 0x2D ∧ c ≠ 0x3E ∧ c ≠ 0x22 ∧ c ≠ 0x27) ∧
          (b = source.length ∨ ∃ c, source[b]? = some c ∧
            (c = 0x3C ∨ c = 0x2D ∨ c = 0x3E ∨ c = 0x22 ∨ c = 0x27)) := by
  obtain ⟨tokens, h1, h2⟩ := Tokenize_chain log source
  refine ⟨tokens, log, h1, ?_⟩
  intro t ht hkind
  obtain ⟨a, b, k, rfl, ha, hprod, _⟩ := chain_tokens source 0 tokens h2 t ht
  have hk : k = TText := hkind
  subst hk
  obtain ⟨hab, hble, _⟩ := produced_facts source a b TText ha hprod
  obtain ⟨s1, _, s3⟩ := tokenAt_small a b TText (by omega) (by omega)
  refine ⟨a, b, s1, s3, ?_, ?_⟩
  · intro r c har hrb hc
    cases hprod with
    | text _ h hrun hstop =>
      have key : c < 0x80 → ¬ isTextStop (c : Int) :=
        run_bytes source _ (a + 1) b hrun r c (by omega) hrb hc
      refine ⟨?_, ?_, ?_, ?_, ?_⟩ <;> rintro rfl
      · exact key (by norm_num) (Or.inl (by decide))
      · exact key (by norm_num) (Or.inr (Or.inl (by decide)))
      · exact key (by norm_num) (Or.inr (Or.inr (Or.inl (by decide))))
      · exact key (by norm_num) (Or.inr (Or.inr (Or.inr (Or.inl (by decide)))))
      · exact key (by norm_num) (Or.inr (Or.inr (Or.inr (Or.inr (Or.inl (by decide))))))
  · cases hprod with
    | text _ h hrun hstop =>
      by_cases hend : b = source.length
      · exact Or.inl hend
      · right
        have hb : b < source.length := by omega
        obtain ⟨r1, r2, r3, r4, r5, r6, r7, r8, r9, r10, r11, r12⟩ := rune_values
        rcases hstop with h | h | h | h | h | h
        · exact ⟨0x3C, byte_of_codePointAt source b _ hb (by rw [h, r1]; rfl) (by norm_num),
            Or.inl rfl⟩
        · exact ⟨0x2D, byte_of_codePointAt source b _ hb (by rw [h, r4]; rfl) (by norm_num),
            Or.inr (Or.inl rfl)⟩
        · exact ⟨0x3E, byte_of_codePointAt source b _ hb (by rw [h, r3]; rfl) (by norm_num),
            Or.inr (Or.inr (Or.inl rfl))⟩
        · exact ⟨0x22, byte_of_codePointAt source b _ hb (by rw [h]; rfl) (by norm_num),
            Or.inr (Or.inr (Or.inr (Or.inl rfl)))⟩
        · exact ⟨0x27, byte_of_codePointAt source b _ hb (by rw [h]; rfl) (by norm_num),
            Or.inr (Or.inr (Or.inr (Or.inr rfl)))⟩
        · exact absurd h (codePointAt_ne_eof source b hb)

/-- C17, amended, on the source `a -b`, whose `Text` tokens are the blank and `-b`. -/
theorem Tokenize_text_run_witness :
    ∃ tokens log2, Tokenize [] (bytes "a -b") = some (tokens, log2) ∧
      ∀ t ∈ tokens, t.Kind = TText →
        ∃ a b : Nat, t.Range.Loc.Start = (a : Int) ∧ t.Range.End = (b : Int) ∧
          (∀ r c, a < r → r < b → (bytes "a -b")[r]? = some c →
            c ≠ 0x3C ∧ c ≠ 0x2D ∧ c ≠ 0x3E ∧ c ≠ 0x22 ∧ c ≠ 0x27) ∧
          (b = (bytes "a -b").length ∨ ∃ c, (bytes "a -b")[b]? = some c ∧
            (c = 0x3C ∨ c = 0x2D ∨ c = 0x3E ∨ c = 0x22 ∨ c = 0x27)) :=
  Tokenize_text_run [] (bytes "a -b") (by decide)

/-- The source text covered by a token that is one ASCII character followed by
a fixed spelling. -/
theorem slice_of_prefix (source : List Nat) (a c : Nat) (m : List Nat)
    (ha : a < source.length) (hcp : codePointAt source a = (c : Int)) (hc : c < 0x80)
    (hm : m <+: source.drop (a + 1)) :
    htmlparser.slice source (a : Int) ((a + m.length + 1 : Nat) : Int) = some (c :: m) := by
  have hle := prefix_length_le source a m hm ha
  have hget := byte_of_codePointAt source a c ha hcp hc
  obtain ⟨_, hget2⟩ := List.getElem?_eq_some.mp hget
  have hdrop : source.drop a = c :: source.drop (a + 1) := by
    rw [List.drop_eq_getElem_cons ha, hget2]
  have hpre : (c :: m) <+: source.drop a := by
    rw [hdrop]
    exact List.cons_prefix_cons.mpr ⟨rfl, hm⟩
  have htake := List.prefix_iff_eq_take.mp hpre
  simp only [List.length_cons] at htake
  unfold htmlparser.slice
  rw [if_pos ⟨by omega, by push_cast; omega, by exact_mod_cast hle⟩]
  simp only [Int.toNat_ofNat]
  rw [show a + m.length + 1 = a + (m.length + 1) by omega, ← List.take_drop, ← htake]

/-- C19, amended: on a source of fewer than `2^31` bytes, the source text
covered by a token whose kind has a fixed spelling is that spelling: `<!doctype` or `<!DOCTYPE` for `DoctypeStart`, `<!--` for
`CommentStart`, `-->` for `CommentEnd`, `<` for `TagOpenStart`, `</` for
`TagCloseStart`, `>` for `TagEnd`, `/>` for `SelfClosingEnd`, `=` for `Equals`. -/
theorem Tokenize_spelling (log : Log) (source : List Nat)
    (hsize : source.length < 2147483648) :
    ∃ tokens log2, Tokenize log source = some (tokens, log2) ∧
      ∀ t ∈ tokens, ∃ text,
        htmlparser.slice source t.Range.Loc.Start t.Range.End = some text ∧
        (t.Kind = TDoctypeStart → text = bytes "<!doctype" ∨ text = bytes "<!DOCTYPE") ∧
        (t.Kind = TCommentStart → text = bytes "<!--") ∧
        (t.Kind = TCommentEnd → text = bytes "-->") ∧
        (t.Kind = TTagOpenStart → text = bytes "<") ∧
        (t.Kind = TTagCloseStart → text = bytes "</") ∧
        (t.Kind = TTagEnd → text = bytes ">") ∧
        (t.Kind = TTagSelfClosingEnd → text = bytes "/>") ∧
        (t.Kind = TEquals → text = bytes "=") := by
  obtain ⟨tokens, h1, h2⟩ := Tokenize_chain log source
  refine ⟨tokens, log, h1, ?_⟩
  intro t ht
  obtain ⟨a, b, k, rfl, ha, hprod, _⟩ := chain_tokens source 0 tokens h2 t ht
  obtain ⟨hab, hble, _⟩ := produced_facts source a b k ha hprod
  obtain ⟨r1, r2, r3, r4, r5, r6, r7, r8, r9, r10, r11, r12⟩ := rune_values
  obtain ⟨s1, s2, s3⟩ := tokenAt_small a b k (by omega) (by omega)
  rw [s1, s3]
  clear s1 s2 s3
  have lit : ∀ (c : Nat) (m : List Nat), codePointAt source a = (c : Int) → c < 0x80 →
      m <+: source.drop (a + 1) → b = a + m.length + 1 →
      htmlparser.slice source (a : Int) (b : Int) = some (c :: m) := by
    intro c m hcp hc hm hb
    rw [hb]
    exact slice_of_prefix source a c m ha hcp hc hm
  cases hprod with
  | equals h =>
    exact ⟨_, lit 0x3D [] (by rw [h, r2]; rfl) (by norm_num) List.nil_prefix rfl,
      by simp [tokenAt], by simp [tokenAt], by simp [tokenAt], by simp [tokenAt],
      by simp [tokenAt], by simp [tokenAt], by simp [tokenAt], fun _ => by decide⟩
  | string h =>
    have hslice : ∃ text, htmlparser.slice source (a : Int) ((a + 1 : Nat) : Int) = some text := by
      rcases h with h | h
      · exact ⟨_, lit 0x22 [] (by rw [h]; rfl) (by norm_num) List.nil_prefix rfl⟩
      · exact ⟨_, lit 0x27 [] (by rw [h]; rfl) (by norm_num) List.nil_prefix rfl⟩
    obtain ⟨text, htext⟩ := hslice
    exact ⟨text, htext, by simp [tokenAt], by simp [tokenAt], by simp [tokenAt],
      by simp [tokenAt], by simp [tokenAt], by simp [tokenAt], by simp [tokenAt],
      by simp [tokenAt]⟩
  | doctype h hm =>
    rcases hm with hm | hm
    · exact ⟨_, lit 0x3C _ (by rw [h, r1]; rfl) (by norm_num) hm rfl,
        fun _ => Or.inl (by decide), by simp [tokenAt], by simp [tokenAt], by simp [tokenAt],
        by simp [tokenAt], by simp [tokenAt], by simp [tokenAt], by simp [tokenAt]⟩
    · exact ⟨_, lit 0x3C _ (by rw [h, r1]; rfl) (by norm_num) hm rfl,
        fun _ => Or.inr (by decide), by simp [tokenAt], by simp [tokenAt], by simp [tokenAt],
        by simp [tokenAt], by simp [tokenAt], by simp [tokenAt], by simp [tokenAt]⟩
  | commentStart h hm =>
    exact ⟨_, lit 0x3C _ (by rw [h, r1]; rfl) (by norm_num) hm rfl,
      by simp [tokenAt], fun _ => by decide, by simp [tokenAt], by simp [tokenAt],
      by simp [tokenAt], by simp [tokenAt], by simp [tokenAt], by simp [tokenAt]⟩
  | tagClose h hm =>
    exact ⟨_, lit 0x3C _ (by rw [h, r1]; rfl) (by norm_num) hm rfl,
      by simp [tokenAt], by simp [tokenAt], by simp [tokenAt], by simp [tokenAt],
      fun _ => by decide, by simp [tokenAt], by simp [tokenAt], by simp [tokenAt]⟩
  | tagOpen h hn =>
    exact ⟨_, lit 0x3C [] (by rw [h, r1]; rfl) (by norm_num) List.nil_prefix rfl,
      by simp [tokenAt], by simp [tokenAt], by simp [tokenAt], fun _ => by decide,
      by simp [tokenAt], by simp [tokenAt], by simp [tokenAt], by simp [tokenAt]⟩
  | commentEnd h hm =>
    exact ⟨_, lit 0x2D _ (by rw [h, r4]; rfl) (by norm_num) hm rfl,
      by simp [tokenAt], by simp [tokenAt], fun _ => by decide, by simp [tokenAt],
      by simp [tokenAt], by simp [tokenAt], by simp [tokenAt], by simp [tokenAt]⟩
  | selfClosing h hm =>
    exact ⟨_, lit 0x2F _ (by rw [h, r5]; rfl) (by norm_num) hm rfl,
      by simp [tokenAt], by simp [tokenAt], by simp [tokenAt], by simp [tokenAt],
      by simp [tokenAt], by simp [tokenAt], fun _ => by decide, by simp [tokenAt]⟩
  | tagEnd h =>
    exact ⟨_, lit 0x3E [] (by rw [h, r3]; rfl) (by norm_num) List.nil_prefix rfl,
      by simp [tokenAt], by simp [tokenAt], by simp [tokenAt], by simp [tokenAt],
      by simp [tokenAt], fun _ => by decide, by simp [tokenAt], by simp [tokenAt]⟩
  | name _ h hrun hstop =>
    refine ⟨(source.take b).drop a, ?_, by simp [tokenAt], by simp [tokenAt],
      by simp [tokenAt], by simp [tokenAt], by simp [tokenAt], by simp [tokenAt],
      by simp [tokenAt], by simp [tokenAt]⟩
    unfold htmlparser.slice
    rw [if_pos ⟨by omega, by omega, by exact_mod_cast hble⟩]
    simp
  | text _ h hrun hstop =>
    refine ⟨(source.take b).drop a, ?_, by simp [tokenAt], by simp [tokenAt],
      by simp [tokenAt], by simp [tokenAt], by simp [tokenAt], by simp [tokenAt],
      by simp [tokenAt], by simp [tokenAt]⟩
    unfold htmlparser.slice
    rw [if_pos ⟨by omega, by omega, by exact_mod_cast hble⟩]
    simp

/-- C19, amended, on the source `<!doctype a=b/>-->`. -/
theorem Tokenize_spelling_witness :
    ∃ tokens log2, Tokenize [] (bytes "<!doctype a=b/>-->") = some (tokens, log2) ∧
      ∀ t ∈ tokens, ∃ text,
        htmlparser.slice (bytes "<!doctype a=b/>-->") t.Range.Loc.Start t.Range.End
          = some text ∧
        (t.Kind = TDoctypeStart → text = bytes "<!doctype" ∨ text = bytes "<!DOCTYPE") ∧
        (t.Kind = TCommentStart → text = bytes "<!--") ∧
        (t.Kind = TCommentEnd → text = bytes "-->") ∧
        (t.Kind = TTagOpenStart → text = bytes "<") ∧
        (t.Kind = TTagCloseStart → text = bytes "</") ∧
        (t.Kind = TTagEnd → text = bytes ">") ∧
        (t.Kind = TTagSelfClosingEnd → text = bytes "/>") ∧
        (t.Kind = TEquals → text = bytes "=") :=
  Tokenize_spelling [] (bytes "<!doctype a=b/>-->") (by decide)

/-- At a name-start code point `next` produces a `Name`. -/
theorem produced_of_IsNameStart (source : List Nat) (p q : Nat) (k : T)
    (h : Produced source p q k) (hn : IsNameStart (codePointAt source p) = true) :
    k = TName := by
  obtain ⟨c0, c1, c2, c3, c4, c5, c6, c7⟩ := not_special_of_IsNameStart _ hn
  cases h with
  | equals h => exact absurd h c1
  | string h =>
    rcases h with h | h
    · exact absurd h c2
    · exact absurd h c3
  | doctype h hm => exact absurd h c4
  | commentStart h hm => exact absurd h c4
  | tagClose h hm => exact absurd h c4
  | tagOpen h hn2 => exact absurd h c4
  | commentEnd h hm => exact absurd h c5
  | selfClosing h hm => exact absurd h c6
  | tagEnd h => exact absurd h c7
  | name _ h hrun hstop => rfl
  | text _ h hrun hstop =>
    rw [hn] at h
    exact absurd h (by decide)

theorem tokenAt_next (p q : Nat) (k k2 : T) :
    (tokenAt p (p + 1) k).Range.Len = 1 ∧
      (tokenAt (p + 1) q k2).Range.Loc.Start = int32 ((tokenAt p (p + 1) k).Range.Loc.Start + 1) ∧
      (p + 1 < 2147483648 →
        (tokenAt (p + 1) q k2).Range.Loc.Start = (tokenAt p (p + 1) k).Range.Loc.Start + 1) := by
  simp only [tokenAt]
  refine ⟨?_, ?_, ?_⟩
  · unfold int32
    push_cast
    omega
  · unfold int32
    push_cast
    omega
  · intro h
    rw [int32_natCast (p + 1) h, int32_natCast p (by omega)]
    push_cast
    rfl

theorem chain_tag_open (source : List Nat) (p : Nat) (tokens : List Token)
    (h : Chain source p tokens) :
    ∀ (i : Nat) (t : Token), tokens[i]? = some t → t.Kind = TTagOpenStart →
      t.Range.Len = 1 ∧ ∃ t2, tokens[i + 1]? = some t2 ∧ t2.Kind = TName ∧
        t2.Range.Loc.Start = int32 (t.Range.Loc.Start + 1) ∧
        (source.length < 2147483648 → t2.Range.Loc.Start = t.Range.Loc.Start + 1) := by
  induction h with
  | done p h => intro i t ht; simp at ht
  | token p q kind tokens hp hprod rest ih =>
    intro i t ht hkind
    cases i with
    | zero =>
      simp only [List.getElem?_cons_zero, Option.some.injEq] at ht
      subst ht
      have hk : kind = TTagOpenStart := hkind
      subst hk
      cases hprod with
      | tagOpen h hn =>
        cases rest with
        | done _ hend =>
          exfalso
          rw [codePointAt_end source (p + 1) hend] at hn
          exact absurd hn (by decide)
        | token _ q2 k2 tokens2 hp2 hprod2 rest2 =>
          have hk2 := produced_of_IsNameStart source (p + 1) q2 k2 hprod2 hn
          obtain ⟨n1, n2, n3⟩ := tokenAt_next p q2 TTagOpenStart k2
          exact ⟨n1, tokenAt (p + 1) q2 k2, by simp, hk2, n2, fun hs => n3 (by omega)⟩
    | succ j =>
      simp only [List.getElem?_cons_succ] at ht
      obtain ⟨h1, t2, h2, h3, h4, h5⟩ := ih j t ht hkind
      exact ⟨h1, t2, by simpa using h2, h3, h4, h5⟩

theorem not_prefix_of_IsNameStart (source : List Nat) (q c : Nat) (m : List Nat)
    (hn : IsNameStart (codePointAt source q) = true) (hc : c < 0x80)
    (hns : IsNameStart (c : Int) = false) : ¬ (c :: m) <+: source.drop q := by
  intro hm
  rw [ codePointAt_of_prefix source q c m hm hc, hns] at hn
  exact absurd hn (by decide)

/-- C18: every token of kind `TagOpenStart` that `Tokenize` returns has length 1
and is followed in the list by a token of kind `Name` that starts at the next
byte: its start is the `int32` sum `Start + 1`, which is the exact sum on every
source of fewer than `2^31` bytes; and a source that begins with `<` followed
by a name-start code point yields `TagOpenStart` as its first token and `Name`
as its second. -/
theorem Tokenize_tag_open (log : Log) (source : List Nat) :
    ∃ tokens log2, Tokenize log source = some (tokens, log2) ∧
      (∀ (i : Nat) (t : Token), tokens[i]? = some t → t.Kind = TTagOpenStart →
        t.Range.Len = 1 ∧ ∃ t2, tokens[i + 1]? = some t2 ∧ t2.Kind = TName ∧
          t2.Range.Loc.Start = int32 (t.Range.Loc.Start + 1) ∧
          (source.length < 2147483648 → t2.Range.Loc.Start = t.Range.Loc.Start + 1)) ∧
      (codePointAt source 0 = rune '<' → IsNameStart (codePointAt source 1) = true →
        ∃ t1 t2 rest, tokens = t1 :: t2 :: rest ∧ t1.Kind = TTagOpenStart ∧
          t2.Kind = TName) := by
  obtain ⟨tokens, h1, h2⟩ := Tokenize_chain log source
  have hgen := chain_tag_open source 0 tokens h2
  refine ⟨tokens, log, h1, hgen, ?_⟩
  intro hcp hn
  obtain ⟨b1, b2, b3, b4, b5, b6⟩ := bytes_values
  have hn1 : IsNameStart (codePointAt source (0 + 1)) = true := hn
  have n1 : ¬ bytes "!doctype" <+: source.drop (0 + 1) := by
    rw [b1]; exact not_prefix_of_IsNameStart source _ _ _ hn1 (by norm_num) (by decide)
  have n2 : ¬ bytes "!DOCTYPE" <+: source.drop (0 + 1) := by
    rw [b2]; exact not_prefix_of_IsNameStart source _ _ _ hn1 (by norm_num) (by decide)
  have n3 : ¬ bytes "!--" <+: source.drop (0 + 1) := by
    rw [b3]; exact not_prefix_of_IsNameStart source _ _ _ hn1 (by norm_num) (by decide)
  have n4 : ¬ bytes "/" <+: source.drop (0 + 1) := by
    rw [b4]; exact not_prefix_of_IsNameStart source _ _ _ hn1 (by norm_num) (by decide)
  have hnext := (next_less_other log source 0 0 TEndOfFile hcp n1 n2 n3 n4).1 hn1
  have hlen : 1 ≤ source.length := by
    have := lt_length_of_codePointAt source 0 (by rw [hcp]; decide)
    omega
  obtain ⟨rest, hrest, _⟩ := Tokenize_of_next log source (0 + 1) TTagOpenStart hnext
    (by norm_num) (by simpa using hlen) (by decide)
  rw [h1] at hrest
  have htok : tokens = tokenAt 0 (0 + 1) TTagOpenStart :: rest := by
    have := Option.some.inj hrest
    exact (Prod.mk.inj this).1
  obtain ⟨_, t2, ht2, hk2, _, _⟩ := hgen 0 (tokenAt 0 (0 + 1) TTagOpenStart) (by rw [htok]; simp) rfl
  rw [htok] at ht2
  cases rest with
  | nil => simp at ht2
  | cons t3 rest2 =>
    simp only [List.getElem?_cons_succ, List.getElem?_cons_zero, Option.some.injEq] at ht2
    subst ht2
    exact ⟨_, _, rest2, htok, rfl, hk2⟩

end html_lexer

/-! ## Well-formed UTF-8 -/

namespace utf8

theorem first_two (b : Nat) (h1 : 0xC2 ≤ b) (h2 : b < 0xE0) : first b = (2, 0x80, 0xBF) := by
  unfold first
  split_ifs <;> first | rfl | omega

theorem first_three (b : Nat) (h1 : 0xE0 ≤ b) (h2 : b < 0xF0) :
    (first b).1 = 3 ∧ (b = 0xE0 → (first b).2 = (0xA0, 0xBF)) ∧
      (b = 0xED → (first b).2 = (0x80, 0x9F)) ∧
      (b ≠ 0xE0 → b ≠ 0xED → (first b).2 = (0x80, 0xBF)) := by
  unfold first
  split_ifs <;> simp <;> omega

theorem first_four (b : Nat) (h1 : 0xF0 ≤ b) (h2 : b < 0xF5) :
    (first b).1 = 4 ∧ (b = 0xF0 → (first b).2 = (0x90, 0xBF)) ∧
      (b = 0xF4 → (first b).2 = (0x80, 0x8F)) ∧
      (b ≠ 0xF0 → b ≠ 0xF4 → (first b).2 = (0x80, 0xBF)) := by
  interval_cases b <;> decide

/-- Decoding reads back an encoded scalar value and takes exactly its bytes. -/
theorem DecodeRuneInString_encode (c : Nat) (hv : ValidRune c) (rest : List Nat) :
    DecodeRuneInString (encode c ++ rest) = ((c : Int), (encode c).length) := by
  unfold ValidRune at hv
  unfold encode
  split_ifs with h1 h2 h3
  · simp [DecodeRuneInString_ascii c rest h1]
  · have hf := first_two (0xC0 + c / 0x40) (by omega) (by omega)
    simp only [List.cons_append, List.nil_append, DecodeRuneInString, hf, List.length_cons,
      List.length_nil]
    rw [if_neg (by decide), if_neg (by decide), if_neg (by omega), if_neg (by omega),
      if_pos (by decide)]
    simp only [Prod.mk.injEq, and_true]
    have : (0xC0 + c / 0x40) % 0x20 * 0x40 + (0x80 + c % 0x40) % 0x40 = c := by omega
    rw [this]
  · obtain ⟨f1, f2, f3, f4⟩ := first_three (0xE0 + c / 0x1000) (by omega) (by omega)
    simp only [List.cons_append, List.nil_append, DecodeRuneInString, List.length_cons,
      List.length_nil]
    have hlo : (first (0xE0 + c / 0x1000)).2.1 ≤ 0x80 + c / 0x40 % 0x40 ∧
        0x80 + c / 0x40 % 0x40 ≤ (first (0xE0 + c / 0x1000)).2.2 := by
      by_cases e0 : 0xE0 + c / 0x1000 = 0xE0
      · rw [f2 e0]; constructor <;> simp <;> omega
      · by_cases ed : 0xE0 + c / 0x1000 = 0xED
        · rw [f3 ed]; constructor <;> (simp; try omega)
        · rw [f4 e0 ed]; constructor <;> (simp; try omega)
    rw [f1, if_neg (by decide), if_neg (by decide), if_neg (by omega), if_neg (by omega),
      if_neg (by decide), if_neg (by omega), if_pos (by decide)]
    simp only [Prod.mk.injEq, and_true]
    have : (0xE0 + c / 0x1000) % 0x10 * 0x1000 + (0x80 + c / 0x40 % 0x40) % 0x40 * 0x40 +
        (0x80 + c % 0x40) % 0x40 = c := by omega
    rw [this]
  · obtain ⟨f1, f2, f3, f4⟩ := first_four (0xF0 + c / 0x40000) (by omega) (by omega)
    simp only [List.cons_append, List.nil_append, DecodeRuneInString, List.length_cons,
      List.length_nil]
    have hlo : (first (0xF0 + c / 0x40000)).2.1 ≤ 0x80 + c / 0x1000 % 0x40 ∧
        0x80 + c / 0x1000 % 0x40 ≤ (first (0xF0 + c / 0x40000)).2.2 := by
      by_cases e0 : 0xF0 + c / 0x40000 = 0xF0
      · rw [f2 e0]; constructor <;> simp <;> omega
      · by_cases e4 : 0xF0 + c / 0x40000 = 0xF4
        · rw [f3 e4]; constructor <;> (simp; try omega)
        · rw [f4 e0 e4]; constructor <;> (simp; try omega)
    rw [f1, if_neg (by decide), if_neg (by decide), if_neg (by omega), if_neg (by omega),
      if_neg (by decide), if_neg (by omega), if_neg (by decide), if_neg (by omega)]
    simp only [Prod.mk.injEq, and_true]
    have : (0xF0 + c / 0x40000) % 0x08 * 0x40000 + (0x80 + c / 0x1000 % 0x40) % 0x40 * 0x1000 +
        (0x80 + c / 0x40 % 0x40) % 0x40 * 0x40 + (0x80 + c % 0x40) % 0x40 = c := by omega
    rw [this]

end utf8

namespace html_lexer

open logger T

theorem encodeAll_split (cs : List Nat) (k : Nat) (hk : k < cs.length) :
    utf8.encodeAll cs =
      utf8.encodeAll (cs.take k) ++ (utf8.encode cs[k] ++ utf8.encodeAll (cs.drop (k + 1))) := by
  have h1 : cs = cs.take k ++ cs[k] :: cs.drop (k + 1) := by
    rw [List.getElem_cons_drop cs k hk, List.take_append_drop]
  conv_lhs => rw [h1]
  simp only [utf8.encodeAll, List.flatMap_append, List.flatMap_cons]

theorem encodeAll_take_succ (cs : List Nat) (k : Nat) (hk : k < cs.length) :
    (utf8.encodeAll (cs.take (k + 1))).length =
      (utf8.encodeAll (cs.take k)).length + (utf8.encode cs[k]).length := by
  have h1 : cs.take (k + 1) = cs.take k ++ [cs[k]] := by
    rw [List.take_succ, List.getElem?_eq_getElem hk]
    rfl
  rw [h1]
  simp only [utf8.encodeAll, List.flatMap_append, List.flatMap_cons, List.flatMap_nil,
    List.append_nil, List.length_append]

/-- At a code point boundary of a well-formed source the lexer reads one whole
encoded code point. -/
theorem widthAt_boundary (cs : List Nat) (hvalid : ∀ c ∈ cs, utf8.ValidRune c) (k : Nat)
    (hk : k < cs.length) :
    widthAt (utf8.encodeAll cs) (utf8.encodeAll (cs.take k)).length =
      (utf8.encode cs[k]).length := by
  unfold widthAt
  rw [encodeAll_split cs k hk, List.drop_left,
    utf8.DecodeRuneInString_encode cs[k] (hvalid _ (List.getElem_mem _))]

theorem run_boundary (cs : List Nat) (hvalid : ∀ c ∈ cs, utf8.ValidRune c) (p q : Nat)
    (h : Run (utf8.encodeAll cs) (fun _ => True) p q) (hp : Boundary cs p) :
    Boundary cs q := by
  induction h with
  | stop p => exact hp
  | step p q hlt _ rest ih =>
    apply ih
    obtain ⟨k, hk, rfl⟩ := hp
    have hk2 : k < cs.length := by
      rcases Nat.lt_or_ge k cs.length with h | h
      · exact h
      · exfalso
        have hke : k = cs.length := by omega
        rw [hke, List.take_length] at hlt
        exact lt_irrefl _ hlt
    refine ⟨k + 1, hk2, ?_⟩
    rw [widthAt_boundary cs hvalid k hk2, encodeAll_take_succ cs k hk2]

/-- C14, amended: on a source of fewer than `2^31` bytes that is the UTF-8
encoding of a sequence of Unicode scalar values, the start offset and the end
offset of every token `Tokenize` returns are code point boundaries of the
source. -/
theorem Tokenize_boundaries (log : Log) (cs : List Nat)
    (hvalid : ∀ c ∈ cs, utf8.ValidRune c)
    (hsize : (utf8.encodeAll cs).length < 2147483648) :
    ∃ tokens log2, Tokenize log (utf8.encodeAll cs) = some (tokens, log2) ∧
      ∀ t ∈ tokens, ∃ a b : Nat, t.Range.Loc.Start = (a : Int) ∧ t.Range.End = (b : Int) ∧
        Boundary cs a ∧ Boundary cs b := by
  obtain ⟨tokens, h1, h2⟩ := Tokenize_chain log (utf8.encodeAll cs)
  refine ⟨tokens, log, h1, ?_⟩
  intro t ht
  obtain ⟨a, b, k, rfl, ha, hprod, hreach⟩ := chain_tokens _ 0 tokens h2 t ht
  have h0 : Boundary cs 0 := ⟨0, Nat.zero_le _, by simp [utf8.encodeAll]⟩
  have hba := run_boundary cs hvalid 0 a hreach h0
  have hbb := run_boundary cs hvalid a b (produced_facts _ a b k ha hprod).2.2.2.2 hba
  obtain ⟨hab, hble, _⟩ := produced_facts _ a b k ha hprod
  obtain ⟨s1, _, s3⟩ := tokenAt_small a b k (by omega) (by omega)
  exact ⟨a, b, s1, s3, hba, hbb⟩

/-- C14, amended, on the encoding of `<`, U+00E9, U+20AC, U+1F600, `>`. -/
theorem Tokenize_boundaries_witness :
    (∀ c ∈ [0x3C, 0xE9, 0x20AC, 0x1F600, 0x3E], utf8.ValidRune c) ∧
      ∃ tokens log2,
        Tokenize [] (utf8.encodeAll [0x3C, 0xE9, 0x20AC, 0x1F600, 0x3E]) =
          some (tokens, log2) ∧
        ∀ t ∈ tokens, ∃ a b : Nat, t.Range.Loc.Start = (a : Int) ∧ t.Range.End = (b : Int) ∧
          Boundary [0x3C, 0xE9, 0x20AC, 0x1F600, 0x3E] a ∧
          Boundary [0x3C, 0xE9, 0x20AC, 0x1F600, 0x3E] b :=
  ⟨by decide, Tokenize_boundaries [] [0x3C, 0xE9, 0x20AC, 0x1F600, 0x3E] (by decide) (by decide)⟩

end html_lexer

/-! ## The parser core -/

namespace htmlparser

open logger html_lexer html_lexer.T

/-- When the logical end is within the token list, `current` returns a token:
a stored one before the logical end, one of kind `EndOfFile` at or past it. -/
theorem current_of_end_le (p : parser) (h : p.«end» ≤ p.tokens.length) :
    ∃ t, p.current = some t ∧ (p.index < p.«end» → t ∈ p.tokens) ∧
      (¬ p.index < p.«end» → t.Kind = TEndOfFile) := by
  unfold parser.current parser.«at»
  split_ifs with h1 h2
  · have hlt : p.index < p.tokens.length := lt_of_lt_of_le h1 h
    exact ⟨p.tokens[p.index], List.getElem?_eq_getElem hlt, fun _ => List.getElem_mem _,
      fun hn => absurd h1 hn⟩
  · rw [List.getElem?_eq_getElem h2]
    exact ⟨_, rfl, fun hn => absurd hn h1, fun _ => rfl⟩
  · exact ⟨_, rfl, fun hn => absurd hn h1, fun _ => rfl⟩

theorem current_of_wellFormed (p : parser) (h : p.WellFormed) :
    ∃ t, p.current = some t ∧ (t ∈ p.tokens ∨ t.Kind = TEndOfFile) := by
  obtain ⟨t, ht, h1, h2⟩ := current_of_end_le p h.1
  by_cases hlt : p.index < p.«end»
  · exact ⟨t, ht, Or.inl (h1 hlt)⟩
  · exact ⟨t, ht, Or.inr (h2 hlt)⟩

theorem raw_of_wellFormed (p : parser) (h : p.WellFormed) (t : Token)
    (ht : p.current = some t) (hk : t.Kind ≠ TEndOfFile) : ∃ raw, p.raw = some raw := by
  obtain ⟨t2, ht2, hmem⟩ := current_of_wellFormed p h
  rw [ht] at ht2
  cases ht2
  rcases hmem with hmem | hmem
  · obtain ⟨h1, _, h3, h4⟩ := h.2 t hmem
    refine ⟨(p.source.take t.Range.End.toNat).drop t.Range.Loc.Start.toNat, ?_⟩
    simp only [parser.raw, ht, Option.bind_eq_bind, Option.some_bind, slice]
    rw [if_pos ⟨h1, h3, h4⟩]
  · exact absurd hmem hk

theorem peek_of_current (p : parser) (t : Token) (ht : p.current = some t) (k : T) :
    p.peek k = some (decide (k = t.Kind)) := by
  simp [parser.peek, ht]

theorem eat_of_current (p : parser) (t : Token) (ht : p.current = some t) (k : T) :
    (k = t.Kind → p.eat k = some (true, p.advance)) ∧
      (k ≠ t.Kind → p.eat k = some (false, p)) := by
  constructor
  · intro h
    simp [parser.eat, peek_of_current p t ht, h]
  · intro h
    simp [parser.eat, peek_of_current p t ht, h]

/-- What `expect` does, by cases on the current token. -/
theorem expect_of_current (p : parser) (h : p.WellFormed) (t : Token)
    (ht : p.current = some t) (k : T) :
    (k = t.Kind → p.expect k = some (true, p.advance)) ∧
      (k ≠ t.Kind → t.Range.Loc.Start > p.prevError.Start → t.Kind = TEndOfFile →
        p.expect k = some (false, { p with
          log := p.log ++ [Msg.mk MsgKind.Warning (Range.mk t.Range.Loc 0)
            (Text.mk "Expected %s but found %s" [Arg.s k.String, Arg.s t.Kind.String])]
          prevError := t.Range.Loc })) ∧
      (k ≠ t.Kind → t.Range.Loc.Start > p.prevError.Start → t.Kind ≠ TEndOfFile →
        ∃ raw, p.raw = some raw ∧ p.expect k = some (false, { p with
          log := p.log ++ [Msg.mk MsgKind.Warning t.Range
            (Text.mk "Expected %s but found %q" [Arg.s k.String, Arg.q raw])]
          prevError := t.Range.Loc })) ∧
      (k ≠ t.Kind → ¬ t.Range.Loc.Start > p.prevError.Start →
        p.expect k = some (false, p)) := by
  obtain ⟨e1, e2⟩ := eat_of_current p t ht k
  refine ⟨?_, ?_, ?_, ?_⟩
  · intro hk
    simp [parser.expect, e1 hk]
  · intro hk hgt heof
    simp only [parser.expect, e2 hk, Option.bind_eq_bind, Option.some_bind, ht,
      Bool.false_eq_true, if_false, if_pos heof, Option.pure_def, if_pos hgt,
      Log.AddRangeWarning]
  · intro hk hgt heof
    obtain ⟨raw, hraw⟩ := raw_of_wellFormed p h t ht heof
    refine ⟨raw, hraw, ?_⟩
    simp only [parser.expect, e2 hk, Option.bind_eq_bind, Option.some_bind, ht,
      Bool.false_eq_true, if_false, if_neg heof, hraw, Option.pure_def, if_pos hgt,
      Log.AddRangeWarning]
  · intro hk hgt
    by_cases heof : t.Kind = TEndOfFile
    · simp only [parser.expect, e2 hk, Option.bind_eq_bind, Option.some_bind, ht,
        Bool.false_eq_true, if_false, if_pos heof, Option.pure_def, if_neg hgt]
    · obtain ⟨raw, hraw⟩ := raw_of_wellFormed p h t ht heof
      simp only [parser.expect, e2 hk, Option.bind_eq_bind, Option.some_bind, ht,
        Bool.false_eq_true, if_false, if_neg heof, hraw, Option.pure_def, if_neg hgt]

/-- What `unexpected` does, by cases on the current token. -/
theorem unexpected_of_current (p : parser) (h : p.WellFormed) (t : Token)
    (ht : p.current = some t) :
    (t.Range.Loc.Start > p.prevError.Start → t.Kind = TEndOfFile →
        p.unexpected = some { p with
          log := p.log ++ [Msg.mk MsgKind.Warning (Range.mk t.Range.Loc 0)
            (Text.mk "Unexpected %s" [Arg.s t.Kind.String])]
          prevError := t.Range.Loc }) ∧
      (t.Range.Loc.Start > p.prevError.Start → t.Kind ≠ TEndOfFile →
        ∃ raw, p.raw = some raw ∧ p.unexpected = some { p with
          log := p.log ++ [Msg.mk MsgKind.Warning t.Range
            (Text.mk "Unexpected %s" [Arg.raw raw])]
          prevError := t.Range.Loc }) ∧
      (¬ t.Range.Loc.Start > p.prevError.Start → p.unexpected = some p) := by
  refine ⟨?_, ?_, ?_⟩
  · intro hgt heof
    simp only [parser.unexpected, Option.bind_eq_bind, Option.some_bind, ht, if_pos hgt,
      if_pos heof, Option.pure_def, Log.AddRangeWarning]
  · intro hgt heof
    obtain ⟨raw, hraw⟩ := raw_of_wellFormed p h t ht heof
    refine ⟨raw, hraw, ?_⟩
    simp only [parser.unexpected, Option.bind_eq_bind, Option.some_bind, ht, if_pos hgt,
      if_neg heof, hraw, Option.pure_def, Log.AddRangeWarning]
  · intro hgt
    simp only [parser.unexpected, Option.bind_eq_bind, Option.some_bind, ht, if_neg hgt,
      Option.pure_def]

/-- C7 (the code at the failing input): parsing `<!doctype html>` logs one
warning, "Expected text but found" the `>` at offset 14, and returns a doctype
node whose name and value are the fixed texts `name` and `value`, which `Print`
renders as `<!doctype name value>`. -/
theorem Parse_doctype_html :
    Parse [] (bytes "<!doctype html>") =
        some ({ ImportRecords := [], Doctype := { Name := "name", Value := "value" } },
          [Msg.mk MsgKind.Warning (Range.mk (Loc.mk 14) 1)
            (Text.mk "Expected %s but found %q" [Arg.s "text", Arg.q (bytes ">")])]) ∧
      html_printer.Print
          { ImportRecords := [], Doctype := { Name := "name", Value := "value" } } =
        "<!doctype name value>" := by
  decide

/-- C8 as stated fails: on the parser for the empty source the current token is
the end-of-file token, `eat(EndOfFile)` returns true, and the cursor stays at 0.
And in a state whose logical end lies beyond the token list, `peek` and `eat`
index the token list out of range and do not return. -/
theorem eat_end_of_file_counterexample :
    (emptyParser.current.map (fun t => t.Kind) = some TEndOfFile ∧ emptyParser.index = 0 ∧
      (emptyParser.eat TEndOfFile).map (fun r => (r.1, r.2.index)) = some (true, 0)) ∧
    (overrunParser.peek TText = none ∧ overrunParser.eat TText = none) := by
  decide

/-- C8, amended: in a state whose logical end is within the token list, `peek`
answers whether the current token has the kind asked for; `eat` of that kind
returns true and moves the cursor by exactly one when the cursor is before the
logical end, and returns true and changes nothing when the cursor is at or past
the logical end (where the current token is the end-of-file token); `eat` of
another kind returns false and changes nothing. -/
theorem eat_peek (p : parser) (k : T) (h : p.«end» ≤ p.tokens.length) :
    ∃ t, p.current = some t ∧ p.peek k = some (decide (k = t.Kind)) ∧
      (¬ p.index < p.«end» → t.Kind = TEndOfFile) ∧
      (k = t.Kind → p.index < p.«end» →
        p.eat k = some (true, { p with index := p.index + 1 })) ∧
      (k = t.Kind → ¬ p.index < p.«end» → p.eat k = some (true, p)) ∧
      (k ≠ t.Kind → p.eat k = some (false, p)) := by
  obtain ⟨t, ht, _, h2⟩ := current_of_end_le p h
  obtain ⟨e1, e2⟩ := eat_of_current p t ht k
  refine ⟨t, ht, peek_of_current p t ht k, h2, ?_, ?_, e2⟩
  · intro hk hlt
    rw [e1 hk, parser.advance, if_pos hlt]
  · intro hk hlt
    rw [e1 hk, parser.advance, if_neg hlt]

/-- C8, amended, on the parser for the source `>`. -/
theorem eat_peek_witness :
    tagEndParser.«end» ≤ tagEndParser.tokens.length ∧
      ∃ t, tagEndParser.current = some t ∧
        tagEndParser.peek TTagEnd = some (decide (TTagEnd = t.Kind)) ∧
        (¬ tagEndParser.index < tagEndParser.«end» → t.Kind = TEndOfFile) ∧
        (TTagEnd = t.Kind → tagEndParser.index < tagEndParser.«end» →
          tagEndParser.eat TTagEnd =
            some (true, { tagEndParser with index := tagEndParser.index + 1 })) ∧
        (TTagEnd = t.Kind → ¬ tagEndParser.index < tagEndParser.«end» →
          tagEndParser.eat TTagEnd = some (true, tagEndParser)) ∧
        (TTagEnd ≠ t.Kind → tagEndParser.eat TTagEnd = some (false, tagEndParser)) :=
  ⟨by decide, eat_peek tagEndParser TTagEnd (by decide)⟩

theorem advance_fields (p : parser) :
    p.advance.source = p.source ∧ p.advance.tokens = p.tokens ∧
      p.advance.«end» = p.«end» ∧ p.advance.prevError = p.prevError ∧
      p.advance.log = p.log := by
  unfold parser.advance
  split_ifs <;> exact ⟨rfl, rfl, rfl, rfl, rfl⟩

/-- What `expect` leaves of the state, whatever the kind asked for. -/
theorem expect_summary (p : parser) (h : p.WellFormed) (t : Token) (ht : p.current = some t)
    (k : T) :
    ∃ b p2, p.expect k = some (b, p2) ∧ (b = true ↔ k = t.Kind) ∧
      p2.source = p.source ∧ p2.tokens = p.tokens ∧ p2.«end» = p.«end» ∧
      (b = false → p2.index = p.index) ∧
      (k ≠ t.Kind ∧ t.Range.Loc.Start > p.prevError.Start →
        (∃ m, p2.log = p.log ++ [m]) ∧ p2.prevError.Start = t.Range.Loc.Start) ∧
      (¬ (k ≠ t.Kind ∧ t.Range.Loc.Start > p.prevError.Start) →
        p2.log = p.log ∧ p2.prevError = p.prevError) := by
  obtain ⟨e1, e2, e3, e4⟩ := expect_of_current p h t ht k
  obtain ⟨a1, a2, a3, a4, a5⟩ := advance_fields p
  by_cases hk : k = t.Kind
  · refine ⟨true, p.advance, e1 hk, by simp [hk], a1, a2, a3, by simp, ?_, ?_⟩
    · intro hc
      exact absurd hk hc.1
    · intro _
      exact ⟨a5, a4⟩
  · by_cases hgt : t.Range.Loc.Start > p.prevError.Start
    · by_cases heof : t.Kind = TEndOfFile
      · refine ⟨false, _, e2 hk hgt heof, by simp [hk], rfl, rfl, rfl, fun _ => rfl, ?_, ?_⟩
        · intro _
          exact ⟨⟨_, rfl⟩, rfl⟩
        · intro hc
          exact absurd ⟨hk, hgt⟩ hc
      · obtain ⟨raw, _, hex⟩ := e3 hk hgt heof
        refine ⟨false, _, hex, by simp [hk], rfl, rfl, rfl, fun _ => rfl, ?_, ?_⟩
        · intro _
          exact ⟨⟨_, rfl⟩, rfl⟩
        · intro hc
          exact absurd ⟨hk, hgt⟩ hc
    · refine ⟨false, p, e4 hk hgt, by simp [hk], rfl, rfl, rfl, fun _ => rfl, ?_, ?_⟩
      · intro hc
        exact absurd hc.2 hgt
      · intro _
        exact ⟨rfl, rfl⟩

/-- What `unexpected` leaves of the state. -/
theorem unexpected_summary (p : parser) (h : p.WellFormed) (t : Token)
    (ht : p.current = some t) :
    ∃ p2, p.unexpected = some p2 ∧
      p2.source = p.source ∧ p2.tokens = p.tokens ∧ p2.«end» = p.«end» ∧
      p2.index = p.index ∧
      (t.Range.Loc.Start > p.prevError.Start →
        (∃ m, p2.log = p.log ++ [m]) ∧ p2.prevError.Start = t.Range.Loc.Start) ∧
      (¬ t.Range.Loc.Start > p.prevError.Start →
        p2.log = p.log ∧ p2.prevError = p.prevError) := by
  obtain ⟨u1, u2, u3⟩ := unexpected_of_current p h t ht
  by_cases hgt : t.Range.Loc.Start > p.prevError.Start
  · by_cases heof : t.Kind = TEndOfFile
    · exact ⟨_, u1 hgt heof, rfl, rfl, rfl, rfl, fun _ => ⟨⟨_, rfl⟩, rfl⟩,
        fun hc => absurd hgt hc⟩
    · obtain ⟨raw, _, hun⟩ := u2 hgt heof
      exact ⟨_, hun, rfl, rfl, rfl, rfl, fun _ => ⟨⟨_, rfl⟩, rfl⟩, fun hc => absurd hgt hc⟩
  · exact ⟨p, u3 hgt, rfl, rfl, rfl, rfl, fun hc => absurd hc hgt, fun _ => ⟨rfl, rfl⟩⟩

theorem wellFormed_of_fields (p p2 : parser) (h : p.WellFormed) (hs : p2.source = p.source)
    (ht : p2.tokens = p.tokens) (he : p2.«end» = p.«end») : p2.WellFormed := by
  unfold parser.WellFormed at h ⊢
  rw [hs, ht, he]
  exact h

/-- Every operation returns in a well-formed state, keeps the state well formed
and does not lower the watermark. -/
theorem apply_summary (p : parser) (h : p.WellFormed) (op : Op) :
    ∃ p2, p.apply op = some p2 ∧ p2.WellFormed ∧
      p.prevError.Start ≤ p2.prevError.Start := by
  obtain ⟨t, ht, _⟩ := current_of_wellFormed p h
  obtain ⟨a1, a2, a3, a4, a5⟩ := advance_fields p
  cases op with
  | advance =>
    exact ⟨p.advance, rfl, wellFormed_of_fields p _ h a1 a2 a3, by rw [a4]⟩
  | eat k =>
    obtain ⟨e1, e2⟩ := eat_of_current p t ht k
    by_cases hk : k = t.Kind
    · refine ⟨p.advance, ?_, wellFormed_of_fields p _ h a1 a2 a3, by rw [a4]⟩
      simp [parser.apply, e1 hk]
    · refine ⟨p, ?_, h, le_refl _⟩
      simp [parser.apply, e2 hk]
  | expect k =>
    obtain ⟨b, p2, hex, _, hs, htk, he, _, hemit, hkeep⟩ := expect_summary p h t ht k
    refine ⟨p2, ?_, wellFormed_of_fields p _ h hs htk he, ?_⟩
    · simp [parser.apply, hex]
    · by_cases hc : k ≠ t.Kind ∧ t.Range.Loc.Start > p.prevError.Start
      · rw [(hemit hc).2]
        exact le_of_lt hc.2
      · rw [(hkeep hc).2]
  | unexpected =>
    obtain ⟨p2, hun, hs, htk, he, _, hemit, hkeep⟩ := unexpected_summary p h t ht
    refine ⟨p2, hun, wellFormed_of_fields p _ h hs htk he, ?_⟩
    by_cases hc : t.Range.Loc.Start > p.prevError.Start
    · rw [(hemit hc).2]
      exact le_of_lt hc
    · rw [(hkeep hc).2]

theorem run_summary (ops : List Op) :
    ∀ (p : parser), p.WellFormed →
      ∃ p2, p.run ops = some p2 ∧ p2.WellFormed ∧ p.prevError.Start ≤ p2.prevError.Start := by
  induction ops with
  | nil => intro p h; exact ⟨p, rfl, h, le_refl _⟩
  | cons op ops ih =>
    intro p h
    obtain ⟨p1, h1, hw1, hle1⟩ := apply_summary p h op
    obtain ⟨p2, h2, hw2, hle2⟩ := ih p1 hw1
    refine ⟨p2, ?_, hw2, le_trans hle1 hle2⟩
    simp [parser.run, h1, h2]

/-- C9 as stated fails: on the parser for the source `>` the current token
starts at offset 0, above the watermark -1, and `expect(TagEnd)` succeeds and
emits nothing. And in a state whose current token has a range that reaches
beyond the source, a failing `expect` and `unexpected` slice the source out of
range and do not return. -/
theorem expect_success_counterexample :
    (tagEndParser.current.map (fun t => t.Range.Loc.Start) = some 0 ∧
      tagEndParser.prevError.Start = -1 ∧
      (tagEndParser.expect TTagEnd).map (fun r => (r.1, r.2.log)) = some (true, [])) ∧
    (strayParser.expect TTagEnd = none ∧ strayParser.unexpected = none) := by
  decide

/-- C9, amended: in a well-formed state with current token `t`, an `expect` of
a kind other than the kind of `t` (a failing `expect`) and `unexpected` emit a
diagnostic if and only if `t` starts strictly above the watermark; when they
emit, exactly one diagnostic is appended and the watermark becomes the start of
`t`; otherwise, and whenever `expect` succeeds, the log and the watermark are
unchanged. Over any sequence of parser-core operations the watermark never
decreases. -/
theorem expect_unexpected_watermark (p : parser) (h : p.WellFormed) :
    ∃ t, p.current = some t ∧
      (∀ k, ∃ b p2, p.expect k = some (b, p2) ∧ (b = true ↔ k = t.Kind) ∧
        (k ≠ t.Kind ∧ t.Range.Loc.Start > p.prevError.Start →
          (∃ m, p2.log = p.log ++ [m]) ∧ p2.prevError.Start = t.Range.Loc.Start) ∧
        (¬ (k ≠ t.Kind ∧ t.Range.Loc.Start > p.prevError.Start) →
          p2.log = p.log ∧ p2.prevError = p.prevError)) ∧
      (∃ p2, p.unexpected = some p2 ∧
        (t.Range.Loc.Start > p.prevError.Start →
          (∃ m, p2.log = p.log ++ [m]) ∧ p2.prevError.Start = t.Range.Loc.Start) ∧
        (¬ t.Range.Loc.Start > p.prevError.Start →
          p2.log = p.log ∧ p2.prevError = p.prevError)) ∧
      (∀ ops, ∃ p2, p.run ops = some p2 ∧ p.prevError.Start ≤ p2.prevError.Start) := by
  obtain ⟨t, ht, _⟩ := current_of_wellFormed p h
  refine ⟨t, ht, ?_, ?_, ?_⟩
  · intro k
    obtain ⟨b, p2, hex, hb, _, _, _, _, hemit, hkeep⟩ := expect_summary p h t ht k
    exact ⟨b, p2, hex, hb, hemit, hkeep⟩
  · obtain ⟨p2, hun, _, _, _, _, hemit, hkeep⟩ := unexpected_summary p h t ht
    exact ⟨p2, hun, hemit, hkeep⟩
  · intro ops
    obtain ⟨p2, hrun, _, hle⟩ := run_summary ops p h
    exact ⟨p2, hrun, hle⟩

/-- C9, amended, on the parser for the source `>`. -/
theorem expect_unexpected_watermark_witness :
    tagEndParser.WellFormed ∧
      ∃ t, tagEndParser.current = some t ∧
        (∀ k, ∃ b p2, tagEndParser.expect k = some (b, p2) ∧ (b = true ↔ k = t.Kind) ∧
          (k ≠ t.Kind ∧ t.Range.Loc.Start > tagEndParser.prevError.Start →
            (∃ m, p2.log = tagEndParser.log ++ [m]) ∧
              p2.prevError.Start = t.Range.Loc.Start) ∧
          (¬ (k ≠ t.Kind ∧ t.Range.Loc.Start > tagEndParser.prevError.Start) →
            p2.log = tagEndParser.log ∧ p2.prevError = tagEndParser.prevError)) ∧
        (∃ p2, tagEndParser.unexpected = some p2 ∧
          (t.Range.Loc.Start > tagEndParser.prevError.Start →
            (∃ m, p2.log = tagEndParser.log ++ [m]) ∧
              p2.prevError.Start = t.Range.Loc.Start) ∧
          (¬ t.Range.Loc.Start > tagEndParser.prevError.Start →
            p2.log = tagEndParser.log ∧ p2.prevError = tagEndParser.prevError)) ∧
        (∀ ops, ∃ p2, tagEndParser.run ops = some p2 ∧
          tagEndParser.prevError.Start ≤ p2.prevError.Start) :=
  ⟨by decide, expect_unexpected_watermark tagEndParser (by decide)⟩

/-- What a failing `expect` has done: the current token `t` has another kind,
and either `t` starts above the watermark and one diagnostic was appended, or
nothing changed. -/
theorem expect_false_inv (p p1 : parser) (k : T) (h1 : p.expect k = some (false, p1)) :
    ∃ t, p.current = some t ∧ k ≠ t.Kind ∧
      ((t.Range.Loc.Start > p.prevError.Start ∧
          ∃ m, p1 = { p with log := p.log ++ [m], prevError := t.Range.Loc }) ∨
        (¬ t.Range.Loc.Start > p.prevError.Start ∧ p1 = p)) := by
  cases hc : p.current with
  | none =>
    simp [parser.expect, parser.eat, parser.peek, hc] at h1
  | some t =>
    obtain ⟨e1, e2⟩ := eat_of_current p t hc k
    by_cases hk : k = t.Kind
    · simp [parser.expect, e1 hk] at h1
    · refine ⟨t, rfl, hk, ?_⟩
      simp only [parser.expect, e2 hk, Option.bind_eq_bind, Option.some_bind, hc,
        Bool.false_eq_true, if_false, Option.pure_def] at h1
      by_cases heof : t.Kind = TEndOfFile
      · simp only [if_pos heof, Option.some_bind] at h1
        by_cases hgt : t.Range.Loc.Start > p.prevError.Start
        · simp only [if_pos hgt, Option.some.injEq, Prod.mk.injEq, true_and] at h1
          exact Or.inl ⟨hgt, _, h1.symm⟩
        · simp only [if_neg hgt, Option.some.injEq, Prod.mk.injEq, true_and] at h1
          exact Or.inr ⟨hgt, h1.symm⟩
      · cases hr : p.raw with
        | none => simp [if_neg heof, hr] at h1
        | some raw =>
          simp only [if_neg heof, hr, Option.some_bind] at h1
          by_cases hgt : t.Range.Loc.Start > p.prevError.Start
          · simp only [if_pos hgt, Option.some.injEq, Prod.mk.injEq, true_and] at h1
            exact Or.inl ⟨hgt, _, h1.symm⟩
          · simp only [if_neg hgt, Option.some.injEq, Prod.mk.injEq, true_and] at h1
            exact Or.inr ⟨hgt, h1.symm⟩

theorem current_congr (p p2 : parser) (hs : p2.source = p.source) (ht : p2.tokens = p.tokens)
    (he : p2.«end» = p.«end») (hi : p2.index = p.index) : p2.current = p.current := by
  simp only [parser.current, parser.«at», hs, ht, he, hi]

/-- C10: when `expect(k1)` fails and `expect(k2)` then fails on the state the
first call left, the cursor has not moved in between, the second call emits
nothing, and the two calls together append exactly one diagnostic if the
current token starts strictly above the watermark beforehand (and none
otherwise). `Parse` of the empty source, whose three `expect` calls all fail at
offset 0 on a fresh parser, logs exactly one diagnostic. -/
theorem expect_dedup (p p1 p2 : parser) (k1 k2 : T)
    (h1 : p.expect k1 = some (false, p1)) (h2 : p1.expect k2 = some (false, p2)) :
    (p1.index = p.index ∧ p2.log = p1.log ∧
      ∃ t, p.current = some t ∧
        (t.Range.Loc.Start > p.prevError.Start → ∃ m, p2.log = p.log ++ [m]) ∧
        (¬ t.Range.Loc.Start > p.prevError.Start → p2.log = p.log)) ∧
      Parse [] [] =
        some ({ ImportRecords := [], Doctype := { Name := "name", Value := "value" } },
          [Msg.mk MsgKind.Warning (Range.mk (Loc.mk 0) 0)
            (Text.mk "Expected %s but found %s"
              [Arg.s "<!doctype", Arg.s "end of file"])]) := by
  refine ⟨?_, by decide⟩
  obtain ⟨t, ht, _, hcase⟩ := expect_false_inv p p1 k1 h1
  obtain ⟨t2, ht2, _, hcase2⟩ := expect_false_inv p1 p2 k2 h2
  rcases hcase with ⟨hgt, m, rfl⟩ | ⟨hgt, rfl⟩
  · have hcur : parser.current { p with log := p.log ++ [m], prevError := t.Range.Loc } =
        p.current := current_congr p _ rfl rfl rfl rfl
    rw [hcur, ht] at ht2
    cases ht2
    rcases hcase2 with ⟨hgt2, _⟩ | ⟨_, rfl⟩
    · exact absurd hgt2 (lt_irrefl _)
    · exact ⟨rfl, rfl, t, ht, fun _ => ⟨m, rfl⟩, fun hc => absurd hgt hc⟩
  · rw [ht] at ht2
    cases ht2
    rcases hcase2 with ⟨hgt2, _⟩ | ⟨_, rfl⟩
    · exact absurd hgt2 hgt
    · exact ⟨rfl, rfl, t, ht, fun hc => absurd hc hgt, fun _ => rfl⟩

/-- C10 on the fresh parser for the empty source: `expect(DoctypeStart)` and then
`expect(Text)` both fail at offset 0. -/
theorem expect_dedup_witness :
    (emptyParser.expect TDoctypeStart = some (false, emptyParserWarned) ∧
      emptyParserWarned.expect TText = some (false, emptyParserWarned)) ∧
    ((emptyParserWarned.index = emptyParser.index ∧
      emptyParserWarned.log = emptyParserWarned.log ∧
      ∃ t, emptyParser.current = some t ∧
        (t.Range.Loc.Start > emptyParser.prevError.Start →
          ∃ m, emptyParserWarned.log = emptyParser.log ++ [m]) ∧
        (¬ t.Range.Loc.Start > emptyParser.prevError.Start →
          emptyParserWarned.log = emptyParser.log)) ∧
      Parse [] [] =
        some ({ ImportRecords := [], Doctype := { Name := "name", Value := "value" } },
          [Msg.mk MsgKind.Warning (Range.mk (Loc.mk 0) 0)
            (Text.mk "Expected %s but found %s"
              [Arg.s "<!doctype", Arg.s "end of file"])])) :=
  ⟨by decide,
    expect_dedup emptyParser emptyParserWarned emptyParserWarned TDoctypeStart TText
      (by decide) (by decide)⟩

end htmlparser

/-! ## Claims about the cursor and `expect` -/

namespace htmlparser

open logger html_lexer html_lexer.T

theorem raw_of_current (p : parser) (t : Token) (ht : p.current = some t) :
    p.raw = slice p.source t.Range.Loc.Start t.Range.End := by
  simp [parser.raw, ht]

/-- C11 as stated fails: in the state whose one token, a `Text`, has a range
that reaches beyond the source, `eat(TagEnd)` returns false and leaves the state
as it is, while `expect(TagEnd)` slices the source out of range to quote the
current token and does not return. -/
theorem expect_stray_counterexample :
    strayParser.current =
        some { Range := { Loc := { Start := 0 }, Len := 5 }, Kind := TText } ∧
      strayParser.source.length = 0 ∧
      strayParser.eat TTagEnd = some (false, strayParser) ∧
      strayParser.raw = none ∧
      strayParser.expect TTagEnd = none := by
  decide

/-- C11, amended: in a well-formed state `expect(k)` returns the boolean `eat(k)` returns
and leaves the cursor where `eat(k)` leaves it; when it returns true the log and
the watermark are unchanged; when it returns false the cursor is unchanged and
the log is unchanged or extended by one warning, which reads "Expected" the
spelling of `k` "but found" the quoted source text of the current token, on the
range of that token, or, when the current token is end-of-file, "but found end
of file" on the zero-length range at the start of that token. -/
theorem expect_eat (p : parser) (k : T) (h : p.WellFormed) :
    ∃ t b pe px, p.current = some t ∧ p.eat k = some (b, pe) ∧ p.expect k = some (b, px) ∧
      px.index = pe.index ∧
      (b = true → px.log = p.log ∧ px.prevError = p.prevError) ∧
      (b = false → px.index = p.index ∧
        (px.log = p.log ∨
          (t.Kind = TEndOfFile ∧
            px.log = p.log ++ [Msg.mk MsgKind.Warning (Range.mk t.Range.Loc 0)
              (Text.mk "Expected %s but found %s" [Arg.s k.String, Arg.s "end of file"])]) ∨
          (t.Kind ≠ TEndOfFile ∧
            ∃ raw, slice p.source t.Range.Loc.Start t.Range.End = some raw ∧
              px.log = p.log ++ [Msg.mk MsgKind.Warning t.Range
                (Text.mk "Expected %s but found %q" [Arg.s k.String, Arg.q raw])]))) := by
  obtain ⟨t, ht, _⟩ := current_of_wellFormed p h
  obtain ⟨e1, e2⟩ := eat_of_current p t ht k
  obtain ⟨x1, x2, x3, x4⟩ := expect_of_current p h t ht k
  obtain ⟨a1, a2, a3, a4, a5⟩ := advance_fields p
  by_cases hk : k = t.Kind
  · exact ⟨t, true, p.advance, p.advance, ht, e1 hk, x1 hk, rfl, fun _ => ⟨a5, a4⟩,
      fun hb => absurd hb (by decide)⟩
  · by_cases hgt : t.Range.Loc.Start > p.prevError.Start
    · by_cases heof : t.Kind = TEndOfFile
      · refine ⟨t, false, p, _, ht, e2 hk, x2 hk hgt heof, rfl,
          fun hb => absurd hb (by decide), fun _ => ⟨rfl, Or.inr (Or.inl ⟨heof, ?_⟩)⟩⟩
        rw [heof]
        rfl
      · obtain ⟨raw, hraw, hex⟩ := x3 hk hgt heof
        rw [raw_of_current p t ht] at hraw
        exact ⟨t, false, p, _, ht, e2 hk, hex, rfl, fun hb => absurd hb (by decide),
          fun _ => ⟨rfl, Or.inr (Or.inr ⟨heof, raw, hraw, rfl⟩)⟩⟩
    · exact ⟨t, false, p, p, ht, e2 hk, x4 hk hgt, rfl, fun hb => absurd hb (by decide),
        fun _ => ⟨rfl, Or.inl rfl⟩⟩

/-- C11, amended, on the parser for the source `>`, asked for a `Text`. -/
theorem expect_eat_witness :
    tagEndParser.WellFormed ∧
      ∃ t b pe px, tagEndParser.current = some t ∧ tagEndParser.eat TText = some (b, pe) ∧
        tagEndParser.expect TText = some (b, px) ∧
        px.index = pe.index ∧
        (b = true → px.log = tagEndParser.log ∧ px.prevError = tagEndParser.prevError) ∧
        (b = false → px.index = tagEndParser.index ∧
          (px.log = tagEndParser.log ∨
            (t.Kind = TEndOfFile ∧
              px.log = tagEndParser.log ++ [Msg.mk MsgKind.Warning (Range.mk t.Range.Loc 0)
                (Text.mk "Expected %s but found %s"
                  [Arg.s TText.String, Arg.s "end of file"])]) ∨
            (t.Kind ≠ TEndOfFile ∧
              ∃ raw, slice tagEndParser.source t.Range.Loc.Start t.Range.End = some raw ∧
                px.log = tagEndParser.log ++ [Msg.mk MsgKind.Warning t.Range
                  (Text.mk "Expected %s but found %q" [Arg.s TText.String, Arg.q raw])]))) :=
  ⟨by decide, expect_eat tagEndParser TText (by decide)⟩

/-- C12, amended: when the logical end is within the token list, `at(i)` for an
index at or past the logical end, however large, returns a zero-length token of
kind `EndOfFile`; when the logical end is the number of tokens the token is
placed at `int32(len(source))`, which is the length of the source when the
source has fewer than `2^31` bytes, and when the logical end is smaller it is
placed at the start of the first token past the logical end; and `at(i)` for an
index before the logical end returns `tokens[i]`. No access is out of range. -/
theorem at_spec (p : parser) (h : p.«end» ≤ p.tokens.length) :
    (∀ i, p.«end» ≤ i →
      ∃ t, p.«at» i = some t ∧ t.Kind = TEndOfFile ∧ t.Range.Len = 0 ∧
        (p.«end» = p.tokens.length →
          t.Range.Loc.Start = int32 (p.source.length : Int) ∧
          (p.source.length < 2147483648 → t.Range.Loc.Start = (p.source.length : Int))) ∧
        (p.«end» < p.tokens.length →
          ∃ t2, p.tokens[p.«end»]? = some t2 ∧ t.Range.Loc = t2.Range.Loc)) ∧
    (∀ i, i < p.«end» → ∃ t, p.tokens[i]? = some t ∧ p.«at» i = some t) := by
  constructor
  · intro i hi
    unfold parser.«at»
    rw [if_neg (by omega)]
    split_ifs with h2
    · rw [List.getElem?_eq_getElem h2]
      exact ⟨_, rfl, rfl, rfl, fun he => absurd he (by omega), fun _ => ⟨_, rfl, rfl⟩⟩
    · exact ⟨_, rfl, rfl, rfl, fun _ => ⟨rfl, fun hs => int32_natCast _ hs⟩,
        fun hc => absurd hc h2⟩
  · intro i hi
    unfold parser.«at»
    rw [if_pos hi]
    have hlt : i < p.tokens.length := by omega
    exact ⟨_, List.getElem?_eq_getElem hlt, List.getElem?_eq_getElem hlt⟩

/-- C12, amended, on the parser for the source `>`. -/
theorem at_spec_witness :
    tagEndParser.«end» ≤ tagEndParser.tokens.length ∧
      ((∀ i, tagEndParser.«end» ≤ i →
        ∃ t, tagEndParser.«at» i = some t ∧ t.Kind = TEndOfFile ∧ t.Range.Len = 0 ∧
          (tagEndParser.«end» = tagEndParser.tokens.length →
            t.Range.Loc.Start = int32 (tagEndParser.source.length : Int) ∧
            (tagEndParser.source.length < 2147483648 →
              t.Range.Loc.Start = (tagEndParser.source.length : Int))) ∧
          (tagEndParser.«end» < tagEndParser.tokens.length →
            ∃ t2, tagEndParser.tokens[tagEndParser.«end»]? = some t2 ∧
              t.Range.Loc = t2.Range.Loc)) ∧
      (∀ i, i < tagEndParser.«end» →
        ∃ t, tagEndParser.tokens[i]? = some t ∧ tagEndParser.«at» i = some t)) :=
  ⟨by decide, at_spec tagEndParser (by decide)⟩

end htmlparser

/-! ## The watermark over a run of operations -/

namespace htmlparser

open logger html_lexer html_lexer.T

theorem at_congr (p p2 : parser) (hs : p2.source = p.source) (ht : p2.tokens = p.tokens)
    (he : p2.«end» = p.«end») (i : Nat) : p2.«at» i = p.«at» i := by
  simp only [parser.«at», hs, ht, he]

theorem at_before (p : parser) (h : p.«end» ≤ p.tokens.length) (i : Nat) (hi : i < p.«end») :
    ∃ t, p.tokens[i]? = some t ∧ p.«at» i = some t := by
  unfold parser.«at»
  rw [if_pos hi]
  have hlt : i < p.tokens.length := by omega
  exact ⟨_, List.getElem?_eq_getElem hlt, List.getElem?_eq_getElem hlt⟩

theorem at_beyond (p : parser) (i : Nat) (hi : p.«end» ≤ i) :
    ∃ t, p.«at» i = some t ∧ t.Kind = TEndOfFile := by
  unfold parser.«at»
  rw [if_neg (by omega)]
  split_ifs with h2
  · rw [List.getElem?_eq_getElem h2]
    exact ⟨_, rfl, rfl⟩
  · exact ⟨_, rfl, rfl⟩

theorem at_some (p : parser) (h : p.«end» ≤ p.tokens.length) (i : Nat) :
    ∃ t, p.«at» i = some t := by
  by_cases hi : i < p.«end»
  · obtain ⟨t, _, ht⟩ := at_before p h i hi
    exact ⟨t, ht⟩
  · obtain ⟨t, ht, _⟩ := at_beyond p i (by omega)
    exact ⟨t, ht⟩

theorem ordered_of_fields (p p2 : parser) (h : p.Ordered) (hs : p2.source = p.source)
    (ht : p2.tokens = p.tokens) (he : p2.«end» = p.«end») : p2.Ordered := by
  intro i t t2 h1 h2
  rw [at_congr p p2 hs ht he] at h1 h2
  exact h i t t2 h1 h2

/-- The parser `Parse` sets up over tokens that are in order and within a
source of fewer than `2^31` bytes returns its tokens in order. -/
theorem fresh_ordered (log : Log) (source : List Nat) (tokens : List Token)
    (hsize : source.length < 2147483648)
    (hpair : tokens.Pairwise (fun s t =>
      s.Range.Loc.Start < t.Range.Loc.Start ∧ s.Range.End ≤ t.Range.Loc.Start))
    (hbound : ∀ t ∈ tokens, 0 ≤ t.Range.Loc.Start ∧ t.Range.Loc.Start ≤ t.Range.End ∧
      t.Range.End ≤ (source.length : Int)) :
    (parser.fresh log source tokens).Ordered := by
  have hlen : int32 (source.length : Int) = (source.length : Int) := int32_natCast _ hsize
  intro i t t2 h1 h2
  simp only [parser.«at», parser.fresh, lt_irrefl, if_false, hlen] at h1 h2
  by_cases hi : i < tokens.length
  · rw [if_pos hi, List.getElem?_eq_getElem hi] at h1
    cases h1
    obtain ⟨b1, b2, b3⟩ := hbound _ (List.getElem_mem hi)
    by_cases hi2 : i + 1 < tokens.length
    · rw [if_pos hi2, List.getElem?_eq_getElem hi2] at h2
      cases h2
      exact ⟨b1, le_of_lt ((List.pairwise_iff_getElem.mp hpair) i (i + 1) hi hi2 (by omega)).1⟩
    · rw [if_neg hi2] at h2
      cases h2
      exact ⟨b1, le_trans b2 b3⟩
  · rw [if_neg hi] at h1
    rw [if_neg (by omega)] at h2
    cases h1
    cases h2
    exact ⟨Int.natCast_nonneg _, le_refl _⟩

/-- The ranges of the tokens of a run on a source of fewer than `2^31` bytes
lie within the source. -/
theorem lexed_ranges (log : Log) (source : List Nat) (hsize : source.length < 2147483648)
    (p : Nat) (tokens : List Token) (h : Lexed log source p tokens) :
    ∀ t ∈ tokens, 0 ≤ t.Range.Loc.Start ∧ 0 ≤ t.Range.Len ∧
      t.Range.Loc.Start ≤ t.Range.End ∧ t.Range.End ≤ (source.length : Int) := by
  intro t ht
  obtain ⟨a, b, kind, rfl, h1, h2, h3, h4⟩ := lexed_offsets log source p tokens h t ht
  obtain ⟨s1, s2, s3⟩ := tokenAt_small a b kind (by omega) (by omega)
  rw [s1, s2, s3]
  exact ⟨by omega, by omega, by omega, by omega⟩

theorem tracked_advance (log0 : Log) (p : parser) (hwf : p.WellFormed) (hord : p.Ordered)
    (htr : p.Tracked log0) : p.advance.Tracked log0 := by
  obtain ⟨t, emitted, ht, hle, hlog, hmark⟩ := htr
  unfold parser.advance
  split_ifs with hlt
  · obtain ⟨t2, ht2⟩ := at_some p hwf.1 (p.index + 1)
    have ho := hord p.index t t2 ht ht2
    refine ⟨t2, emitted, ?_, le_trans hle ho.2, hlog, hmark⟩
    exact (at_congr p _ rfl rfl rfl _).trans ht2
  · exact ⟨t, emitted, ht, hle, hlog, hmark⟩

theorem tracked_emit (log0 : Log) (p : parser) (t : Token) (m : Msg)
    (ht : p.current = some t) (hm : m.Range.Loc.Start = t.Range.Loc.Start)
    (htr : p.Tracked log0) :
    parser.Tracked log0 { p with log := p.log ++ [m], prevError := t.Range.Loc } := by
  obtain ⟨_, emitted, _, _, hlog, _⟩ := htr
  refine ⟨t, emitted ++ [m], ?_, le_refl _, ?_, Or.inr ⟨m, by simp, hm⟩⟩
  · exact (current_congr p _ rfl rfl rfl rfl).trans ht
  · simp only [hlog, List.append_assoc]

/-- Every operation keeps the state well formed, its tokens in order and its
diagnostics tracked. -/
theorem apply_tracked (log0 : Log) (p : parser) (hwf : p.WellFormed) (hord : p.Ordered)
    (htr : p.Tracked log0) (op : Op) :
    ∃ p2, p.apply op = some p2 ∧ p2.WellFormed ∧ p2.Ordered ∧ p2.Tracked log0 := by
  obtain ⟨a1, a2, a3, _, _⟩ := advance_fields p
  have hadv : p.advance.WellFormed ∧ p.advance.Ordered ∧ p.advance.Tracked log0 :=
    ⟨wellFormed_of_fields p _ hwf a1 a2 a3, ordered_of_fields p _ hord a1 a2 a3,
      tracked_advance log0 p hwf hord htr⟩
  have hemit : ∀ (t : Token) (m : Msg), p.current = some t →
      m.Range.Loc.Start = t.Range.Loc.Start →
      parser.WellFormed { p with log := p.log ++ [m], prevError := t.Range.Loc } ∧
      parser.Ordered { p with log := p.log ++ [m], prevError := t.Range.Loc } ∧
      parser.Tracked log0 { p with log := p.log ++ [m], prevError := t.Range.Loc } :=
    fun t m ht hm => ⟨wellFormed_of_fields p _ hwf rfl rfl rfl,
      ordered_of_fields p _ hord rfl rfl rfl, tracked_emit log0 p t m ht hm htr⟩
  obtain ⟨t, ht, _⟩ := current_of_wellFormed p hwf
  cases op with
  | advance => exact ⟨p.advance, rfl, hadv⟩
  | eat k =>
    obtain ⟨e1, e2⟩ := eat_of_current p t ht k
    by_cases hk : k = t.Kind
    · exact ⟨p.advance, by simp only [parser.apply, e1 hk, Option.map_some'], hadv⟩
    · exact ⟨p, by simp only [parser.apply, e2 hk, Option.map_some'], hwf, hord, htr⟩
  | expect k =>
    obtain ⟨x1, x2, x3, x4⟩ := expect_of_current p hwf t ht k
    by_cases hk : k = t.Kind
    · exact ⟨p.advance, by simp only [parser.apply, x1 hk, Option.map_some'], hadv⟩
    · by_cases hgt : t.Range.Loc.Start > p.prevError.Start
      · by_cases heof : t.Kind = TEndOfFile
        · exact ⟨_, by rw [parser.apply, x2 hk hgt heof]; rfl,
            hemit t _ ht rfl⟩
        · obtain ⟨raw, _, hex⟩ := x3 hk hgt heof
          exact ⟨_, by rw [parser.apply, hex]; rfl, hemit t _ ht rfl⟩
      · exact ⟨p, by simp only [parser.apply, x4 hk hgt, Option.map_some'], hwf, hord, htr⟩
  | unexpected =>
    obtain ⟨u1, u2, u3⟩ := unexpected_of_current p hwf t ht
    by_cases hgt : t.Range.Loc.Start > p.prevError.Start
    · by_cases heof : t.Kind = TEndOfFile
      · exact ⟨_, u1 hgt heof, hemit t _ ht rfl⟩
      · obtain ⟨raw, _, hun⟩ := u2 hgt heof
        exact ⟨_, hun, hemit t _ ht rfl⟩
    · exact ⟨p, u3 hgt, hwf, hord, htr⟩

theorem run_tracked (log0 : Log) (ops : List Op) :
    ∀ (p : parser), p.WellFormed → p.Ordered → p.Tracked log0 →
      ∃ p2, p.run ops = some p2 ∧ p2.WellFormed ∧ p2.Ordered ∧ p2.Tracked log0 := by
  induction ops with
  | nil => intro p h1 h2 h3; exact ⟨p, rfl, h1, h2, h3⟩
  | cons op ops ih =>
    intro p h1 h2 h3
    obtain ⟨p1, e1, w1, o1, t1⟩ := apply_tracked log0 p h1 h2 h3 op
    obtain ⟨p2, e2, w2, o2, t2⟩ := ih p1 w1 o1 t1
    exact ⟨p2, by simp only [parser.run, e1, Option.some_bind, e2], w2, o2, t2⟩

/-- C16, amended: on a source of fewer than `2^31` bytes, in every run of
parser-core operations from the parser `Parse` sets up over the tokens of
`Tokenize(source)`, the run succeeds, and in the state it
reaches the watermark is at most the start offset of the current token.
Therefore, when that start offset differs from the offset of every diagnostic
the run has emitted, `expect(k)` for every kind `k` other than the current
token's, and `unexpected()`, append exactly one diagnostic, which starts at the
current token. -/
theorem run_watermark (log : Log) (source : List Nat) (ops : List Op)
    (hsize : source.length < 2147483648) :
    ∃ tokens log2 p t emitted,
      Tokenize log source = some (tokens, log2) ∧
      (parser.fresh log2 source tokens).run ops = some p ∧
      p.current = some t ∧ p.log = log2 ++ emitted ∧
      p.prevError.Start ≤ t.Range.Loc.Start ∧
      ((∀ m ∈ emitted, m.Range.Loc.Start ≠ t.Range.Loc.Start) →
        (∀ k, k ≠ t.Kind → ∃ m p2, p.expect k = some (false, p2) ∧
          p2.log = p.log ++ [m] ∧ m.Range.Loc.Start = t.Range.Loc.Start) ∧
        (∃ m p2, p.unexpected = some p2 ∧
          p2.log = p.log ++ [m] ∧ m.Range.Loc.Start = t.Range.Loc.Start)) := by
  obtain ⟨tokens, htok, hlexed⟩ := Tokenize_lexed log source
  have hb := lexed_ranges log source hsize 0 tokens hlexed
  have hwf : (parser.fresh log source tokens).WellFormed := ⟨le_refl _, hb⟩
  have hord : (parser.fresh log source tokens).Ordered := by
    refine fresh_ordered log source tokens hsize
      (lexed_pairwise log source hsize 0 tokens hlexed) ?_
    intro t ht
    obtain ⟨b1, _, b3, b4⟩ := hb t ht
    exact ⟨b1, b3, b4⟩
  have htr : (parser.fresh log source tokens).Tracked log := by
    obtain ⟨t, ht, _⟩ := current_of_wellFormed _ hwf
    obtain ⟨t2, ht2⟩ := at_some _ hwf.1 ((parser.fresh log source tokens).index + 1)
    have ho := hord _ t t2 ht ht2
    refine ⟨t, [], ht, ?_, by simp [parser.fresh], Or.inl rfl⟩
    simp only [parser.fresh]
    omega
  obtain ⟨p, hrun, pwf, pord, t, emitted, ht, hle, hlog, hmark⟩ :=
    run_tracked log ops _ hwf hord htr
  refine ⟨tokens, log, p, t, emitted, htok, hrun, ht, hlog, hle, ?_⟩
  intro hne
  obtain ⟨t2, ht2⟩ := at_some p pwf.1 (p.index + 1)
  have ho := pord p.index t t2 ht ht2
  have hgt : t.Range.Loc.Start > p.prevError.Start := by
    rcases hmark with h | ⟨m, hm, hmeq⟩
    · omega
    · have := hne m hm
      omega
  constructor
  · intro k hk
    obtain ⟨_, x2, x3, _⟩ := expect_of_current p pwf t ht k
    by_cases heof : t.Kind = TEndOfFile
    · exact ⟨_, _, x2 hk hgt heof, rfl, rfl⟩
    · obtain ⟨raw, _, hex⟩ := x3 hk hgt heof
      exact ⟨_, _, hex, rfl, rfl⟩
  · obtain ⟨u1, u2, _⟩ := unexpected_of_current p pwf t ht
    by_cases heof : t.Kind = TEndOfFile
    · exact ⟨_, _, u1 hgt heof, rfl, rfl⟩
    · obtain ⟨raw, _, hun⟩ := u2 hgt heof
      exact ⟨_, _, hun, rfl, rfl⟩

/-- C16, amended, on the source `>` and the run `expect(Text)`, `advance`,
`unexpected`. -/
theorem run_watermark_witness :
    ∃ tokens log2 p t emitted,
      Tokenize [] (bytes ">") = some (tokens, log2) ∧
      (parser.fresh log2 (bytes ">") tokens).run
        [Op.expect TText, Op.advance, Op.unexpected] = some p ∧
      p.current = some t ∧ p.log = log2 ++ emitted ∧
      p.prevError.Start ≤ t.Range.Loc.Start ∧
      ((∀ m ∈ emitted, m.Range.Loc.Start ≠ t.Range.Loc.Start) →
        (∀ k, k ≠ t.Kind → ∃ m p2, p.expect k = some (false, p2) ∧
          p2.log = p.log ++ [m] ∧ m.Range.Loc.Start = t.Range.Loc.Start) ∧
        (∃ m p2, p.unexpected = some p2 ∧
          p2.log = p.log ++ [m] ∧ m.Range.Loc.Start = t.Range.Loc.Start)) :=
  run_watermark [] (bytes ">") [Op.expect TText, Op.advance, Op.unexpected] (by decide)

/-- C20, amended: on a source of fewer than `2^31` bytes, no token that
`Tokenize` returns has kind `EndOfFile` or `SyntaxError`, and each has length at
least 1. In the parser `Parse` sets up
over those tokens, `at(i)` returns a token for every index, and that token has
kind `EndOfFile` exactly when the index is at or past the number of tokens,
where `at` builds it. -/
theorem end_of_file_synthetic (log : Log) (source : List Nat)
    (hsize : source.length < 2147483648) :
    ∃ tokens log2,
      Tokenize log source = some (tokens, log2) ∧
      (∀ t ∈ tokens, t.Kind ≠ TEndOfFile ∧ t.Kind ≠ TSyntaxError ∧ 1 ≤ t.Range.Len) ∧
      (∀ i, ∃ t, (parser.fresh log2 source tokens).«at» i = some t ∧
        (t.Kind = TEndOfFile ↔ tokens.length ≤ i)) := by
  obtain ⟨tokens, htok, hchain⟩ := Tokenize_chain log source
  have hall : ∀ t ∈ tokens, t.Kind ≠ TEndOfFile ∧ t.Kind ≠ TSyntaxError ∧ 1 ≤ t.Range.Len := by
    intro t ht
    obtain ⟨a, b, k, rfl, ha, hprod, _⟩ := chain_tokens source 0 tokens hchain t ht
    obtain ⟨f1, f2, f3, f4, _⟩ := produced_facts source a b k ha hprod
    obtain ⟨_, s2, _⟩ := tokenAt_small a b k (by omega) (by omega)
    refine ⟨f3, f4, ?_⟩
    rw [s2]
    omega
  refine ⟨tokens, log, htok, hall, ?_⟩
  intro i
  by_cases hi : tokens.length ≤ i
  · obtain ⟨t, ht, hk⟩ := at_beyond (parser.fresh log source tokens) i hi
    exact ⟨t, ht, fun _ => hi, fun _ => hk⟩
  · obtain ⟨t, hget, ht⟩ := at_before (parser.fresh log source tokens) (le_refl _) i
      (by simp only [parser.fresh]; omega)
    have hmem : t ∈ tokens := by
      obtain ⟨hlt, rfl⟩ := List.getElem?_eq_some.mp hget
      exact List.getElem_mem hlt
    exact ⟨t, ht, fun hk => absurd hk (hall t hmem).1, fun hc => absurd hc hi⟩

/-- C20, amended, on the source `<a b="c">`. -/
theorem end_of_file_synthetic_witness :
    ∃ tokens log2,
      Tokenize [] (bytes "<a b=c>") = some (tokens, log2) ∧
      (∀ t ∈ tokens, t.Kind ≠ TEndOfFile ∧ t.Kind ≠ TSyntaxError ∧ 1 ≤ t.Range.Len) ∧
      (∀ i, ∃ t, (parser.fresh log2 (bytes "<a b=c>") tokens).«at» i = some t ∧
        (t.Kind = TEndOfFile ↔ tokens.length ≤ i)) :=
  end_of_file_synthetic [] (bytes "<a b=c>") (by decide)

end htmlparser

/-! ## Sources of `2^31` bytes and more -/

namespace html_lexer

open logger T

/-- A run of `next` calls before the end of the source starts with the token of
the first call. -/
theorem lexed_cons (log : Log) (source : List Nat) (p q : Nat) (k : T) (tokens : List Token)
    (h : Lexed log source p tokens) (hp : p < source.length)
    (hnext : (lexerAt log source p p TEndOfFile).next = some (lexerAt log source p q k)) :
    ∃ rest, tokens = tokenAt p q k :: rest ∧ Lexed log source q rest := by
  cases h with
  | done _ hend => omega
  | token _ q2 k2 rest _ _ _ _ hnext2 hrest =>
    rw [hnext] at hnext2
    obtain ⟨h1, h2⟩ := lexerAt_inj log source p q q2 k k2 (Option.some.inj hnext2)
    subst h1 h2
    exact ⟨rest, rfl, hrest⟩

/-- A run over one-byte code points that satisfy the condition stops exactly at
the first offset whose code point does not. -/
theorem run_stop_unique (source : List Nat) (P : Int → Prop) (n : Nat)
    (hin : ∀ r, r < n → widthAt source r = 1 ∧ P (codePointAt source r))
    (hn : ¬ P (codePointAt source n)) (p q : Nat) (h : Run source P p q) :
    p ≤ n → ¬ P (codePointAt source q) → q = n := by
  induction h with
  | stop p =>
    intro hp hq
    by_contra hne
    exact hq (hin p (by omega)).2
  | step p q hlt hP rest ih =>
    intro hp hq
    have hpn : p ≠ n := by
      rintro rfl
      exact hn hP
    have hw := (hin p (by omega)).1
    exact ih (by omega) hq

/-- On a stretch of letters `a` that ends before a code point which does not
continue a name, `next` yields the `Name` token of the whole stretch. -/
theorem next_name_run (log : Log) (source : List Nat) (start : Int) (p n : Nat) (kind : T)
    (hp : p < n) (hn : n ≤ source.length) (hin : ∀ r, r < n → source[r]? = some 0x61)
    (hstop : IsNameContinue (codePointAt source n) = false) :
    (lexerAt log source start p kind).next = some (lexerAt log source p n TName) := by
  have hall : ∀ r, r < n →
      widthAt source r = 1 ∧ IsNameContinue (codePointAt source r) = true := by
    intro r hr
    obtain ⟨hw, hc⟩ := at_ascii source r 0x61 (hin r hr) (by norm_num)
    exact ⟨hw, by rw [hc]; decide⟩
  obtain ⟨q, k, hprod, hnext⟩ := next_produced log source start p kind (by omega)
  have hstart : IsNameStart (codePointAt source p) = true := by
    rw [(at_ascii source p 0x61 (hin p hp) (by norm_num)).2]
    decide
  have hk := produced_of_IsNameStart source p q k hprod hstart
  subst hk
  cases hprod with
  | name _ h hrun hstop2 =>
    have hq := run_stop_unique source _ n hall (by rw [hstop]; decide) p q hrun
      (le_of_lt hp) (by rw [hstop2]; decide)
    subst hq
    exact hnext

/-- On a stretch of blanks that ends before a code point at which a text run
stops, `next` yields the `Text` token of the whole stretch. -/
theorem next_text_run (log : Log) (source : List Nat) (start : Int) (p n : Nat) (kind : T)
    (hp : p < n) (hn : n ≤ source.length) (hin : ∀ r, r < n → source[r]? = some 0x20)
    (hstop : isTextStop (codePointAt source n)) :
    (lexerAt log source start p kind).next = some (lexerAt log source p n TText) := by
  have hblank : ¬ isTextStop ((0x20 : Nat) : Int) := by
    unfold isTextStop
    decide
  have hall : ∀ r, r < n →
      widthAt source r = 1 ∧ ¬ isTextStop (codePointAt source r) := by
    intro r hr
    obtain ⟨hw, hc⟩ := at_ascii source r 0x20 (hin r hr) (by norm_num)
    exact ⟨hw, by rw [hc]; exact hblank⟩
  obtain ⟨q, k, hprod, hnext⟩ := next_produced log source start p kind (by omega)
  have hc := (at_ascii source p 0x20 (hin p hp) (by norm_num)).2
  cases hprod with
  | equals h => rw [hc] at h; exact absurd h (by decide)
  | string h =>
    rw [hc] at h
    rcases h with h | h
    · exact absurd h (by decide)
    · exact absurd h (by decide)
  | doctype h hm => rw [hc] at h; exact absurd h (by decide)
  | commentStart h hm => rw [hc] at h; exact absurd h (by decide)
  | tagClose h hm => rw [hc] at h; exact absurd h (by decide)
  | tagOpen h hn2 => rw [hc] at h; exact absurd h (by decide)
  | commentEnd h hm => rw [hc] at h; exact absurd h (by decide)
  | selfClosing h hm => rw [hc] at h; exact absurd h (by decide)
  | tagEnd h => rw [hc] at h; exact absurd h (by decide)
  | name _ h hrun hstop2 => rw [hc] at h; exact absurd h (by decide)
  | text _ h hrun hstop2 =>
    have hq := run_stop_unique source _ n hall (fun hneg => hneg hstop) (p + 1) q hrun
      (by omega) (fun hneg => hneg hstop2)
    subst hq
    exact hnext

/-- The tokens of a source that is `n` letters `a`, whatever `n` is. -/
theorem Tokenize_replicate_name (log : Log) (n : Nat) (hn : 0 < n) :
    Tokenize log (List.replicate n 0x61) = some ([tokenAt 0 n TName], log) := by
  obtain ⟨tokens, htok, hlexed⟩ := Tokenize_lexed log (List.replicate n 0x61)
  have hlen : (List.replicate n 0x61).length = n := List.length_replicate ..
  have hnext := next_name_run log (List.replicate n 0x61) 0 0 n TEndOfFile hn (by rw [hlen])
    (fun r hr => by rw [List.getElem?_replicate, if_pos hr])
    (by rw [codePointAt_end _ n (by rw [hlen])]; decide)
  obtain ⟨rest, h1, h2⟩ := lexed_cons log _ 0 n TName tokens hlexed (by rw [hlen]; exact hn)
    (by simpa using hnext)
  have h3 := lexed_at_end log _ n rest h2 (by rw [hlen])
  rw [htok, h1, h3]

/-- The tokens of a source that is `n` blanks, whatever `n` is. -/
theorem Tokenize_replicate_text (log : Log) (n : Nat) (hn : 0 < n) :
    Tokenize log (List.replicate n 0x20) = some ([tokenAt 0 n TText], log) := by
  obtain ⟨tokens, htok, hlexed⟩ := Tokenize_lexed log (List.replicate n 0x20)
  have hlen : (List.replicate n 0x20).length = n := List.length_replicate ..
  have hnext := next_text_run log (List.replicate n 0x20) 0 0 n TEndOfFile hn (by rw [hlen])
    (fun r hr => by rw [List.getElem?_replicate, if_pos hr])
    (by rw [codePointAt_end _ n (by rw [hlen])]; unfold isTextStop; decide)
  obtain ⟨rest, h1, h2⟩ := lexed_cons log _ 0 n TText tokens hlexed (by rw [hlen]; exact hn)
    (by simpa using hnext)
  have h3 := lexed_at_end log _ n rest h2 (by rw [hlen])
  rw [htok, h1, h3]

/-- The tokens of a source that is `n` letters `a` followed by `=`. -/
theorem Tokenize_replicate_name_equals (log : Log) (n : Nat) (hn : 0 < n) :
    Tokenize log (List.replicate n 0x61 ++ [0x3D]) =
      some ([tokenAt 0 n TName, tokenAt n (n + 1) TEquals], log) := by
  obtain ⟨tokens, htok, hlexed⟩ := Tokenize_lexed log (List.replicate n 0x61 ++ [0x3D])
  have hlen : (List.replicate n 0x61 ++ [0x3D]).length = n + 1 := by
    rw [List.length_append, List.length_replicate, List.length_singleton]
  have hin : ∀ r, r < n → (List.replicate n 0x61 ++ [0x3D])[r]? = some 0x61 := by
    intro r hr
    rw [List.getElem?_append_left (by rw [List.length_replicate]; exact hr),
      List.getElem?_replicate, if_pos hr]
  have hat : (List.replicate n 0x61 ++ [0x3D])[n]? = some 0x3D := by
    rw [List.getElem?_append_right (by rw [List.length_replicate]), List.length_replicate,
      Nat.sub_self]
    rfl
  obtain ⟨hw, hc⟩ := at_ascii _ n 0x3D hat (by norm_num)
  have hnext := next_name_run log (List.replicate n 0x61 ++ [0x3D]) 0 0 n TEndOfFile hn
    (by rw [hlen]; omega) hin (by rw [hc]; decide)
  obtain ⟨rest, h1, h2⟩ := lexed_cons log _ 0 n TName tokens hlexed (by rw [hlen]; omega)
    (by simpa using hnext)
  have hnext2 := (next_single log (List.replicate n 0x61 ++ [0x3D]) n n TEndOfFile
    (by rw [hlen]; omega)).1 (by rw [hc]; decide)
  rw [hw] at hnext2
  obtain ⟨rest2, h3, h4⟩ := lexed_cons log _ n (n + 1) TEquals rest h2 (by rw [hlen]; omega)
    hnext2
  have h5 := lexed_at_end log _ (n + 1) rest2 h4 (by rw [hlen])
  rw [htok, h1, h3, h5]

/-- Every code point the lexer reads is the code point at some offset of the
source. -/
theorem mem_codePointsFrom (source : List Nat) :
    ∀ (fuel p : Nat) (c : Int), c ∈ codePointsFrom source fuel p →
      ∃ r, r < source.length ∧ c = codePointAt source r
  | 0, p, c, h => by simp [codePointsFrom] at h
  | fuel + 1, p, c, h => by
    by_cases hlt : p < source.length
    · simp only [codePointsFrom, if_pos hlt, List.mem_cons] at h
      rcases h with h | h
      · exact ⟨p, hlt, h⟩
      · exact mem_codePointsFrom source fuel _ c h
    · simp [codePointsFrom, hlt] at h

theorem wideName_length : wideName.length = 2147483648 :=
  List.length_replicate ..

theorem wideText_length : wideText.length = 2147483648 :=
  List.length_replicate ..

/-- The one token of `2^31` letters `a`: a `Name` of recorded length `-2^31`. -/
theorem wideName_tokens (log : Log) :
    Tokenize log wideName =
      some ([{ Range := { Loc := { Start := 0 }, Len := -2147483648 }, Kind := TName }], log) := by
  have h : tokenAt 0 2147483648 TName =
      { Range := { Loc := { Start := 0 }, Len := -2147483648 }, Kind := TName } := by decide
  unfold wideName
  rw [Tokenize_replicate_name log 2147483648 (by norm_num), h]

/-- The one token of `2^31` blanks: a `Text` of recorded length `-2^31`. -/
theorem wideText_tokens (log : Log) :
    Tokenize log wideText =
      some ([{ Range := { Loc := { Start := 0 }, Len := -2147483648 }, Kind := TText }], log) := by
  have h : tokenAt 0 2147483648 TText =
      { Range := { Loc := { Start := 0 }, Len := -2147483648 }, Kind := TText } := by decide
  unfold wideText
  rw [Tokenize_replicate_text log 2147483648 (by norm_num), h]

/-- The two tokens of `2^31` letters `a` followed by `=`: the `Equals` is
recorded at offset `-2^31`. -/
theorem wideNameEquals_tokens (log : Log) :
    Tokenize log wideNameEquals =
      some ([{ Range := { Loc := { Start := 0 }, Len := -2147483648 }, Kind := TName },
             { Range := { Loc := { Start := -2147483648 }, Len := 1 }, Kind := TEquals }],
        log) := by
  have h1 : tokenAt 0 2147483648 TName =
      { Range := { Loc := { Start := 0 }, Len := -2147483648 }, Kind := TName } := by decide
  have h2 : tokenAt 2147483648 (2147483648 + 1) TEquals =
      { Range := { Loc := { Start := -2147483648 }, Len := 1 }, Kind := TEquals } := by decide
  unfold wideNameEquals
  rw [Tokenize_replicate_name_equals log 2147483648 (by norm_num), h1, h2]

theorem encodeAll_replicate (n : Nat) :
    utf8.encodeAll (List.replicate n 0x61) = List.replicate n 0x61 := by
  induction n with
  | zero => rfl
  | succ n ih =>
    have h : utf8.encode 0x61 = [0x61] := by decide
    unfold utf8.encodeAll at ih ⊢
    rw [List.replicate_succ, List.flatMap_cons, ih, h]
    rfl

/-- C1 as stated fails: the source of `2^31` letters `a` yields one token, a
`Name` that starts at offset 0 with the recorded length `-2^31`, so that it ends
at offset `-2^31`, before its start and not at the length of the source: the
tokens do not tile the source and the range does not lie within it. -/
theorem Tokenize_tiles_counterexample :
    wideName.length = 2147483648 ∧
      ∃ t, Tokenize [] wideName = some ([t], []) ∧
        t.Range.Loc.Start = 0 ∧ t.Range.End = -2147483648 ∧
        t.Range.Loc.Start + t.Range.Len < t.Range.Loc.Start ∧
        ¬ Tiles 0 [t] wideName.length := by
  refine ⟨wideName_length, _, wideName_tokens [], rfl, by decide, by decide, ?_⟩
  rw [wideName_length]
  simp only [Tiles]
  decide

/-- C6 as stated fails: the source of `2^31` letters `a` is not empty, its first
code point starts a name and all its code points continue a name, and the one
token `Tokenize` returns has the recorded length `-2^31`, not the length of the
source. -/
theorem Tokenize_name_counterexample :
    wideName ≠ [] ∧ IsNameStart (codePointAt wideName 0) = true ∧
      (∀ c ∈ codePoints wideName, IsNameContinue c = true) ∧
      (wideName.length : Int) = 2147483648 ∧
      Tokenize [] wideName =
        some ([{ Range := { Loc := { Start := 0 }, Len := -2147483648 }, Kind := TName }],
          []) := by
  have hat : ∀ r, r < wideName.length → codePointAt wideName r = ((0x61 : Nat) : Int) := by
    intro r hr
    rw [wideName_length] at hr
    exact (at_ascii wideName r 0x61
      (by unfold wideName; rw [List.getElem?_replicate, if_pos hr]) (by norm_num)).2
  refine ⟨?_, ?_, ?_, ?_, wideName_tokens []⟩
  · intro h
    have := congrArg List.length h
    rw [wideName_length, List.length_nil] at this
    omega
  · rw [hat 0 (by rw [wideName_length]; norm_num)]
    decide
  · intro c hc
    obtain ⟨r, hr, rfl⟩ := mem_codePointsFrom wideName _ _ c hc
    rw [hat r hr]
    decide
  · rw [wideName_length]
    rfl

/-- C14 as stated fails: the source of `2^31` letters `a` is well-formed UTF-8,
and the one token `Tokenize` returns ends at the recorded offset `-2^31`, which
is no offset of the source, let alone a code point boundary. -/
theorem Tokenize_boundaries_counterexample :
    (∀ c ∈ List.replicate 2147483648 0x61, utf8.ValidRune c) ∧
      ∃ t, Tokenize [] (utf8.encodeAll (List.replicate 2147483648 0x61)) = some ([t], []) ∧
        t.Range.End = -2147483648 := by
  constructor
  · intro c hc
    rw [List.eq_of_mem_replicate hc]
    decide
  · rw [encodeAll_replicate]
    exact ⟨_, wideName_tokens [], by decide⟩

/-- C17 as stated fails: the source of `2^31` blanks yields one `Text` token,
which starts at offset 0 and ends at the recorded offset `-2^31`: that is
neither the end of the source nor an offset just before one of the five
characters. -/
theorem Tokenize_text_run_counterexample :
    wideText.length = 2147483648 ∧
      ∃ t, Tokenize [] wideText = some ([t], []) ∧ t.Kind = TText ∧
        t.Range.Loc.Start = 0 ∧ t.Range.End = -2147483648 :=
  ⟨wideText_length, _, wideText_tokens [], rfl, rfl, by decide⟩

/-- C19 as stated fails: in the source of `2^31` letters `a` followed by `=`, the
`Equals` token is recorded at offset `-2^31` with length 1, and the slice of the
source on that range, which is what `raw` takes, is out of range: the range
does not cover the text `=`. -/
theorem Tokenize_spelling_counterexample :
    ∃ t1 t2, Tokenize [] wideNameEquals = some ([t1, t2], []) ∧ t2.Kind = TEquals ∧
      t2.Range.Loc.Start = -2147483648 ∧ t2.Range.Len = 1 ∧
      htmlparser.slice wideNameEquals t2.Range.Loc.Start t2.Range.End = none := by
  refine ⟨_, _, wideNameEquals_tokens [], rfl, rfl, rfl, ?_⟩
  unfold htmlparser.slice
  rw [if_neg]
  intro h
  exact absurd h.1 (by decide)

end html_lexer

namespace htmlparser

open logger html_lexer html_lexer.T

theorem unexpected_below (p : parser) (t : Token) (ht : p.current = some t)
    (hgt : ¬ t.Range.Loc.Start > p.prevError.Start) : p.unexpected = some p := by
  simp only [parser.unexpected, Option.bind_eq_bind, Option.some_bind, ht, if_neg hgt,
    Option.pure_def]

theorem expect_below (p : parser) (t : Token) (k : T) (ht : p.current = some t)
    (hk : k ≠ t.Kind) (heof : t.Kind = TEndOfFile)
    (hgt : ¬ t.Range.Loc.Start > p.prevError.Start) : p.expect k = some (false, p) := by
  simp only [parser.expect, (eat_of_current p t ht k).2 hk, Option.bind_eq_bind,
    Option.some_bind, ht, Bool.false_eq_true, if_false, if_pos heof, Option.pure_def,
    if_neg hgt]

/-- After `advance`, the parser `Parse` sets up over one token is at the
`EndOfFile` token that `at` places at `int32(len(source))`. -/
theorem advance_fresh (log : Log) (source : List Nat) (token : Token) :
    (parser.fresh log source [token]).run [Op.advance] =
        some { parser.fresh log source [token] with index := 1 } ∧
      parser.current { parser.fresh log source [token] with index := 1 } =
        some { Range := { Loc := { Start := int32 (source.length : Int) }, Len := 0 },
               Kind := TEndOfFile } :=
  ⟨rfl, rfl⟩

/-- C16 as stated fails: over the tokens of the source of `2^31` letters `a`,
the run that is one `advance` reaches the `EndOfFile` token, which `at` places
at offset `-2^31`, below the watermark `-1`; no diagnostic has been emitted, and
yet `unexpected` and a failing `expect` emit none and leave the state as it is. -/
theorem run_watermark_counterexample :
    ∃ tokens p t,
      Tokenize [] wideName = some (tokens, []) ∧
      (parser.fresh [] wideName tokens).run [Op.advance] = some p ∧
      p.current = some t ∧ p.log = [] ∧
      p.prevError.Start = -1 ∧ t.Range.Loc.Start = -2147483648 ∧
      t.Kind = TEndOfFile ∧
      p.unexpected = some p ∧ p.expect TText = some (false, p) := by
  obtain ⟨hrun, hcur⟩ := advance_fresh [] wideName
    { Range := { Loc := { Start := 0 }, Len := -2147483648 }, Kind := TName }
  have hstart : int32 (wideName.length : Int) = -2147483648 := by
    rw [wideName_length]
    decide
  rw [hstart] at hcur
  exact ⟨_, _, _, wideName_tokens [], hrun, hcur, rfl, rfl, rfl, rfl,
    unexpected_below _ _ hcur (by decide), expect_below _ _ TText hcur (by decide) rfl (by decide)⟩

/-- C12 as stated fails: in the parser `Parse` sets up over the tokens of the
source of `2^31` letters `a`, the logical end is the number of tokens, and
`at(i)` at the logical end returns an `EndOfFile` token placed at offset `-2^31`,
not at the length of the source, which is `2^31`. -/
theorem at_wrap_counterexample :
    ∃ tokens, Tokenize [] wideName = some (tokens, []) ∧
      wideName.length = 2147483648 ∧
      (parser.fresh [] wideName tokens).«end» = tokens.length ∧
      (parser.fresh [] wideName tokens).«at» tokens.length =
        some { Range := { Loc := { Start := -2147483648 }, Len := 0 }, Kind := TEndOfFile } := by
  have hstart : int32 (wideName.length : Int) = -2147483648 := by
    rw [wideName_length]
    decide
  refine ⟨_, wideName_tokens [], wideName_length, rfl, ?_⟩
  simp only [parser.«at», parser.fresh, lt_irrefl, if_false, hstart]

/-- C20 as stated fails: the one token `Tokenize` returns on the source of `2^31`
letters `a` has the recorded length `-2^31`, which is not at least 1. -/
theorem end_of_file_synthetic_counterexample :
    ∃ t, Tokenize [] wideName = some ([t], []) ∧ t.Kind = TName ∧
      t.Range.Len = -2147483648 ∧ ¬ 1 ≤ t.Range.Len :=
  ⟨_, wideName_tokens [], rfl, rfl, by decide⟩

end htmlparser
